import Mathlib

/-!
# CT-HYB: operator timeline and update histograms

A shallow embedding of `src/operator.hpp` and `src/update_histogram.hpp`.

Conventions of the embedding
* A C++ `double` is an exact rational (`ℚ`): comparisons, `+`, `*`, `std::floor`,
  `std::min`, `std::max` are the exact ones.  Rounding, signed zeros and the range of
  `double` are outside the model.  The one place where a result depends on the rounding
  is the bin index of the domain remap: the definitions named `..._double` compute it
  with every operation rounded to the nearest double (`double_round`), next to the
  definitions `rebin4_loop` and `rebin4` that compute it exactly.
* A C++ `int` is an `Int`; no arithmetic in the embedded code relies on wrap-around, and
  a `static_cast<int>` of a finite value is that value (it is taken to fit an `int`).
* A `std::valarray<double>` is a `List ℚ`; the traversal of a container from `begin()`
  to `end()` is a list, an iterator is a position in it, `end()` is its length.
* A function that can throw, or abort on `assert`, returns `Except String _`.  Where the
  function takes the object by reference and throws, the state after the call is
  returned next to the outcome.
-/

namespace CTHYB

/-! ## operator.hpp -/

/-- The enumeration `OPERATOR_TYPE`. -/
inductive OPERATOR_TYPE where
  | CREATION_OP
  | ANNIHILATION_OP
  | INVALID_OP
  deriving DecidableEq, Repr

/-- The class `psi`: the private members `t_`, `site_`, `flavor_`, `type_`. -/
structure psi where
  t_ : ℚ
  site_ : Int
  flavor_ : Int
  type_ : OPERATOR_TYPE
  deriving DecidableEq

namespace psi

/-- The constructor `psi()`. -/
def ctor0 : psi := { t_ := 0, type_ := OPERATOR_TYPE.INVALID_OP, flavor_ := 0, site_ := 0 }

/-- The constructor `psi(double t, OPERATOR_TYPE type, int flavor)`. -/
def ctor (t : ℚ) (type : OPERATOR_TYPE) (flavor : Int) : psi :=
  { t_ := t, type_ := type, flavor_ := flavor, site_ := 0 }

/-- The accessor `time()`. -/
def time (p : psi) : ℚ := p.t_

/-- The accessor `flavor()`. -/
def flavor (p : psi) : Int := p.flavor_

/-- The accessor `type()`. -/
def type (p : psi) : OPERATOR_TYPE := p.type_

/-- The free function `operator<(const psi&, const psi&)`: compares the times only. -/
def lt (t1 t2 : psi) : Bool := decide (t1.time < t2.time)

/-- The free function `operator==(const psi&, const psi&)`: time, type and flavor. -/
def eq (op1 op2 : psi) : Bool :=
  decide (op1.time = op2.time) && decide (op1.type = op2.type) &&
    decide (op1.flavor = op2.flavor)

/-- Two keys are equivalent for an ordered index with comparison `operator<` when neither
is less than the other. -/
def equiv (a b : psi) : Bool := !(lt a b) && !(lt b a)

end psi

/-- The type `operator_container_t = boost::multi_index::multi_index_container<psi>`.
With the default index list this is one `ordered_unique<identity<psi>>` index whose
comparison is `std::less<psi>`, that is `operator<(psi, psi)`.  The value is the
traversal from `begin()` to `end()`. -/
abbrev operator_container_t := List psi

namespace operator_container_t

/-- The iterator `end()`. -/
def end_ (operators : operator_container_t) : Nat := operators.length

/-- The member `find(x)` of the ordered index: the position of an element whose key is
equivalent to `x`, or `end()` if there is none. -/
def find : operator_container_t → psi → Nat
  | [], _ => 0
  | e :: rest, x => if psi.equiv e x then 0 else find rest x + 1

/-- The place at which the ordered index links a new element: after the elements that
are less than it. -/
def link : operator_container_t → psi → operator_container_t
  | [], x => [x]
  | e :: rest, x => if psi.lt x e then x :: e :: rest else e :: link rest x

/-- The position of the element linked by `link`. -/
def link_point : operator_container_t → psi → Nat
  | [], _ => 0
  | e :: rest, x => if psi.lt x e then 0 else link_point rest x + 1

/-- The member `insert(x)` of the unique ordered index: `x` is inserted if no element
with an equivalent key exists.  The result is the container after the call and the pair
returned: the position of the inserted element and `true`, or the position of the
element that banned the insertion and `false`. -/
def insert (operators : operator_container_t) (x : psi) :
    operator_container_t × (Nat × Bool) :=
  if find operators x = operators.end_ then
    (link operators x, (link_point operators x, true))
  else
    (operators, (find operators x, false))

/-- The member `erase(position)`. -/
def erase (operators : operator_container_t) (position : Nat) : operator_container_t :=
  operators.eraseIdx position

end operator_container_t

/-- The function `safe_erase`: the container after the call, and the outcome. -/
def safe_erase (operators : operator_container_t) (op : psi) :
    operator_container_t × Except String Unit :=
  let it_target := operators.find op
  if it_target = operators.end_ then
    (operators, Except.error "Error in safe_erase: op is not found.")
  else
    (operators.erase it_target, Except.ok ())

/-- The function `safe_insert`: the container after the call, and the outcome.  The
diagnostic output written before the throw is not part of the state. -/
def safe_insert (operators : operator_container_t) (op : psi) :
    operator_container_t × Except String (Nat × Bool) :=
  let r := operators.insert op
  if !r.2.2 then
    (r.1, Except.error "problem, cannot insert a operator")
  else
    (r.1, Except.ok r.2)

/-- A call of the timeline interface: `safe_insert(operators, op)` or
`safe_erase(operators, op)`. -/
inductive timeline_call where
  | insert (op : psi)
  | erase (op : psi)

/-- The event a call is made with. -/
def timeline_call.op : timeline_call → psi
  | timeline_call.insert op => op
  | timeline_call.erase op => op

/-- The container after one call; the caller carries on with the container as the call
left it, also when the call has thrown. -/
def apply_call (operators : operator_container_t) : timeline_call → operator_container_t
  | timeline_call.insert op => (safe_insert operators op).1
  | timeline_call.erase op => (safe_erase operators op).1

/-- The container after a sequence of calls on an initially empty container. -/
def run_calls (calls : List timeline_call) : operator_container_t :=
  calls.foldl apply_call []

/-- The key the reference model uses: the triple (time, kind, flavor). -/
abbrev key_t := ℚ × OPERATOR_TYPE × Int

/-- The triple (time, kind, flavor) of an event. -/
def psi.key (p : psi) : key_t := (p.time, p.type, p.flavor)

/-- The reference ordered-set model of the specification, keyed by the full triple:
insert-if-absent and erase-if-present. -/
def reference_apply (s : Finset key_t) : timeline_call → Finset key_t
  | timeline_call.insert op => if op.key ∈ s then s else Insert.insert op.key s
  | timeline_call.erase op => if op.key ∈ s then s.erase op.key else s

/-- The reference set after a sequence of calls on an initially empty set. -/
def reference_run (calls : List timeline_call) : Finset key_t :=
  calls.foldl reference_apply ∅

/-- The set of triples held by a timeline. -/
def held_keys (operators : operator_container_t) : Finset key_t :=
  (operators.map psi.key).toFinset

/-- The invariant of the ordered unique index: the traversal is strictly ascending in
the comparison `operator<`, that is in time. -/
def ordered_unique (operators : operator_container_t) : Prop :=
  operators.Pairwise (fun a b => a.time < b.time)

/-! ## update_histogram.hpp -/

/-- The function `all_reduce` on a communicator of a single worker: the element-wise sum
over the workers is the input of the only worker. -/
def all_reduce (in_vals : List ℚ) : Except String (List ℚ) :=
  if 0 < in_vals.length then Except.ok in_vals
  else Except.error "assert(in_vals.size()>0)"

/-- The loop of `rebin(org_array, maxval, maxval_new, new_len)`.  The first list is the
part of `org_array` from index `i` on, `new_array` is the destination so far; the result
is the destination when the loop ends or breaks.  Here `cent` and `pos` are computed in
exact arithmetic; `rebin4_loop_double` computes them as the doubles of the code. -/
def rebin4_loop (maxval maxval_new : ℚ) (new_len old_len : Nat) :
    List ℚ → Nat → List ℚ → List ℚ
  | [], _, new_array => new_array
  | x :: rest, i, new_array =>
    let cent : ℚ := ((i : ℚ) + 1 / 2) * (maxval / (old_len : ℚ))
    let pos : Int := ⌊(new_len : ℚ) * cent / maxval_new⌋
    let new_array1 :=
      if 0 ≤ pos ∧ pos < (new_len : Int) then
        new_array.set pos.toNat (new_array.getD pos.toNat 0 + x)
      else new_array
    if pos > (new_len : Int) then new_array1
    else rebin4_loop maxval maxval_new new_len old_len rest (i + 1) new_array1

/-- The overload `rebin(org_array, maxval, maxval_new, new_len)`; the result is the new
content of `org_array`.  The assertion aborts the call.  With `maxval_new == 0` and a
non-empty source the quotient is not finite and its conversion to `int` is undefined. -/
def rebin4 (org_array : List ℚ) (maxval maxval_new : ℚ) (new_len : Nat) :
    Except String (List ℚ) :=
  if ¬ maxval_new ≤ maxval then Except.error "assert(maxval_new<=maxval)"
  else if maxval_new = 0 ∧ org_array ≠ [] then
    Except.error "undefined: conversion of a non-finite double to int"
  else
    Except.ok (rebin4_loop maxval maxval_new new_len org_array.length org_array 0
      (List.replicate new_len 0))

/-- The value of a double quotient `a / b` of two finite doubles: the exact quotient, or
the IEEE-754 value of a division by zero. -/
inductive ieee_quotient where
  | nan
  | neg_inf
  | finite (q : ℚ)
  | pos_inf

/-- The quotient `a / b`. -/
def ieee_div (a b : ℚ) : ieee_quotient :=
  if b = 0 then
    if a = 0 then ieee_quotient.nan
    else if 0 < a then ieee_quotient.pos_inf
    else ieee_quotient.neg_inf
  else ieee_quotient.finite (a / b)

/-- The comparison `r > c` with a finite `c`. -/
def ieee_quotient.gt (r : ieee_quotient) (c : ℚ) : Bool :=
  match r with
  | ieee_quotient.nan => false
  | ieee_quotient.neg_inf => false
  | ieee_quotient.finite q => decide (c < q)
  | ieee_quotient.pos_inf => true

/-- The comparison `r < c` with a finite `c`. -/
def ieee_quotient.lt (r : ieee_quotient) (c : ℚ) : Bool :=
  match r with
  | ieee_quotient.nan => false
  | ieee_quotient.neg_inf => true
  | ieee_quotient.finite q => decide (q < c)
  | ieee_quotient.pos_inf => false

/-- The class `scalar_histogram`: its private members. -/
structure scalar_histogram where
  num_bins_ : Int
  num_sample_ : Int
  max_val_ : ℚ
  sumval : List ℚ
  sumval2 : List ℚ
  counter : List ℚ

namespace scalar_histogram

/-- The constructor `scalar_histogram()`. -/
def ctor0 : scalar_histogram :=
  { num_bins_ := 0, num_sample_ := 0, max_val_ := 0, sumval := [], sumval2 := [],
    counter := [] }

/-- The constructor `scalar_histogram(int num_bins_, double max_val)`. -/
def ctor (num_bins_ : Int) (max_val : ℚ) : scalar_histogram :=
  { num_bins_ := num_bins_, num_sample_ := 0, max_val_ := max_val,
    sumval := List.replicate num_bins_.toNat 0,
    sumval2 := List.replicate num_bins_.toNat 0,
    counter := List.replicate num_bins_.toNat 0 }

/-- The member `init(int num_bins_, double max_val)`. -/
def init (_h : scalar_histogram) (num_bins_ : Int) (max_val : ℚ) : scalar_histogram :=
  { num_bins_ := num_bins_, num_sample_ := 0, max_val_ := max_val,
    sumval := List.replicate num_bins_.toNat 0,
    sumval2 := List.replicate num_bins_.toNat 0,
    counter := List.replicate num_bins_.toNat 0 }

/-- The member `add_sample(distance, value)`: the value returned and the histogram after
the call.  With `max_val_ == 0` the quotient is not finite and its conversion to `int`
is undefined. -/
def add_sample (h : scalar_histogram) (distance value : ℚ) :
    Except String (Bool × scalar_histogram) :=
  if h.max_val_ = 0 then
    Except.error "undefined: conversion of a non-finite double to int"
  else
    let pos : Int := ⌊(h.num_bins_ : ℚ) * distance / h.max_val_⌋
    if 0 ≤ pos ∧ pos < h.num_bins_ then
      Except.ok (true,
        { h with
          num_sample_ := h.num_sample_ + 1
          sumval := h.sumval.set pos.toNat (h.sumval.getD pos.toNat 0 + value)
          sumval2 := h.sumval2.set pos.toNat (h.sumval2.getD pos.toNat 0 + value * value)
          counter := h.counter.set pos.toNat (h.counter.getD pos.toNat 0 + 1) })
    else
      Except.ok (false, h)

/-- The constant `min_count` of `update_cutoff`. -/
def min_count : ℚ := 10

/-- The constant `ndiv` of `update_cutoff`. -/
def ndiv : Nat := 4

/-- The inner loop of `update_cutoff` over the coarse bins.  The list is the part of
`counter_tmp` from index `i` on; the result is `(flag, maxval)` after the loop. -/
def scan_bins (sumval_tmp : List ℚ) : List ℚ → Nat → ℚ → Bool × ℚ
  | [], _, maxval => (false, maxval)
  | c :: rest, i, maxval =>
    if c < min_count then (true, maxval)
    else scan_bins sumval_tmp rest (i + 1) (max maxval (sumval_tmp.getD i 0 / c))

/-- One pass through the body of the loop `for (update ...)` of `update_cutoff`, entered
with the candidate `maxdist_new`: `none` when the body returns `(false, maxdist_new)`,
otherwise the candidate with which the next pass is entered. -/
def update_cutoff_round (max_val_ : ℚ) (counter_gathered sumval_gathered : List ℚ)
    (cutoff_ratio mag maxdist_new : ℚ) : Except String (Option ℚ) :=
  match rebin4 counter_gathered max_val_ maxdist_new ndiv with
  | Except.error e => Except.error e
  | Except.ok counter_tmp =>
    match rebin4 sumval_gathered max_val_ maxdist_new ndiv with
    | Except.error e => Except.error e
    | Except.ok sumval_tmp =>
      let r := scan_bins sumval_tmp counter_tmp 0 (-1)
      if r.1 = true ∨ r.2 < 0 then Except.ok none
      else
        let ratio :=
          ieee_div (sumval_tmp.getD (ndiv - 1) 0 / counter_tmp.getD (ndiv - 1) 0) r.2
        if ratio.gt cutoff_ratio = true then Except.ok (some (maxdist_new * mag))
        else if ratio.lt cutoff_ratio = true then Except.ok (some (maxdist_new / mag))
        else Except.ok (some maxdist_new)

/-- The loop `for (int update=0; update<10; ++update)` of `update_cutoff` with the given
number of passes left. -/
def update_cutoff_loop (max_val_ : ℚ) (counter_gathered sumval_gathered : List ℚ)
    (cutoff_ratio mag : ℚ) : Nat → ℚ → Except String (Bool × ℚ)
  | 0, maxdist_new => Except.ok (true, maxdist_new)
  | n + 1, maxdist_new =>
    match update_cutoff_round max_val_ counter_gathered sumval_gathered cutoff_ratio mag
        maxdist_new with
    | Except.error e => Except.error e
    | Except.ok none => Except.ok (false, maxdist_new)
    | Except.ok (some d) =>
      update_cutoff_loop max_val_ counter_gathered sumval_gathered cutoff_ratio mag n d

/-- The member `update_cutoff(cutoff_ratio, maxdist, mag, alps_comm)` on a communicator
of a single worker. -/
def update_cutoff (h : scalar_histogram) (cutoff_ratio maxdist mag : ℚ) :
    Except String (Bool × ℚ) :=
  if ¬ (0 ≤ cutoff_ratio ∧ cutoff_ratio ≤ 1) then
    Except.error "assert(cutoff_ratio>=0.0 && cutoff_ratio<=1.0)"
  else if ¬ 1 ≤ mag then Except.error "assert(mag>=1.0)"
  else if h.sumval.length ≠ h.counter.length then
    Except.error "assert(sumval.size()==num_data)"
  else
    match all_reduce h.counter with
    | Except.error e => Except.error e
    | Except.ok counter_gathered =>
      match all_reduce h.sumval with
      | Except.error e => Except.error e
      | Except.ok sumval_gathered =>
        update_cutoff_loop h.max_val_ counter_gathered sumval_gathered cutoff_ratio mag 10
          maxdist

end scalar_histogram

/-- The class `scalar_histogram_flavors`: its private members. -/
structure scalar_histogram_flavors where
  flavors : Int
  num_bins : Int
  max_val : ℚ
  histograms : List scalar_histogram

namespace scalar_histogram_flavors

/-- The constructor `scalar_histogram_flavors(int num_bins_, double max_val, int flavors)`. -/
def ctor (num_bins_ : Int) (max_val : ℚ) (flavors : Int) : scalar_histogram_flavors :=
  { flavors := flavors, num_bins := num_bins_, max_val := max_val,
    histograms :=
      List.replicate flavors.toNat (scalar_histogram.ctor0.init num_bins_ max_val) }

/-- The loop of `update_cutoff` over the histograms: the value of `maxdist_new` after
it. -/
def update_cutoff_loop (cutoff_ratio maxdist mag : ℚ) :
    List scalar_histogram → ℚ → Except String ℚ
  | [], maxdist_new => Except.ok maxdist_new
  | h :: rest, maxdist_new =>
    match h.update_cutoff cutoff_ratio maxdist mag with
    | Except.error e => Except.error e
    | Except.ok r => update_cutoff_loop cutoff_ratio maxdist mag rest (max maxdist_new r.2)

/-- The member `update_cutoff(cutoff_ratio, maxdist, mag, alps_comm)`.  With
`num_bins == 0` the quotient `max_val/num_bins` is not a finite double. -/
def update_cutoff (b : scalar_histogram_flavors) (cutoff_ratio maxdist mag : ℚ) :
    Except String ℚ :=
  match update_cutoff_loop cutoff_ratio maxdist mag b.histograms (-1) with
  | Except.error e => Except.error e
  | Except.ok maxdist_new =>
    if ¬ 0 < maxdist_new then Except.error "assert(maxdist_new>0)"
    else if b.num_bins = 0 then Except.error "max_val/num_bins is not finite"
    else Except.ok (max (min b.max_val maxdist_new) (b.max_val / (b.num_bins : ℚ)))

end scalar_histogram_flavors

/-- The class invariant of `scalar_histogram`: the three buffers have `num_bins_`
entries, as after the constructor and after `init`. -/
def scalar_histogram.well_formed (h : scalar_histogram) : Prop :=
  h.sumval.length = h.num_bins_.toNat ∧ h.sumval2.length = h.num_bins_.toNat ∧
    h.counter.length = h.num_bins_.toNat

/-- The candidate with which pass `k` of the loop of `update_cutoff` is entered when the
first pass is entered with `D` and none of the passes before `k` returns or aborts;
`none` when one of them does. -/
def scalar_histogram.candidate_after (max_val_ : ℚ) (counter_gathered sumval_gathered : List ℚ)
    (cutoff_ratio mag : ℚ) : Nat → ℚ → Option ℚ
  | 0, D => some D
  | k + 1, D =>
    match scalar_histogram.update_cutoff_round max_val_ counter_gathered sumval_gathered
        cutoff_ratio mag D with
    | Except.ok (some D1) =>
      scalar_histogram.candidate_after max_val_ counter_gathered sumval_gathered cutoff_ratio
        mag k D1
    | _ => none

/-! ## operator.hpp: equal-time operators -/

/-- The class template `EqualTimeOperator<N>`: the members `flavors_`, a
`boost::array<int,2*N>`, and `time_`. -/
structure EqualTimeOperator (N : Nat) where
  flavors_ : List Int
  time_ : ℚ
  size_flavors_ : flavors_.length = 2 * N

namespace EqualTimeOperator

/-- The constructor `EqualTimeOperator()`. -/
def ctor0 (N : Nat) : EqualTimeOperator N :=
  { flavors_ := List.replicate (2 * N) (-1), time_ := -1,
    size_flavors_ := List.length_replicate _ _ }

/-- The member `flavor(int idx)`, with its assertion. -/
def flavor {N : Nat} (op : EqualTimeOperator N) (idx : Int) : Except String Int :=
  if 0 ≤ idx ∧ idx < 2 * (N : Int) then Except.ok (op.flavors_.getD idx.toNat 0)
  else Except.error "assert(idx>=0 && idx<2*N)"

/-- The member `get_time()`. -/
def get_time {N : Nat} (op : EqualTimeOperator N) : ℚ := op.time_

/-- The loop of `operator<` from `idigit` on, with the number of digits left. -/
def lt_loop {N : Nat} (op1 op2 : EqualTimeOperator N) : Nat → Nat → Except String Bool
  | 0, _ => Except.ok false
  | n + 1, idigit =>
    match op1.flavor idigit, op2.flavor idigit with
    | Except.ok f1, Except.ok f2 =>
      if f1 < f2 then Except.ok true
      else if f1 > f2 then Except.ok false
      else lt_loop op1 op2 n (idigit + 1)
    | Except.error e, _ => Except.error e
    | _, Except.error e => Except.error e

/-- The function template `operator<(EqualTimeOperator<N>, EqualTimeOperator<N>)`. -/
def lt {N : Nat} (op1 op2 : EqualTimeOperator N) : Except String Bool :=
  lt_loop op1 op2 N 0

end EqualTimeOperator

/-- The lexicographic comparison of two tuples of flavors, as the specification words
the order of equal-time operators. -/
def lex_lt : List Int → List Int → Bool
  | a :: as, b :: bs => decide (a < b) || (decide (a = b) && lex_lt as bs)
  | _, _ => false

/-! ## update_histogram.hpp: merge rebinning, means, reset, the bank's accessors -/

/-- The inner loop of `rebin(org_array, nrebin)` with the number of passes left: the
values of `sum` and `count` after it. -/
def rebin2_inner (org_array : List ℚ) : Nat → Nat → ℚ → ℚ × Nat
  | 0, count, sum => (sum, count)
  | j + 1, count, sum =>
    rebin2_inner org_array j (count + 1) (sum + org_array.getD count 0)

/-- The outer loop of `rebin(org_array, nrebin)` with the number of passes left: the
entries of `new_array` from the current `i` on. -/
def rebin2_loop (org_array : List ℚ) (nrebin : Nat) : Nat → Nat → List ℚ
  | 0, _ => []
  | n + 1, count =>
    (rebin2_inner org_array nrebin count 0).1 ::
      rebin2_loop org_array nrebin n (rebin2_inner org_array nrebin count 0).2

/-- The overload `rebin(org_array, nrebin)`; the result is the new content of
`org_array`.  With `nrebin == 0` the division `org_array.size()/nrebin` is undefined; a
negative `nrebin` is converted to a huge unsigned value and the quotient is 0. -/
def rebin2 (org_array : List ℚ) (nrebin : Int) : Except String (List ℚ) :=
  if nrebin = 0 then Except.error "undefined: division by zero"
  else if nrebin < 0 then Except.ok []
  else
    Except.ok (rebin2_loop org_array nrebin.toNat (org_array.length / nrebin.toNat) 0)

/-- The loop of `rebin(org_array, maxval, maxval_new, new_len)` with its `break`
statement taken out. -/
def rebin4_loop_nobreak (maxval maxval_new : ℚ) (new_len old_len : Nat) :
    List ℚ → Nat → List ℚ → List ℚ
  | [], _, new_array => new_array
  | x :: rest, i, new_array =>
    let cent : ℚ := ((i : ℚ) + 1 / 2) * (maxval / (old_len : ℚ))
    let pos : Int := ⌊(new_len : ℚ) * cent / maxval_new⌋
    let new_array1 :=
      if 0 ≤ pos ∧ pos < (new_len : Int) then
        new_array.set pos.toNat (new_array.getD pos.toNat 0 + x)
      else new_array
    rebin4_loop_nobreak maxval maxval_new new_len old_len rest (i + 1) new_array1

/-- The result of the domain remap as the specification words it: a sequence of length
`L` whose `j`-th element is the sum of `a[i]` over all source indices `i` in `[0, n)`
with `floor(L * ((i+0.5)*M/n) / M') = j`. -/
def rebin4_spec (a : List ℚ) (M M1 : ℚ) (L : Nat) : List ℚ :=
  (List.range L).map (fun (j : Nat) =>
    (a.enum.map (fun (p : Nat × ℚ) =>
      if ⌊(L : ℚ) * (((p.1 : ℚ) + 1 / 2) * M / (a.length : ℚ)) / M1⌋ = (j : Int) then p.2
      else 0)).sum)

namespace scalar_histogram

/-- The loop of `get_mean()` with the number of passes left.  Entry `i` of `mean` still
holds `sumval[i]` when pass `i` divides it by `counter[i]`. -/
def get_mean_loop (h : scalar_histogram) : Nat → Nat → List ieee_quotient → List ieee_quotient
  | 0, _, mean => mean
  | n + 1, i, mean =>
    get_mean_loop h n (i + 1) (mean.set i (ieee_div (h.sumval.getD i 0) (h.counter.getD i 0)))

/-- The loop of `reset()` with the number of passes left. -/
def reset_loop : Nat → Nat → scalar_histogram → scalar_histogram
  | 0, _, h => h
  | n + 1, i, h =>
    reset_loop n (i + 1)
      { h with
        sumval := h.sumval.set i 0
        sumval2 := h.sumval2.set i 0
        counter := h.counter.set i 0 }

/-- The member `reset()`. -/
def reset (h : scalar_histogram) : scalar_histogram :=
  reset_loop h.num_bins_.toNat 0 { h with num_sample_ := 0 }

/-- The member `num_bins()`. -/
def num_bins (h : scalar_histogram) : Int := h.num_bins_

/-- The member `get_num_sample()`. -/
def get_num_sample (h : scalar_histogram) : Int := h.num_sample_

/-- A sequence of `add_sample(distance, value)` calls: the histogram after them. -/
def add_samples : scalar_histogram → List (ℚ × ℚ) → Except String scalar_histogram
  | h, [] => Except.ok h
  | h, s :: rest =>
    match h.add_sample s.1 s.2 with
    | Except.error e => Except.error e
    | Except.ok r => add_samples r.2 rest

end scalar_histogram

namespace scalar_histogram_flavors

/-- The member `add_sample(distance, value, flavor)`: the value returned and the bank
after the call.  Indexing `histograms` out of range is undefined. -/
def add_sample (b : scalar_histogram_flavors) (distance value : ℚ) (flavor : Int) :
    Except String (Bool × scalar_histogram_flavors) :=
  if ¬ (0 ≤ flavor ∧ flavor < b.flavors) then
    Except.error "assert(flavor>=0 && flavor<flavors)"
  else
    match b.histograms[flavor.toNat]? with
    | none => Except.error "undefined: histograms[flavor] out of range"
    | some h =>
      match h.add_sample distance value with
      | Except.error e => Except.error e
      | Except.ok r =>
        Except.ok (r.1, { b with histograms := b.histograms.set flavor.toNat r.2 })

/-- The loop of `reset()` over the histograms. -/
def reset_loop : List scalar_histogram → List scalar_histogram
  | [] => []
  | h :: rest => h.reset :: reset_loop rest

/-- The member `reset()`. -/
def reset (b : scalar_histogram_flavors) : scalar_histogram_flavors :=
  { b with histograms := reset_loop b.histograms }

/-- The member `get_num_bins()`. -/
def get_num_bins (b : scalar_histogram_flavors) : Int := b.num_bins

/-- The class invariant of `scalar_histogram_flavors` after its constructor: there are
`flavors` histograms, each with the bank's bin count and bound and with buffers of that
many entries. -/
def well_formed (b : scalar_histogram_flavors) : Prop :=
  0 ≤ b.flavors ∧ 0 ≤ b.num_bins ∧ b.histograms.length = b.flavors.toNat ∧
    ∀ h ∈ b.histograms, h.num_bins_ = b.num_bins ∧ h.max_val_ = b.max_val ∧ h.well_formed

end scalar_histogram_flavors

/-- The value of `pos` in pass `i` of the loop of
`rebin(org_array, maxval, maxval_new, new_len)`. -/
def rebin4_pos (maxval maxval_new : ℚ) (new_len old_len i : Nat) : Int :=
  ⌊(new_len : ℚ) * (((i : ℚ) + 1 / 2) * (maxval / (old_len : ℚ))) / maxval_new⌋

/-- The effect of the loop of `reset()` on one buffer: the entries `i, ..., i+n-1` are
set to 0. -/
def zero_range : Nat → Nat → List ℚ → List ℚ
  | 0, _, l => l
  | n + 1, i, l => zero_range n (i + 1) (l.set i 0)

/-! ## update_histogram.hpp: the bin index of the domain remap in double arithmetic -/

/-- The integer nearest to `x`; when `x` lies halfway between two integers, the even one
of the two. -/
def round_half_even (x : ℚ) : Int :=
  if x - (⌊x⌋ : ℚ) < 1 / 2 then ⌊x⌋
  else if 1 / 2 < x - (⌊x⌋ : ℚ) then ⌊x⌋ + 1
  else if ⌊x⌋ % 2 = 0 then ⌊x⌋
  else ⌊x⌋ + 1

/-- The spacing of the doubles around `x`: `2^(e-52)` for `2^e ≤ |x| < 2^(e+1)` (a
significand of 53 bits), and `2^(-1074)` in the subnormal range. -/
def double_ulp (x : ℚ) : ℚ := (2 : ℚ) ^ max (Int.log 2 |x| - 52) (-1074)

/-- The double that an arithmetic operation on doubles returns when its exact result is
`x`: the multiple of the spacing nearest to `x`, the one with the even significand at a
tie (IEEE-754 binary64, round to nearest even).  A result of magnitude `2^1024` or more,
which a double cannot hold, is outside the model. -/
def double_round (x : ℚ) : ℚ :=
  (round_half_even (x / double_ulp x) : ℚ) * double_ulp x

/-- The value of `pos` in pass `i` of the loop of
`rebin(org_array, maxval, maxval_new, new_len)` in double arithmetic: each of the five
operations `i+0.5`, `maxval/old_len`, their product `cent`, `new_len*cent` and the
quotient by `maxval_new` returns the double nearest to its exact result.  The conversions
of the `int` values `i`, `old_len` and `new_len` to `double` are exact. -/
def rebin4_pos_double (maxval maxval_new : ℚ) (new_len old_len i : Nat) : Int :=
  ⌊double_round (double_round ((new_len : ℚ) *
    double_round (double_round ((i : ℚ) + 1 / 2) * double_round (maxval / (old_len : ℚ)))) /
      maxval_new)⌋

/-- The loop of `rebin(org_array, maxval, maxval_new, new_len)` with `cent` and `pos`
computed in double arithmetic.  The first list is the part of `org_array` from index `i`
on, `new_array` is the destination so far.  The additions into the destination are the
exact ones. -/
def rebin4_loop_double (maxval maxval_new : ℚ) (new_len old_len : Nat) :
    List ℚ → Nat → List ℚ → List ℚ
  | [], _, new_array => new_array
  | x :: rest, i, new_array =>
    let cent : ℚ :=
      double_round (double_round ((i : ℚ) + 1 / 2) * double_round (maxval / (old_len : ℚ)))
    let pos : Int := ⌊double_round (double_round ((new_len : ℚ) * cent) / maxval_new)⌋
    let new_array1 :=
      if 0 ≤ pos ∧ pos < (new_len : Int) then
        new_array.set pos.toNat (new_array.getD pos.toNat 0 + x)
      else new_array
    if pos > (new_len : Int) then new_array1
    else rebin4_loop_double maxval maxval_new new_len old_len rest (i + 1) new_array1

/-- The loop of `rebin4_loop_double` with its `break` statement taken out. -/
def rebin4_loop_double_nobreak (maxval maxval_new : ℚ) (new_len old_len : Nat) :
    List ℚ → Nat → List ℚ → List ℚ
  | [], _, new_array => new_array
  | x :: rest, i, new_array =>
    let cent : ℚ :=
      double_round (double_round ((i : ℚ) + 1 / 2) * double_round (maxval / (old_len : ℚ)))
    let pos : Int := ⌊double_round (double_round ((new_len : ℚ) * cent) / maxval_new)⌋
    let new_array1 :=
      if 0 ≤ pos ∧ pos < (new_len : Int) then
        new_array.set pos.toNat (new_array.getD pos.toNat 0 + x)
      else new_array
    rebin4_loop_double_nobreak maxval maxval_new new_len old_len rest (i + 1) new_array1

/-- The overload `rebin(org_array, maxval, maxval_new, new_len)` with the bin index
computed in double arithmetic; the result is the new content of `org_array`.  The
assertion aborts the call.  With `maxval_new == 0` and a non-empty source the quotient is
not finite and its conversion to `int` is undefined. -/
def rebin4_double (org_array : List ℚ) (maxval maxval_new : ℚ) (new_len : Nat) :
    Except String (List ℚ) :=
  if ¬ maxval_new ≤ maxval then Except.error "assert(maxval_new<=maxval)"
  else if maxval_new = 0 ∧ org_array ≠ [] then
    Except.error "undefined: conversion of a non-finite double to int"
  else
    Except.ok (rebin4_loop_double maxval maxval_new new_len org_array.length org_array 0
      (List.replicate new_len 0))

/-- The result of the domain remap in words, with the index the code computes: a sequence
of length `L` whose `j`-th element is the sum of `a[i]` over all source indices `i` in
`[0, n)` whose index `pos`, computed in double arithmetic, is `j`. -/
def rebin4_spec_double (a : List ℚ) (M M1 : ℚ) (L : Nat) : List ℚ :=
  (List.range L).map (fun (j : Nat) =>
    (a.enum.map (fun (p : Nat × ℚ) =>
      if rebin4_pos_double M M1 L a.length p.1 = (j : Int) then p.2 else 0)).sum)

/-! ## Theorems: the operator timeline -/

theorem psi_equiv_iff (a b : psi) : psi.equiv a b = true ↔ a.time = b.time := by
  simp only [psi.equiv, psi.lt, Bool.and_eq_true, Bool.not_eq_true', decide_eq_false_iff_not,
    not_lt]
  constructor
  · rintro ⟨h1, h2⟩
    exact le_antisymm h2 h1
  · intro h
    exact ⟨h.ge, h.le⟩

theorem psi_eq_time (a b : psi) (h : psi.eq a b = true) : a.time = b.time := by
  simp only [psi.eq, Bool.and_eq_true, decide_eq_true_eq] at h
  exact h.1.1

theorem find_le (ops : operator_container_t) (x : psi) : ops.find x ≤ ops.length := by
  induction ops with
  | nil => simp [operator_container_t.find]
  | cons e rest ih =>
    simp only [operator_container_t.find, List.length_cons]
    split
    · omega
    · omega

theorem find_eq_end_iff (ops : operator_container_t) (x : psi) :
    ops.find x = ops.length ↔ ∀ e ∈ ops, e.time ≠ x.time := by
  induction ops with
  | nil => simp [operator_container_t.find]
  | cons e rest ih =>
    simp only [operator_container_t.find, List.length_cons, List.mem_cons, forall_eq_or_imp]
    by_cases h : psi.equiv e x = true
    · simp only [h, if_true]
      have := (psi_equiv_iff e x).1 h
      constructor
      · intro h0; omega
      · intro h1; exact absurd this h1.1
    · simp only [h, if_false, Bool.false_eq_true]
      have hne : e.time ≠ x.time := fun h2 => h ((psi_equiv_iff e x).2 h2)
      constructor
      · intro h0
        exact ⟨hne, ih.1 (by omega)⟩
      · intro h1
        have := ih.2 h1.2
        omega

theorem find_get (ops : operator_container_t) (x e : psi)
    (h : ops[ops.find x]? = some e) : e.time = x.time := by
  induction ops with
  | nil => simp at h
  | cons a rest ih =>
    simp only [operator_container_t.find] at h
    by_cases h1 : psi.equiv a x = true
    · simp only [h1, if_true, List.getElem?_cons_zero, Option.some.injEq] at h
      rw [← h]
      exact (psi_equiv_iff a x).1 h1
    · simp only [h1, if_false, Bool.false_eq_true, List.getElem?_cons_succ] at h
      exact ih h

theorem mem_link (ops : operator_container_t) (x y : psi) :
    y ∈ ops.link x ↔ y = x ∨ y ∈ ops := by
  induction ops with
  | nil => simp [operator_container_t.link]
  | cons e rest ih =>
    simp only [operator_container_t.link]
    split
    · simp
    · simp only [List.mem_cons, ih]
      tauto

theorem ordered_link (ops : operator_container_t) (x : psi) (h : ordered_unique ops)
    (hx : ∀ e ∈ ops, e.time ≠ x.time) : ordered_unique (ops.link x) := by
  induction ops with
  | nil => simp [operator_container_t.link, ordered_unique]
  | cons e rest ih =>
    simp only [ordered_unique, List.pairwise_cons] at h
    simp only [operator_container_t.link]
    by_cases h1 : psi.lt x e = true
    · simp only [h1, if_true, ordered_unique, List.pairwise_cons, List.mem_cons,
        forall_eq_or_imp]
      simp only [psi.lt, decide_eq_true_eq] at h1
      exact ⟨⟨h1, fun a ha => lt_trans h1 (h.1 a ha)⟩, h.1, h.2⟩
    · simp only [h1, if_false, Bool.false_eq_true, ordered_unique, List.pairwise_cons]
      simp only [psi.lt, decide_eq_true_eq, not_lt] at h1
      have hne : e.time ≠ x.time := hx e (List.mem_cons_self _ _)
      have hlt : e.time < x.time := lt_of_le_of_ne' h1 (fun h2 => hne h2.symm) |>.trans_le le_rfl
      refine ⟨?_, ih h.2 (fun a ha => hx a (List.mem_cons_of_mem _ ha))⟩
      intro a ha
      rcases (mem_link rest x a).1 ha with h3 | h3
      · rw [h3]; exact hlt
      · exact h.1 a h3

theorem ordered_eraseIdx (ops : operator_container_t) (i : Nat) (h : ordered_unique ops) :
    ordered_unique (ops.eraseIdx i) :=
  List.Pairwise.sublist (List.eraseIdx_sublist ops i) h

theorem ordered_safe_insert (ops : operator_container_t) (op : psi) (h : ordered_unique ops) :
    ordered_unique (safe_insert ops op).1 := by
  simp only [safe_insert, operator_container_t.insert, operator_container_t.end_]
  by_cases h1 : ops.find op = ops.length
  · simp only [h1, if_true]
    exact ordered_link ops op h ((find_eq_end_iff ops op).1 h1)
  · simpa [h1] using h

theorem ordered_safe_erase (ops : operator_container_t) (op : psi) (h : ordered_unique ops) :
    ordered_unique (safe_erase ops op).1 := by
  simp only [safe_erase, operator_container_t.erase, operator_container_t.end_]
  split
  · exact h
  · exact ordered_eraseIdx ops _ h

theorem ordered_apply_call (ops : operator_container_t) (c : timeline_call)
    (h : ordered_unique ops) : ordered_unique (apply_call ops c) := by
  cases c with
  | insert op => exact ordered_safe_insert ops op h
  | erase op => exact ordered_safe_erase ops op h

theorem ordered_foldl (calls : List timeline_call) (ops : operator_container_t)
    (h : ordered_unique ops) : ordered_unique (calls.foldl apply_call ops) := by
  induction calls generalizing ops with
  | nil => exact h
  | cons c rest ih => exact ih _ (ordered_apply_call ops c h)

theorem eraseIdx_find_eq_filter (ops : operator_container_t) (op : psi)
    (h : ordered_unique ops) :
    ops.eraseIdx (ops.find op) = ops.filter (fun y => decide (y.time ≠ op.time)) := by
  induction ops with
  | nil => simp
  | cons e rest ih =>
    simp only [ordered_unique, List.pairwise_cons] at h
    simp only [operator_container_t.find]
    by_cases h1 : psi.equiv e op = true
    · have ht := (psi_equiv_iff e op).1 h1
      simp only [h1, if_true, List.eraseIdx_cons_zero]
      rw [List.filter_cons_of_neg (by simp [ht])]
      symm
      rw [List.filter_eq_self]
      intro a ha
      have := h.1 a ha
      simp only [ne_eq, decide_not, Bool.not_eq_true', decide_eq_false_iff_not]
      rw [← ht]
      exact ne_of_gt this
    · have hne : e.time ≠ op.time := fun h2 => h1 ((psi_equiv_iff e op).2 h2)
      simp only [h1, if_false, Bool.false_eq_true, List.eraseIdx_cons_succ]
      rw [List.filter_cons_of_pos (by simpa using hne)]
      rw [ih h.2]

/-- C1: when the timeline holds an element equal to `op` in time, kind and flavor,
`safe_insert` throws and the timeline is, element for element and in the same order,
what it was before the call. -/
theorem safe_insert_duplicate_throws (operators : operator_container_t) (op : psi)
    (h : ∃ e ∈ operators, psi.eq e op = true) :
    safe_insert operators op =
      (operators, Except.error "problem, cannot insert a operator") := by
  obtain ⟨e, he, heq⟩ := h
  have hfind : operators.find op ≠ operators.length := by
    intro h0
    exact (find_eq_end_iff operators op).1 h0 e he (psi_eq_time e op heq)
  simp [safe_insert, operator_container_t.insert, operator_container_t.end_, hfind]

theorem safe_insert_duplicate_throws_witness :
    (∃ e ∈ [psi.ctor 1 OPERATOR_TYPE.CREATION_OP 0, psi.ctor 2 OPERATOR_TYPE.ANNIHILATION_OP 0],
        psi.eq e (psi.ctor 2 OPERATOR_TYPE.ANNIHILATION_OP 0) = true) ∧
      safe_insert [psi.ctor 1 OPERATOR_TYPE.CREATION_OP 0, psi.ctor 2 OPERATOR_TYPE.ANNIHILATION_OP 0]
          (psi.ctor 2 OPERATOR_TYPE.ANNIHILATION_OP 0) =
        ([psi.ctor 1 OPERATOR_TYPE.CREATION_OP 0, psi.ctor 2 OPERATOR_TYPE.ANNIHILATION_OP 0],
          Except.error "problem, cannot insert a operator") :=
  ⟨⟨psi.ctor 2 OPERATOR_TYPE.ANNIHILATION_OP 0, by simp, by simp [psi.eq]⟩,
    safe_insert_duplicate_throws _ _
      ⟨psi.ctor 2 OPERATOR_TYPE.ANNIHILATION_OP 0, by simp, by simp [psi.eq]⟩⟩

/-- C2 (as stated, refuted): on the timeline holding the single event (1, creation, 0),
`safe_erase` called with (1, annihilation, 0) succeeds and empties the timeline, although
no element equals the argument in time, kind and flavor. -/
theorem safe_erase_ignores_kind :
    (∀ e ∈ [psi.ctor 1 OPERATOR_TYPE.CREATION_OP 0],
        psi.eq e (psi.ctor 1 OPERATOR_TYPE.ANNIHILATION_OP 0) = false) ∧
      safe_erase [psi.ctor 1 OPERATOR_TYPE.CREATION_OP 0]
          (psi.ctor 1 OPERATOR_TYPE.ANNIHILATION_OP 0) = ([], Except.ok ()) := by
  constructor
  · simp [psi.eq, psi.ctor, psi.type]
  · simp [safe_erase, operator_container_t.find, operator_container_t.end_,
      operator_container_t.erase, psi.equiv, psi.lt, psi.ctor, psi.time]

/-- C2 (amended): on a timeline `safe_erase` succeeds exactly when an element with the
time of `op` is present, whatever its kind and flavor; it then removes that element, the
only one with that time, and no other; when no element has the time of `op` it throws
and the timeline is unchanged. -/
theorem safe_erase_by_time (operators : operator_container_t) (op : psi)
    (h : ordered_unique operators) :
    ((safe_erase operators op).2 = Except.ok () ↔ ∃ e ∈ operators, e.time = op.time) ∧
    ((∃ e ∈ operators, e.time = op.time) →
      (safe_erase operators op).1 = operators.filter (fun y => decide (y.time ≠ op.time)) ∧
      (safe_erase operators op).1.length + 1 = operators.length) ∧
    ((∀ e ∈ operators, e.time ≠ op.time) →
      safe_erase operators op =
        (operators, Except.error "Error in safe_erase: op is not found.")) := by
  have hiff := find_eq_end_iff operators op
  have hle := find_le operators op
  refine ⟨?_, ?_, ?_⟩
  · by_cases h1 : operators.find op = operators.length
    · have h2 := hiff.1 h1
      simp only [safe_erase, operator_container_t.end_, h1, if_true]
      constructor
      · intro h3; cases h3
      · rintro ⟨e, he, het⟩; exact absurd het (h2 e he)
    · simp only [safe_erase, operator_container_t.end_, h1, if_false, true_iff]
      by_contra h3
      push_neg at h3
      exact h1 (hiff.2 h3)
  · rintro ⟨e, he, het⟩
    have h1 : operators.find op ≠ operators.length := fun h0 => hiff.1 h0 e he het
    simp only [safe_erase, operator_container_t.end_, h1, if_false,
      operator_container_t.erase]
    refine ⟨eraseIdx_find_eq_filter operators op h, ?_⟩
    rw [List.length_eraseIdx]
    have : operators.find op < operators.length := by omega
    simp only [this, if_true]
    omega
  · intro h2
    simp [safe_erase, operator_container_t.end_, hiff.2 h2]

theorem safe_erase_by_time_witness :
    ordered_unique [psi.ctor 1 OPERATOR_TYPE.CREATION_OP 0, psi.ctor 2 OPERATOR_TYPE.CREATION_OP 3] ∧
    ((safe_erase [psi.ctor 1 OPERATOR_TYPE.CREATION_OP 0, psi.ctor 2 OPERATOR_TYPE.CREATION_OP 3]
        (psi.ctor 2 OPERATOR_TYPE.ANNIHILATION_OP 5)).2 = Except.ok () ↔
      ∃ e ∈ [psi.ctor 1 OPERATOR_TYPE.CREATION_OP 0, psi.ctor 2 OPERATOR_TYPE.CREATION_OP 3],
        e.time = (psi.ctor 2 OPERATOR_TYPE.ANNIHILATION_OP 5).time) :=
  ⟨by simp [ordered_unique, psi.ctor, psi.time],
    (safe_erase_by_time _ _ (by simp [ordered_unique, psi.ctor, psi.time])).1⟩

/-- C4: after any finite sequence of `safe_insert` and `safe_erase` calls on an initially
empty timeline (a throwing call leaves it as it was), the traversal from `begin()` to
`end()` is non-decreasing in `time()`. -/
theorem traversal_sorted (calls : List timeline_call) :
    (run_calls calls).Pairwise (fun a b => a.time ≤ b.time) := by
  have h : ordered_unique (run_calls calls) :=
    ordered_foldl calls [] (by simp [ordered_unique])
  exact List.Pairwise.imp (fun hab => le_of_lt hab) h

/-- C5 (as stated, refuted): on the timeline holding the single event (1, creation, 0),
`find` called with (1, annihilation, 0) reports the stored event as found, although
it differs from the argument in kind. -/
theorem find_ignores_kind :
    operator_container_t.find [psi.ctor 1 OPERATOR_TYPE.CREATION_OP 0]
        (psi.ctor 1 OPERATOR_TYPE.ANNIHILATION_OP 0) ≠
      operator_container_t.end_ [psi.ctor 1 OPERATOR_TYPE.CREATION_OP 0] ∧
    ∀ e ∈ [psi.ctor 1 OPERATOR_TYPE.CREATION_OP 0],
      psi.eq e (psi.ctor 1 OPERATOR_TYPE.ANNIHILATION_OP 0) = false := by
  constructor
  · simp [operator_container_t.find, operator_container_t.end_, psi.equiv, psi.lt,
      psi.ctor, psi.time]
  · simp [psi.eq, psi.ctor, psi.type]

/-- C5 (amended): `find(op)` reports found exactly when the timeline holds an element
whose time equals that of `op`, and the element it points to has that time; kind and
flavor play no part, so a stored event with the same time and another kind or flavor is
a match. -/
theorem find_by_time (operators : operator_container_t) (op : psi) :
    (operators.find op ≠ operators.end_ ↔ ∃ e ∈ operators, e.time = op.time) ∧
    (∀ e, operators[operators.find op]? = some e → e.time = op.time) ∧
    (∀ e ∈ operators, e.time = op.time → operators.find op ≠ operators.end_) := by
  have hiff := find_eq_end_iff operators op
  refine ⟨?_, fun e he => find_get operators op e he, ?_⟩
  · rw [operator_container_t.end_, ne_eq, hiff]
    push_neg
    rfl
  · intro e he het h0
    exact hiff.1 h0 e he het

theorem key_time (a b : psi) (h : a.key = b.key) : a.time = b.time := by
  simp only [psi.key, Prod.mk.injEq] at h
  exact h.1

theorem mem_held_keys (ops : operator_container_t) (k : key_t) :
    k ∈ held_keys ops ↔ ∃ e ∈ ops, e.key = k := by
  simp [held_keys]

theorem safe_insert_fst (ops : operator_container_t) (op : psi) :
    (safe_insert ops op).1 = if ops.find op = ops.length then ops.link op else ops := by
  simp only [safe_insert, operator_container_t.insert, operator_container_t.end_]
  split <;> simp

theorem safe_erase_fst (ops : operator_container_t) (op : psi) :
    (safe_erase ops op).1 =
      if ops.find op = ops.length then ops else ops.eraseIdx (ops.find op) := by
  simp only [safe_erase, operator_container_t.erase, operator_container_t.end_]
  split <;> simp

theorem apply_call_step (E : psi → Prop)
    (hE : ∀ a b, E a → E b → a.time = b.time → a.key = b.key)
    (ops : operator_container_t) (c : timeline_call) (hord : ordered_unique ops)
    (hops : ∀ e ∈ ops, E e) (hc : E c.op) :
    held_keys (apply_call ops c) = reference_apply (held_keys ops) c ∧
      ∀ e ∈ apply_call ops c, E e := by
  have hiff := find_eq_end_iff ops c.op
  cases c with
  | insert op =>
    simp only [timeline_call.op] at hc hiff
    simp only [apply_call, reference_apply, safe_insert_fst]
    by_cases h1 : ops.find op = ops.length
    · have h2 := hiff.1 h1
      have h3 : op.key ∉ held_keys ops := by
        rw [mem_held_keys]
        rintro ⟨e, he, hk⟩
        exact h2 e he (key_time e op hk)
      simp only [h1, if_true, h3, if_false]
      constructor
      · ext k
        simp only [mem_held_keys, Finset.mem_insert, mem_link]
        constructor
        · rintro ⟨e, he | he, hk⟩
          · left; rw [← hk, he]
          · right; exact ⟨e, he, hk⟩
        · rintro (hk | ⟨e, he, hk⟩)
          · exact ⟨op, Or.inl rfl, hk.symm⟩
          · exact ⟨e, Or.inr he, hk⟩
      · intro e he
        rcases (mem_link ops op e).1 he with h4 | h4
        · rw [h4]; exact hc
        · exact hops e h4
    · have h2 : ∃ e ∈ ops, e.time = op.time := by
        by_contra h3
        push_neg at h3
        exact h1 (hiff.2 h3)
      obtain ⟨e, he, het⟩ := h2
      have h3 : op.key ∈ held_keys ops :=
        (mem_held_keys ops op.key).2 ⟨e, he, hE e op (hops e he) hc het⟩
      simp only [h1, if_false, h3, if_true]
      exact ⟨trivial, hops⟩
  | erase op =>
    simp only [timeline_call.op] at hc hiff
    simp only [apply_call, reference_apply, safe_erase_fst]
    by_cases h1 : ops.find op = ops.length
    · have h2 := hiff.1 h1
      have h3 : op.key ∉ held_keys ops := by
        rw [mem_held_keys]
        rintro ⟨e, he, hk⟩
        exact h2 e he (key_time e op hk)
      simp only [h1, if_true, h3, if_false]
      exact ⟨trivial, hops⟩
    · have h2 : ∃ e ∈ ops, e.time = op.time := by
        by_contra h3
        push_neg at h3
        exact h1 (hiff.2 h3)
      obtain ⟨e, he, het⟩ := h2
      have h3 : op.key ∈ held_keys ops :=
        (mem_held_keys ops op.key).2 ⟨e, he, hE e op (hops e he) hc het⟩
      simp only [h1, if_false, h3, if_true, eraseIdx_find_eq_filter ops op hord]
      constructor
      · ext k
        simp only [mem_held_keys, Finset.mem_erase, List.mem_filter, ne_eq, decide_not,
          Bool.not_eq_true', decide_eq_false_iff_not]
        constructor
        · rintro ⟨y, ⟨hy, hyt⟩, hk⟩
          refine ⟨?_, y, hy, hk⟩
          intro hko
          exact hyt (key_time y op (hk.trans hko))
        · rintro ⟨hko, y, hy, hk⟩
          refine ⟨y, ⟨hy, ?_⟩, hk⟩
          intro hyt
          exact hko (hk.symm.trans (hE y op (hops y hy) hc hyt))
      · intro y hy
        exact hops y (List.mem_of_mem_filter hy)

theorem run_calls_take_succ (calls : List timeline_call) (n : Nat) (c : timeline_call)
    (h : calls[n]? = some c) :
    run_calls (calls.take (n + 1)) = apply_call (run_calls (calls.take n)) c ∧
      reference_run (calls.take (n + 1)) = reference_apply (reference_run (calls.take n)) c := by
  simp [run_calls, reference_run, List.take_succ, h, List.foldl_append]

theorem run_calls_invariant (calls : List timeline_call)
    (h : ∀ c1 ∈ calls, ∀ c2 ∈ calls, c1.op.time = c2.op.time → c1.op.key = c2.op.key)
    (n : Nat) :
    ordered_unique (run_calls (calls.take n)) ∧
      (∀ e ∈ run_calls (calls.take n), ∃ c ∈ calls, c.op = e) ∧
      held_keys (run_calls (calls.take n)) = reference_run (calls.take n) := by
  induction n with
  | zero => simp [run_calls, reference_run, held_keys, ordered_unique]
  | succ n ih =>
    obtain ⟨ih1, ih2, ih3⟩ := ih
    cases hc : calls[n]? with
    | none =>
      have hlen : calls.length ≤ n := by
        by_contra h0
        rw [List.getElem?_eq_getElem (by omega)] at hc
        cases hc
      have e1 : calls.take (n + 1) = calls.take n := by
        rw [List.take_of_length_le (by omega), List.take_of_length_le hlen]
      rw [e1]
      exact ⟨ih1, ih2, ih3⟩
    | some c =>
      obtain ⟨e1, e2⟩ := run_calls_take_succ calls n c hc
      have hcm : c ∈ calls := List.getElem?_mem hc
      have hstep := apply_call_step (fun e => ∃ c ∈ calls, c.op = e)
        (by
          rintro a b ⟨ca, hca, rfl⟩ ⟨cb, hcb, rfl⟩ hab
          exact h ca hca cb hcb hab)
        (run_calls (calls.take n)) c ih1 ih2 ⟨c, hcm, rfl⟩
      rw [e1, e2]
      exact ⟨ordered_apply_call _ c ih1, hstep.2, by rw [hstep.1, ih3]⟩

/-- C3 (as stated, refuted): the two calls insert (1, creation, 0), insert
(1, annihilation, 0) have distinct triples that share a time.  The second `safe_insert`
throws although its triple is absent, and the timeline then holds one triple where the
reference set keyed by the full triple holds two. -/
theorem same_time_insert_rejected :
    (psi.ctor 1 OPERATOR_TYPE.CREATION_OP 0).key ≠ (psi.ctor 1 OPERATOR_TYPE.ANNIHILATION_OP 0).key ∧
    (psi.ctor 1 OPERATOR_TYPE.ANNIHILATION_OP 0).key ∉
      held_keys (run_calls [timeline_call.insert (psi.ctor 1 OPERATOR_TYPE.CREATION_OP 0)]) ∧
    safe_insert (run_calls [timeline_call.insert (psi.ctor 1 OPERATOR_TYPE.CREATION_OP 0)])
        (psi.ctor 1 OPERATOR_TYPE.ANNIHILATION_OP 0) =
      ([psi.ctor 1 OPERATOR_TYPE.CREATION_OP 0],
        Except.error "problem, cannot insert a operator") ∧
    held_keys (run_calls [timeline_call.insert (psi.ctor 1 OPERATOR_TYPE.CREATION_OP 0),
        timeline_call.insert (psi.ctor 1 OPERATOR_TYPE.ANNIHILATION_OP 0)]) ≠
      reference_run [timeline_call.insert (psi.ctor 1 OPERATOR_TYPE.CREATION_OP 0),
        timeline_call.insert (psi.ctor 1 OPERATOR_TYPE.ANNIHILATION_OP 0)] := by
  have hrun1 : run_calls [timeline_call.insert (psi.ctor 1 OPERATOR_TYPE.CREATION_OP 0)] =
      [psi.ctor 1 OPERATOR_TYPE.CREATION_OP 0] := by
    simp [run_calls, apply_call, safe_insert, operator_container_t.insert,
      operator_container_t.find, operator_container_t.end_, operator_container_t.link]
  have hins : safe_insert [psi.ctor 1 OPERATOR_TYPE.CREATION_OP 0]
      (psi.ctor 1 OPERATOR_TYPE.ANNIHILATION_OP 0) =
      ([psi.ctor 1 OPERATOR_TYPE.CREATION_OP 0],
        Except.error "problem, cannot insert a operator") := by
    simp [safe_insert, operator_container_t.insert, operator_container_t.find,
      operator_container_t.end_, psi.equiv, psi.lt, psi.ctor, psi.time]
  have hrun2 : run_calls [timeline_call.insert (psi.ctor 1 OPERATOR_TYPE.CREATION_OP 0),
      timeline_call.insert (psi.ctor 1 OPERATOR_TYPE.ANNIHILATION_OP 0)] =
      [psi.ctor 1 OPERATOR_TYPE.CREATION_OP 0] := by
    have e : run_calls [timeline_call.insert (psi.ctor 1 OPERATOR_TYPE.CREATION_OP 0),
        timeline_call.insert (psi.ctor 1 OPERATOR_TYPE.ANNIHILATION_OP 0)] =
        (safe_insert (run_calls [timeline_call.insert (psi.ctor 1 OPERATOR_TYPE.CREATION_OP 0)])
          (psi.ctor 1 OPERATOR_TYPE.ANNIHILATION_OP 0)).1 := rfl
    rw [e, hrun1, hins]
  have hkey : (psi.ctor 1 OPERATOR_TYPE.CREATION_OP 0).key ≠
      (psi.ctor 1 OPERATOR_TYPE.ANNIHILATION_OP 0).key := by
    simp [psi.key, psi.ctor, psi.type]
  refine ⟨hkey, ?_, ?_, ?_⟩
  · rw [hrun1]
    simp [held_keys, psi.key, psi.ctor, psi.type]
  · rw [hrun1, hins]
  · rw [hrun2]
    intro h
    have hmem : (psi.ctor 1 OPERATOR_TYPE.ANNIHILATION_OP 0).key ∈
        reference_run [timeline_call.insert (psi.ctor 1 OPERATOR_TYPE.CREATION_OP 0),
          timeline_call.insert (psi.ctor 1 OPERATOR_TYPE.ANNIHILATION_OP 0)] := by
      simp [reference_run, reference_apply, psi.key, psi.ctor, psi.type]
    rw [← h] at hmem
    simp [held_keys, psi.key, psi.ctor, psi.type] at hmem

/-- C3 (amended): for every finite sequence of `safe_insert` / `safe_erase` calls on an
initially empty timeline in which events that share a time share kind and flavor too
(the keys are distinct in time), after every prefix the set of triples held by the
timeline equals the set of the reference model keyed by the full triple; and in such a
sequence an insertion of an event whose triple is absent succeeds and stores it. -/
theorem timeline_refines_reference (calls : List timeline_call)
    (h : ∀ c1 ∈ calls, ∀ c2 ∈ calls, c1.op.time = c2.op.time → c1.op.key = c2.op.key) :
    (∀ n, held_keys (run_calls (calls.take n)) = reference_run (calls.take n)) ∧
    (∀ n op, calls[n]? = some (timeline_call.insert op) →
      op.key ∉ reference_run (calls.take n) →
      (∃ r, (safe_insert (run_calls (calls.take n)) op).2 = Except.ok r) ∧
        op ∈ (safe_insert (run_calls (calls.take n)) op).1) := by
  refine ⟨fun n => (run_calls_invariant calls h n).2.2, ?_⟩
  intro n op hc hnot
  obtain ⟨_, h2, h3⟩ := run_calls_invariant calls h n
  rw [← h3, mem_held_keys] at hnot
  have hcm : timeline_call.insert op ∈ calls := List.getElem?_mem hc
  have hfind : (run_calls (calls.take n)).find op = (run_calls (calls.take n)).length := by
    rw [find_eq_end_iff]
    intro e he het
    obtain ⟨c, hc1, hc2⟩ := h2 e he
    apply hnot
    refine ⟨e, he, ?_⟩
    have := h c hc1 _ hcm (by rw [hc2]; exact het)
    rw [hc2] at this
    exact this
  simp only [safe_insert, operator_container_t.insert, operator_container_t.end_, hfind,
    if_true, Bool.not_true, Bool.false_eq_true, if_false]
  exact ⟨⟨_, rfl⟩, (mem_link _ op op).2 (Or.inl rfl)⟩

theorem timeline_refines_reference_witness :
    held_keys (run_calls ([timeline_call.insert (psi.ctor 2 OPERATOR_TYPE.CREATION_OP 0),
        timeline_call.insert (psi.ctor 1 OPERATOR_TYPE.ANNIHILATION_OP 1),
        timeline_call.erase (psi.ctor 2 OPERATOR_TYPE.CREATION_OP 0)].take 3)) =
      reference_run ([timeline_call.insert (psi.ctor 2 OPERATOR_TYPE.CREATION_OP 0),
        timeline_call.insert (psi.ctor 1 OPERATOR_TYPE.ANNIHILATION_OP 1),
        timeline_call.erase (psi.ctor 2 OPERATOR_TYPE.CREATION_OP 0)].take 3) :=
  (timeline_refines_reference
    [timeline_call.insert (psi.ctor 2 OPERATOR_TYPE.CREATION_OP 0),
      timeline_call.insert (psi.ctor 1 OPERATOR_TYPE.ANNIHILATION_OP 1),
      timeline_call.erase (psi.ctor 2 OPERATOR_TYPE.CREATION_OP 0)]
    (by
      intro c1 h1 c2 h2
      simp only [List.mem_cons, List.mem_singleton, List.not_mem_nil, or_false] at h1 h2
      rcases h1 with rfl | rfl | rfl <;> rcases h2 with rfl | rfl | rfl <;>
        simp [timeline_call.op, psi.ctor, psi.time, psi.key])).1 3

/-! ## Theorems: the scalar histogram -/

theorem add_sample_pos_range (B : Int) (M d : ℚ) (hB : 0 < B) (hM : 0 < M) :
    (0 ≤ ⌊(B : ℚ) * d / M⌋ ∧ ⌊(B : ℚ) * d / M⌋ < B) ↔ (0 ≤ d ∧ d < M) := by
  have hBq : (0 : ℚ) < (B : ℚ) := by exact_mod_cast hB
  rw [Int.floor_nonneg, Int.floor_lt, div_nonneg_iff, div_lt_iff₀ hM]
  constructor
  · rintro ⟨h1, h2⟩
    constructor
    · rcases h1 with ⟨h3, _⟩ | ⟨_, h4⟩
      · exact nonneg_of_mul_nonneg_right h3 hBq
      · exact absurd hM (not_lt.2 h4)
    · exact lt_of_mul_lt_mul_left h2 hBq.le
  · rintro ⟨h1, h2⟩
    exact ⟨Or.inl ⟨mul_nonneg hBq.le h1, hM.le⟩, mul_lt_mul_of_pos_left h2 hBq⟩

theorem add_sample_eq (h : scalar_histogram) (d v : ℚ) (hM : h.max_val_ ≠ 0) :
    h.add_sample d v =
      if 0 ≤ ⌊(h.num_bins_ : ℚ) * d / h.max_val_⌋ ∧
          ⌊(h.num_bins_ : ℚ) * d / h.max_val_⌋ < h.num_bins_ then
        Except.ok (true, scalar_histogram.mk h.num_bins_ (h.num_sample_ + 1) h.max_val_
          (h.sumval.set ⌊(h.num_bins_ : ℚ) * d / h.max_val_⌋.toNat
            (h.sumval.getD ⌊(h.num_bins_ : ℚ) * d / h.max_val_⌋.toNat 0 + v))
          (h.sumval2.set ⌊(h.num_bins_ : ℚ) * d / h.max_val_⌋.toNat
            (h.sumval2.getD ⌊(h.num_bins_ : ℚ) * d / h.max_val_⌋.toNat 0 + v * v))
          (h.counter.set ⌊(h.num_bins_ : ℚ) * d / h.max_val_⌋.toNat
            (h.counter.getD ⌊(h.num_bins_ : ℚ) * d / h.max_val_⌋.toNat 0 + 1)))
      else Except.ok (false, h) := by
  simp only [scalar_histogram.add_sample, hM, if_false]

/-- C6: for a histogram with `B > 0` bins and bound `M > 0`, `add_sample(d, v)` returns,
it returns `true` exactly when `0 ≤ d < M`, and then the bin whose count, sum and sum of
squares it updates is `floor(B*d/M)`, which lies in `[0, B)`. -/
theorem add_sample_accepts_iff (h : scalar_histogram) (d v : ℚ) (hB : 0 < h.num_bins_)
    (hM : 0 < h.max_val_) :
    ∃ b h1, h.add_sample d v = Except.ok (b, h1) ∧
      (b = true ↔ (0 ≤ d ∧ d < h.max_val_)) ∧
      (b = true →
        0 ≤ ⌊(h.num_bins_ : ℚ) * d / h.max_val_⌋ ∧
        ⌊(h.num_bins_ : ℚ) * d / h.max_val_⌋ < h.num_bins_ ∧
        h1.counter = h.counter.set ⌊(h.num_bins_ : ℚ) * d / h.max_val_⌋.toNat
          (h.counter.getD ⌊(h.num_bins_ : ℚ) * d / h.max_val_⌋.toNat 0 + 1) ∧
        h1.sumval = h.sumval.set ⌊(h.num_bins_ : ℚ) * d / h.max_val_⌋.toNat
          (h.sumval.getD ⌊(h.num_bins_ : ℚ) * d / h.max_val_⌋.toNat 0 + v) ∧
        h1.sumval2 = h.sumval2.set ⌊(h.num_bins_ : ℚ) * d / h.max_val_⌋.toNat
          (h.sumval2.getD ⌊(h.num_bins_ : ℚ) * d / h.max_val_⌋.toNat 0 + v * v)) := by
  have hr := add_sample_pos_range h.num_bins_ h.max_val_ d hB hM
  have hM0 : h.max_val_ ≠ 0 := ne_of_gt hM
  by_cases hp : 0 ≤ ⌊(h.num_bins_ : ℚ) * d / h.max_val_⌋ ∧
      ⌊(h.num_bins_ : ℚ) * d / h.max_val_⌋ < h.num_bins_
  · rw [add_sample_eq h d v hM0, if_pos hp]
    refine ⟨true, _, rfl, ?_, ?_⟩
    · simp only [true_iff]
      exact hr.1 hp
    · intro _
      exact ⟨hp.1, hp.2, rfl, rfl, rfl⟩
  · rw [add_sample_eq h d v hM0, if_neg hp]
    refine ⟨false, h, rfl, ?_, ?_⟩
    · simp only [Bool.false_eq_true, false_iff]
      exact fun h2 => hp (hr.2 h2)
    · intro h2
      cases h2

theorem add_sample_accepts_iff_witness :
    (0 : Int) < (scalar_histogram.ctor 4 8).num_bins_ ∧
    (0 : ℚ) < (scalar_histogram.ctor 4 8).max_val_ ∧
    (∃ b h1, (scalar_histogram.ctor 4 8).add_sample (5 / 2) 10 = Except.ok (b, h1) ∧
      (b = true ↔ ((0 : ℚ) ≤ 5 / 2 ∧ (5 / 2 : ℚ) < (scalar_histogram.ctor 4 8).max_val_))) ∧
    ⌊(((scalar_histogram.ctor 4 8).num_bins_ : Int) : ℚ) * (5 / 2) /
      (scalar_histogram.ctor 4 8).max_val_⌋ = 1 ∧
    (scalar_histogram.ctor 4 8).add_sample (5 / 2) 10 =
      Except.ok (true,
        scalar_histogram.mk 4 1 8 [0, 10, 0, 0] [0, 100, 0, 0] [0, 1, 0, 0]) ∧
    (scalar_histogram.ctor 4 8).add_sample 8 1 =
      Except.ok (false, scalar_histogram.ctor 4 8) := by
  have hf : ⌊((4 : Int) : ℚ) * (5 / 2) / 8⌋ = 1 := by norm_num
  refine ⟨by simp [scalar_histogram.ctor], by simp [scalar_histogram.ctor], ?_, ?_, ?_, ?_⟩
  · obtain ⟨b, h1, e1, e2, _⟩ := add_sample_accepts_iff (scalar_histogram.ctor 4 8) (5 / 2) 10
      (by simp [scalar_histogram.ctor]) (by simp [scalar_histogram.ctor])
    exact ⟨b, h1, e1, e2⟩
  · simpa [scalar_histogram.ctor] using hf
  · simp only [scalar_histogram.add_sample, scalar_histogram.ctor, hf]
    norm_num [List.replicate]
  · simp [scalar_histogram.add_sample, scalar_histogram.ctor]

/-- C7: on a histogram whose buffers have `B` entries, `add_sample(d, v)` returns; when
it returns `true` it does so with a bin index `p = floor(B*d/M)` in `[0, B)`, and then
`counter[p]` has grown by 1, `sumval[p]` by `v`, `sumval2[p]` by `v*v`, the sample counter
by 1, while every other entry of the three buffers, the buffer lengths, `B` and `M` are
unchanged; when it returns `false` the state is the one before the call. -/
theorem add_sample_frame (h : scalar_histogram) (d v : ℚ) (hwf : h.well_formed)
    (hM : h.max_val_ ≠ 0) :
    ∃ b h1, h.add_sample d v = Except.ok (b, h1) ∧
      (b = true → ∃ p : Nat, (p : Int) = ⌊(h.num_bins_ : ℚ) * d / h.max_val_⌋ ∧
        (p : Int) < h.num_bins_ ∧
        (∃ c s s2, h.counter[p]? = some c ∧ h.sumval[p]? = some s ∧
          h.sumval2[p]? = some s2 ∧ h1.counter[p]? = some (c + 1) ∧
          h1.sumval[p]? = some (s + v) ∧ h1.sumval2[p]? = some (s2 + v * v)) ∧
        h1.num_sample_ = h.num_sample_ + 1 ∧
        (∀ i, i ≠ p → h1.counter[i]? = h.counter[i]? ∧ h1.sumval[i]? = h.sumval[i]? ∧
          h1.sumval2[i]? = h.sumval2[i]?) ∧
        h1.counter.length = h.counter.length ∧ h1.sumval.length = h.sumval.length ∧
        h1.sumval2.length = h.sumval2.length ∧
        h1.num_bins_ = h.num_bins_ ∧ h1.max_val_ = h.max_val_) ∧
      (b = false → h1 = h) := by
  obtain ⟨w1, w2, w3⟩ := hwf
  by_cases hp : 0 ≤ ⌊(h.num_bins_ : ℚ) * d / h.max_val_⌋ ∧
      ⌊(h.num_bins_ : ℚ) * d / h.max_val_⌋ < h.num_bins_
  · rw [add_sample_eq h d v hM, if_pos hp]
    refine ⟨true, _, rfl, ?_, ?_⟩
    · intro _
      have hcast : ((⌊(h.num_bins_ : ℚ) * d / h.max_val_⌋.toNat : Nat) : Int) =
          ⌊(h.num_bins_ : ℚ) * d / h.max_val_⌋ := Int.toNat_of_nonneg hp.1
      have hlt : ⌊(h.num_bins_ : ℚ) * d / h.max_val_⌋.toNat < h.num_bins_.toNat := by
        omega
      refine ⟨⌊(h.num_bins_ : ℚ) * d / h.max_val_⌋.toNat, hcast, by omega, ?_, rfl, ?_,
        by simp, by simp, by simp, rfl, rfl⟩
      · refine ⟨h.counter.getD ⌊(h.num_bins_ : ℚ) * d / h.max_val_⌋.toNat 0,
          h.sumval.getD ⌊(h.num_bins_ : ℚ) * d / h.max_val_⌋.toNat 0,
          h.sumval2.getD ⌊(h.num_bins_ : ℚ) * d / h.max_val_⌋.toNat 0, ?_, ?_, ?_, ?_, ?_, ?_⟩
        · rw [List.getD_eq_getElem?_getD, List.getElem?_eq_getElem (by omega)]; rfl
        · rw [List.getD_eq_getElem?_getD, List.getElem?_eq_getElem (by omega)]; rfl
        · rw [List.getD_eq_getElem?_getD, List.getElem?_eq_getElem (by omega)]; rfl
        · exact List.getElem?_set_self (by omega)
        · exact List.getElem?_set_self (by omega)
        · exact List.getElem?_set_self (by omega)
      · intro i hi
        exact ⟨List.getElem?_set_ne (Ne.symm hi), List.getElem?_set_ne (Ne.symm hi),
          List.getElem?_set_ne (Ne.symm hi)⟩
    · intro h2
      cases h2
  · rw [add_sample_eq h d v hM, if_neg hp]
    exact ⟨false, h, rfl, fun h2 => absurd h2 Bool.false_ne_true, fun _ => rfl⟩

theorem add_sample_frame_witness :
    (scalar_histogram.ctor 4 8).well_formed ∧ (scalar_histogram.ctor 4 8).max_val_ ≠ 0 ∧
    ∃ b h1, (scalar_histogram.ctor 4 8).add_sample (5 / 2) 10 = Except.ok (b, h1) ∧
      (b = true → ∃ p : Nat,
        (p : Int) = ⌊(((scalar_histogram.ctor 4 8).num_bins_ : Int) : ℚ) * (5 / 2) /
          (scalar_histogram.ctor 4 8).max_val_⌋ ∧
        h1.num_sample_ = (scalar_histogram.ctor 4 8).num_sample_ + 1 ∧
        (∀ i, i ≠ p → h1.counter[i]? = (scalar_histogram.ctor 4 8).counter[i]?)) ∧
      (b = false → h1 = scalar_histogram.ctor 4 8) := by
  have hwf : (scalar_histogram.ctor 4 8).well_formed := by
    simp [scalar_histogram.well_formed, scalar_histogram.ctor]
  have hM : (scalar_histogram.ctor 4 8).max_val_ ≠ 0 := by
    simp [scalar_histogram.ctor]
  obtain ⟨b, h1, e, ht, hf⟩ := add_sample_frame (scalar_histogram.ctor 4 8) (5 / 2) 10 hwf hM
  refine ⟨hwf, hM, b, h1, e, ?_, hf⟩
  intro hb
  obtain ⟨p, hp, _, _, hn, hi, _⟩ := ht hb
  exact ⟨p, hp, hn, fun i hne => (hi i hne).1⟩

/-! ## Theorems: the cutoff search -/

theorem rebin4_loop_length (M D : ℚ) (L n : Nat) (src : List ℚ) (i : Nat) (acc : List ℚ) :
    (rebin4_loop M D L n src i acc).length = acc.length := by
  induction src generalizing i acc with
  | nil => simp [rebin4_loop]
  | cons x rest ih =>
    simp only [rebin4_loop]
    split
    · split <;> simp
    · rw [ih]
      split <;> simp

theorem rebin4_length (a : List ℚ) (M D : ℚ) (L : Nat) (r : List ℚ)
    (h : rebin4 a M D L = Except.ok r) : r.length = L := by
  simp only [rebin4] at h
  split at h
  · cases h
  · split at h
    · cases h
    · cases h
      rw [rebin4_loop_length, List.length_replicate]

theorem scan_bins_flag (st cs : List ℚ) (i : Nat) (m : ℚ) :
    (scalar_histogram.scan_bins st cs i m).1 = true ↔ ∃ c ∈ cs, c < 10 := by
  induction cs generalizing i m with
  | nil => simp [scalar_histogram.scan_bins]
  | cons c rest ih =>
    simp only [scalar_histogram.scan_bins, scalar_histogram.min_count, List.mem_cons,
      exists_eq_or_imp]
    by_cases hc : c < 10
    · simp [hc]
    · simp only [hc, if_false, false_or]
      exact ih (i + 1) _

theorem scan_bins_max (st cs : List ℚ) (i : Nat) (m : ℚ) (hno : ∀ c ∈ cs, ¬ c < 10) :
    (scalar_histogram.scan_bins st cs i m).2 < 0 ↔
      (m < 0 ∧ ∀ j, j < cs.length → st.getD (i + j) 0 / cs.getD j 0 < 0) := by
  induction cs generalizing i m with
  | nil => simp [scalar_histogram.scan_bins]
  | cons c rest ih =>
    have hc : ¬ c < 10 := hno c (List.mem_cons_self _ _)
    simp only [scalar_histogram.scan_bins, scalar_histogram.min_count, hc, if_false]
    rw [ih (i + 1) _ (fun a ha => hno a (List.mem_cons_of_mem _ ha)), max_lt_iff]
    constructor
    · rintro ⟨⟨h1, h2⟩, h3⟩
      refine ⟨h1, ?_⟩
      intro j hj
      cases j with
      | zero => simpa using h2
      | succ j =>
        have := h3 j (by simpa using hj)
        simpa [Nat.add_assoc, Nat.add_comm 1 j] using this
    · rintro ⟨h1, h2⟩
      refine ⟨⟨h1, ?_⟩, ?_⟩
      · simpa using h2 0 (by simp)
      · intro j hj
        have := h2 (j + 1) (by simpa using hj)
        simpa [Nat.add_assoc, Nat.add_comm 1 j] using this

theorem exists_mem_iff_getD (cs : List ℚ) :
    (∃ c ∈ cs, c < 10) ↔ ∃ j, j < cs.length ∧ cs.getD j 0 < 10 := by
  constructor
  · rintro ⟨c, hc, hlt⟩
    obtain ⟨j, hj, rfl⟩ := List.getElem_of_mem hc
    exact ⟨j, hj, by simpa [List.getD_eq_getElem?_getD, List.getElem?_eq_getElem hj] using hlt⟩
  · rintro ⟨j, hj, hlt⟩
    refine ⟨cs[j], List.getElem_mem hj, ?_⟩
    simpa [List.getD_eq_getElem?_getD, List.getElem?_eq_getElem hj] using hlt

theorem scan_bins_stop_iff (st ct : List ℚ) :
    ((scalar_histogram.scan_bins st ct 0 (-1)).1 = true ∨
        (scalar_histogram.scan_bins st ct 0 (-1)).2 < 0) ↔
      ((∃ i, i < ct.length ∧ ct.getD i 0 < 10) ∨
        (∀ i, i < ct.length → st.getD i 0 / ct.getD i 0 < 0)) := by
  rw [scan_bins_flag, exists_mem_iff_getD]
  by_cases hex : ∃ j, j < ct.length ∧ ct.getD j 0 < 10
  · exact ⟨fun _ => Or.inl hex, fun _ => Or.inl hex⟩
  · have hno : ∀ c ∈ ct, ¬ c < 10 := by
      intro c hc hlt
      exact hex ((exists_mem_iff_getD ct).1 ⟨c, hc, hlt⟩)
    simp only [hex, false_or]
    rw [scan_bins_max st ct 0 (-1) hno]
    simp

theorem update_cutoff_round_none_iff (M : ℚ) (cg sg : List ℚ) (c mag D : ℚ) :
    scalar_histogram.update_cutoff_round M cg sg c mag D = Except.ok none ↔
      ∃ ct st, rebin4 cg M D 4 = Except.ok ct ∧ rebin4 sg M D 4 = Except.ok st ∧
        ((∃ i, i < 4 ∧ ct.getD i 0 < 10) ∨ (∀ i, i < 4 → st.getD i 0 / ct.getD i 0 < 0)) := by
  simp only [scalar_histogram.update_cutoff_round, scalar_histogram.ndiv]
  cases h1 : rebin4 cg M D 4 with
  | error e => simp
  | ok ct =>
    cases h2 : rebin4 sg M D 4 with
    | error e => simp
    | ok st =>
      have hlen := rebin4_length cg M D 4 ct h1
      have hs := scan_bins_stop_iff st ct
      rw [hlen] at hs
      simp only [Except.ok.injEq, exists_and_left, exists_eq_left']
      by_cases hstop : (scalar_histogram.scan_bins st ct 0 (-1)).1 = true ∨
          (scalar_histogram.scan_bins st ct 0 (-1)).2 < 0
      · simp only [hstop, if_true, true_iff]
        exact hs.1 hstop
      · simp only [hstop, if_false]
        constructor
        · intro h3
          split at h3
          · cases h3
          · split at h3 <;> cases h3
        · intro h3
          exact absurd (hs.2 h3) hstop

theorem update_cutoff_loop_false_iff (M : ℚ) (cg sg : List ℚ) (c mag : ℚ) (n : Nat)
    (D d : ℚ) :
    scalar_histogram.update_cutoff_loop M cg sg c mag n D = Except.ok (false, d) ↔
      ∃ k, k < n ∧ scalar_histogram.candidate_after M cg sg c mag k D = some d ∧
        scalar_histogram.update_cutoff_round M cg sg c mag d = Except.ok none := by
  induction n generalizing D with
  | zero => simp [scalar_histogram.update_cutoff_loop]
  | succ n ih =>
    simp only [scalar_histogram.update_cutoff_loop]
    cases hr : scalar_histogram.update_cutoff_round M cg sg c mag D with
    | error e =>
      constructor
      · intro h0
        cases h0
      rintro ⟨k, _, hk, hd⟩
      exfalso
      cases k with
      | zero =>
        simp only [scalar_histogram.candidate_after, Option.some.injEq] at hk
        rw [← hk, hr] at hd
        cases hd
      | succ k => simp [scalar_histogram.candidate_after, hr] at hk
    | ok o =>
      cases o with
      | none =>
        simp only [Except.ok.injEq, Prod.mk.injEq, true_and]
        constructor
        · intro hd
          exact ⟨0, by omega, by simp [scalar_histogram.candidate_after, hd], by rw [← hd, hr]⟩
        · rintro ⟨k, _, hk, _⟩
          cases k with
          | zero => simpa [scalar_histogram.candidate_after] using hk
          | succ k => simp [scalar_histogram.candidate_after, hr] at hk
      | some D1 =>
        simp only []
        rw [ih D1]
        constructor
        · rintro ⟨k, hk, h1, h2⟩
          exact ⟨k + 1, by omega, by simpa [scalar_histogram.candidate_after, hr] using h1, h2⟩
        · rintro ⟨k, hk, h1, h2⟩
          cases k with
          | zero =>
            simp only [scalar_histogram.candidate_after, Option.some.injEq] at h1
            rw [← h1, hr] at h2
            cases h2
          | succ k =>
            exact ⟨k, by omega, by simpa [scalar_histogram.candidate_after, hr] using h1, h2⟩

theorem update_cutoff_loop_true_iff (M : ℚ) (cg sg : List ℚ) (c mag : ℚ) (n : Nat)
    (D d : ℚ) :
    scalar_histogram.update_cutoff_loop M cg sg c mag n D = Except.ok (true, d) ↔
      scalar_histogram.candidate_after M cg sg c mag n D = some d := by
  induction n generalizing D with
  | zero =>
    simp only [scalar_histogram.update_cutoff_loop, scalar_histogram.candidate_after,
      Except.ok.injEq, Prod.mk.injEq, true_and, Option.some.injEq]
  | succ n ih =>
    simp only [scalar_histogram.update_cutoff_loop, scalar_histogram.candidate_after]
    cases hr : scalar_histogram.update_cutoff_round M cg sg c mag D with
    | error e => simp
    | ok o =>
      cases o with
      | none => simp
      | some D1 =>
        simp only []
        exact ih D1

theorem update_cutoff_eq_loop (h : scalar_histogram) (c maxdist mag : ℚ) (hc0 : 0 ≤ c)
    (hc1 : c ≤ 1) (hmag : 1 ≤ mag) (hlen : h.sumval.length = h.counter.length)
    (hpos : 0 < h.counter.length) :
    h.update_cutoff c maxdist mag =
      scalar_histogram.update_cutoff_loop h.max_val_ h.counter h.sumval c mag 10 maxdist := by
  have hpos2 : 0 < h.sumval.length := by omega
  simp [scalar_histogram.update_cutoff, all_reduce, hc0, hc1, hmag, hlen, hpos, hpos2]

theorem toNat_two : (2 : Int).toNat = 2 := rfl

theorem toNat_three : (3 : Int).toNat = 3 := rfl

/-- C8 (as stated, refuted): with 4 bins over `[0, 1)`, 10 samples in every bin and the
sum -10 in every bin, `update_cutoff(1/2, 1, 2)` reports non-convergence in its first
round and returns 1, although each of the 4 coarse bins of that round holds 10 samples,
not fewer: the round stops because every coarse mean is negative. -/
theorem negative_means_stop_search :
    scalar_histogram.update_cutoff
        (scalar_histogram.mk 4 40 1 [-10, -10, -10, -10] [10, 10, 10, 10] [10, 10, 10, 10])
        (1 / 2) 1 2 = Except.ok (false, 1) ∧
    rebin4 [10, 10, 10, 10] 1 1 4 = Except.ok [10, 10, 10, 10] ∧
    ∀ c ∈ ([10, 10, 10, 10] : List ℚ), ¬ c < 10 := by
  have e1 : rebin4 [10, 10, 10, 10] 1 1 4 = Except.ok [10, 10, 10, 10] := by
    norm_num [rebin4, rebin4_loop, List.replicate, toNat_two, toNat_three]
  have e2 : rebin4 [-10, -10, -10, -10] 1 1 4 = Except.ok [-10, -10, -10, -10] := by
    norm_num [rebin4, rebin4_loop, List.replicate, toNat_two, toNat_three]
  have hr : scalar_histogram.update_cutoff_round 1 [10, 10, 10, 10] [-10, -10, -10, -10]
      (1 / 2) 2 1 = Except.ok none := by
    simp only [scalar_histogram.update_cutoff_round, scalar_histogram.ndiv, e1, e2,
      scalar_histogram.scan_bins, scalar_histogram.min_count]
    norm_num
  refine ⟨?_, e1, by norm_num⟩
  rw [update_cutoff_eq_loop _ _ _ _ (by norm_num) (by norm_num) (by norm_num) (by simp)
    (by simp)]
  simp only [scalar_histogram.update_cutoff_loop, hr]

/-- C8 (amended): with a single worker, for a histogram with at least one bin and every
call `update_cutoff(cutoff_ratio in [0,1], current_maxdist, magnification_factor >= 1)`:
a round entered with candidate `D` stops the search exactly when, among the 4 coarse
bins obtained by rebinning over `[0, D)`, one holds fewer than 10 aggregated samples or
all four means sum/count are negative; the call reports non-convergence with `d` exactly
when some round `k < 10` is entered with `d` and stops, and convergence with `d` exactly
when all 10 rounds complete and leave the candidate `d`. -/
theorem update_cutoff_outcome (h : scalar_histogram) (c maxdist mag : ℚ) (hc0 : 0 ≤ c)
    (hc1 : c ≤ 1) (hmag : 1 ≤ mag) (hlen : h.sumval.length = h.counter.length)
    (hpos : 0 < h.counter.length) :
    (∀ D, scalar_histogram.update_cutoff_round h.max_val_ h.counter h.sumval c mag D =
        Except.ok none ↔
      ∃ ct st, rebin4 h.counter h.max_val_ D 4 = Except.ok ct ∧
        rebin4 h.sumval h.max_val_ D 4 = Except.ok st ∧
        ((∃ i, i < 4 ∧ ct.getD i 0 < 10) ∨
          (∀ i, i < 4 → st.getD i 0 / ct.getD i 0 < 0))) ∧
    (∀ d, h.update_cutoff c maxdist mag = Except.ok (false, d) ↔
      ∃ k, k < 10 ∧
        scalar_histogram.candidate_after h.max_val_ h.counter h.sumval c mag k maxdist =
          some d ∧
        scalar_histogram.update_cutoff_round h.max_val_ h.counter h.sumval c mag d =
          Except.ok none) ∧
    (∀ d, h.update_cutoff c maxdist mag = Except.ok (true, d) ↔
      scalar_histogram.candidate_after h.max_val_ h.counter h.sumval c mag 10 maxdist =
        some d) := by
  rw [update_cutoff_eq_loop h c maxdist mag hc0 hc1 hmag hlen hpos]
  exact ⟨fun D => update_cutoff_round_none_iff _ _ _ _ _ D,
    fun d => update_cutoff_loop_false_iff _ _ _ _ _ 10 maxdist d,
    fun d => update_cutoff_loop_true_iff _ _ _ _ _ 10 maxdist d⟩

theorem update_cutoff_outcome_witness :
    (0 : ℚ) ≤ 1 / 2 ∧ (1 / 2 : ℚ) ≤ 1 ∧ (1 : ℚ) ≤ 2 ∧
    (scalar_histogram.update_cutoff
        (scalar_histogram.mk 4 40 1 [10, 10, 10, 1] [10, 10, 10, 1] [10, 10, 10, 10])
        (1 / 2) 1 2 = Except.ok (true, 1) ↔
      scalar_histogram.candidate_after 1 [10, 10, 10, 10] [10, 10, 10, 1] (1 / 2) 2 10 1 =
        some 1) :=
  ⟨by norm_num, by norm_num, by norm_num,
    (update_cutoff_outcome
      (scalar_histogram.mk 4 40 1 [10, 10, 10, 1] [10, 10, 10, 1] [10, 10, 10, 10])
      (1 / 2) 1 2 (by norm_num) (by norm_num) (by norm_num) (by simp) (by simp)).2.2 1⟩

theorem update_cutoff_loop_stop (M : ℚ) (cg sg : List ℚ) (c mag : ℚ) (n : Nat) (D : ℚ)
    (hr : scalar_histogram.update_cutoff_round M cg sg c mag D = Except.ok none) :
    scalar_histogram.update_cutoff_loop M cg sg c mag (n + 1) D = Except.ok (false, D) := by
  simp only [scalar_histogram.update_cutoff_loop, hr]

theorem update_cutoff_loop_next (M : ℚ) (cg sg : List ℚ) (c mag : ℚ) (n : Nat) (D D1 : ℚ)
    (hr : scalar_histogram.update_cutoff_round M cg sg c mag D = Except.ok (some D1)) :
    scalar_histogram.update_cutoff_loop M cg sg c mag (n + 1) D =
      scalar_histogram.update_cutoff_loop M cg sg c mag n D1 := by
  simp only [scalar_histogram.update_cutoff_loop, hr]

theorem rebin4_loop_getD_zero (M D : ℚ) (L n t : Nat) (src : List ℚ) (i : Nat)
    (acc : List ℚ)
    (hsrc : ∀ j x, src[j]? = some x → x ≠ 0 →
      ⌊(L : ℚ) * ((((i + j : Nat) : ℚ) + 1 / 2) * (M / (n : ℚ))) / D⌋ ≠ (t : Int))
    (hacc : acc.getD t 0 = 0) :
    (rebin4_loop M D L n src i acc).getD t 0 = 0 := by
  induction src generalizing i acc with
  | nil => simpa [rebin4_loop] using hacc
  | cons x rest ih =>
    have hstep : (if 0 ≤ ⌊(L : ℚ) * (((i : ℚ) + 1 / 2) * (M / (n : ℚ))) / D⌋ ∧
        ⌊(L : ℚ) * (((i : ℚ) + 1 / 2) * (M / (n : ℚ))) / D⌋ < (L : Int) then
          acc.set ⌊(L : ℚ) * (((i : ℚ) + 1 / 2) * (M / (n : ℚ))) / D⌋.toNat
            (acc.getD ⌊(L : ℚ) * (((i : ℚ) + 1 / 2) * (M / (n : ℚ))) / D⌋.toNat 0 + x)
        else acc).getD t 0 = 0 := by
      split
      · rename_i hin
        by_cases hpt : ⌊(L : ℚ) * (((i : ℚ) + 1 / 2) * (M / (n : ℚ))) / D⌋.toNat = t
        · have hx : x = 0 := by
            by_contra hx
            have := hsrc 0 x (by simp) hx
            apply this
            rw [← hpt, Int.toNat_of_nonneg hin.1]
            simp
          rw [hpt, hx, add_zero]
          simp only [List.getD_eq_getElem?_getD] at hacc ⊢
          by_cases hlt : t < acc.length
          · rw [List.getElem?_set_self hlt]
            rw [List.getElem?_eq_getElem hlt] at hacc ⊢
            simpa using hacc
          · rw [List.getElem?_eq_none (by simpa using hlt)]
            rfl
        · simp only [List.getD_eq_getElem?_getD] at hacc ⊢
          rw [List.getElem?_set_ne hpt]
          exact hacc
      · exact hacc
    simp only [rebin4_loop]
    split
    · exact hstep
    · apply ih
      · intro j y hj hy
        have := hsrc (j + 1) y (by simpa using hj) hy
        have e : i + 1 + j = i + (j + 1) := by omega
        rw [e]
        exact this
      · exact hstep

theorem rebin4_ok (a : List ℚ) (M D : ℚ) (L : Nat) (hDM : D ≤ M) (hD0 : D ≠ 0) :
    rebin4 a M D L =
      Except.ok (rebin4_loop M D L a.length a 0 (List.replicate L 0)) := by
  simp only [rebin4, not_not.2 hDM, hD0, false_and, if_false]

theorem floor_centre_eq_zero (M D : ℚ) (n i : Nat) (hn : 0 < n) (hM : 0 < M) (hD : 0 < D)
    (hcent : ((i : ℚ) + 1 / 2) * (M / (n : ℚ)) < D / 4) :
    ⌊((4 : Nat) : ℚ) * ((((i : Nat) : ℚ) + 1 / 2) * (M / (n : ℚ))) / D⌋ = 0 := by
  have hnq : (0 : ℚ) < (n : ℚ) := by exact_mod_cast hn
  have hc0 : 0 ≤ ((i : ℚ) + 1 / 2) * (M / (n : ℚ)) := by positivity
  rw [Int.floor_eq_iff]
  constructor
  · simp only [Int.cast_zero]
    positivity
  · simp only [Int.cast_zero, zero_add, Nat.cast_ofNat]
    rw [div_lt_iff₀ hD]
    linarith

/-- C10 (as stated, refuted): with 4 bins over `[0, 1)` and all 100 samples in bin 0,
whose centre 1/8 lies below `current_maxdist/4 = 1/4`, the call
`update_cutoff(1/2, 1, 2)` reports non-convergence and returns 1, which is
`current_maxdist` itself and not a smaller cutoff. -/
theorem mass_below_quarter_not_converged :
    (∀ i, i < 4 →
      (([100, 0, 0, 0] : List ℚ).getD i 0 ≠ 0 ∨ ([50, 0, 0, 0] : List ℚ).getD i 0 ≠ 0) →
      ((i : ℚ) + 1 / 2) * (1 / 4) < 1 / 4) ∧
    scalar_histogram.update_cutoff
        (scalar_histogram.mk 4 100 1 [50, 0, 0, 0] [25, 0, 0, 0] [100, 0, 0, 0])
        (1 / 2) 1 2 = Except.ok (false, 1) := by
  constructor
  · intro i hi
    interval_cases i <;> norm_num
  · have e1 : rebin4 [100, 0, 0, 0] 1 1 4 = Except.ok [100, 0, 0, 0] := by
      norm_num [rebin4, rebin4_loop, List.replicate, toNat_two, toNat_three]
    have e2 : rebin4 [50, 0, 0, 0] 1 1 4 = Except.ok [50, 0, 0, 0] := by
      norm_num [rebin4, rebin4_loop, List.replicate, toNat_two, toNat_three]
    have hr : scalar_histogram.update_cutoff_round 1 [100, 0, 0, 0] [50, 0, 0, 0]
        (1 / 2) 2 1 = Except.ok none := by
      simp only [scalar_histogram.update_cutoff_round, scalar_histogram.ndiv, e1, e2,
        scalar_histogram.scan_bins, scalar_histogram.min_count]
      norm_num
    rw [update_cutoff_eq_loop _ _ _ _ (by norm_num) (by norm_num) (by norm_num) (by simp)
      (by simp)]
    exact update_cutoff_loop_stop _ _ _ _ _ 9 1 hr

/-- C10 (amended): for a scalar histogram (single worker) with `B ≥ 1` bins whose
aggregated samples all lie below `current_maxdist/4` (every source bin holding a non-zero
count or sum has its centre below `current_maxdist/4`), with `0 < current_maxdist ≤ M`,
every `cutoff_ratio` in `(0,1]` and `magnification_factor > 1`: `update_cutoff` reports
non-convergence and returns `current_maxdist` unchanged, because the coarse bin 1 of the
first round is empty and the under-sampling stop ends the search. -/
theorem update_cutoff_mass_below_quarter (h : scalar_histogram) (c maxdist mag : ℚ)
    (hc0 : 0 < c) (hc1 : c ≤ 1) (hmag : 1 < mag)
    (hlen : h.sumval.length = h.counter.length) (hpos : 0 < h.counter.length)
    (hD : 0 < maxdist) (hDM : maxdist ≤ h.max_val_)
    (hmass : ∀ i, i < h.counter.length →
      (h.counter.getD i 0 ≠ 0 ∨ h.sumval.getD i 0 ≠ 0) →
      ((i : ℚ) + 1 / 2) * (h.max_val_ / (h.counter.length : ℚ)) < maxdist / 4) :
    h.update_cutoff c maxdist mag = Except.ok (false, maxdist) := by
  have hM : 0 < h.max_val_ := lt_of_lt_of_le hD hDM
  have hD0 : maxdist ≠ 0 := ne_of_gt hD
  rw [update_cutoff_eq_loop h c maxdist mag hc0.le hc1 hmag.le hlen hpos]
  apply update_cutoff_loop_stop _ _ _ _ _ 9 maxdist
  rw [update_cutoff_round_none_iff]
  have hz : (rebin4_loop h.max_val_ maxdist 4 h.counter.length h.counter 0
      (List.replicate 4 0)).getD 1 0 = 0 := by
    apply rebin4_loop_getD_zero
    · intro j x hj hx
      have hjlt : j < h.counter.length := by
        by_contra h0
        rw [List.getElem?_eq_none (by omega)] at hj
        cases hj
      have hget : h.counter.getD j 0 = x := by
        rw [List.getD_eq_getElem?_getD, hj]
        rfl
      have hcent := hmass j hjlt (Or.inl (by rw [hget]; exact hx))
      have := floor_centre_eq_zero h.max_val_ maxdist h.counter.length j hpos hM hD hcent
      rw [Nat.zero_add, this]
      decide
    · rfl
  refine ⟨_, _, rebin4_ok h.counter h.max_val_ maxdist 4 hDM hD0,
    rebin4_ok h.sumval h.max_val_ maxdist 4 hDM hD0, Or.inl ⟨1, by norm_num, ?_⟩⟩
  rw [hz]
  norm_num

theorem update_cutoff_mass_below_quarter_witness :
    (0 : ℚ) < 2 ∧ (2 : ℚ) ≤ (scalar_histogram.mk 8 50 2 [25, 0, 0, 0, 0, 0, 0, 0]
      [13, 0, 0, 0, 0, 0, 0, 0] [50, 0, 0, 0, 0, 0, 0, 0]).max_val_ ∧
    scalar_histogram.update_cutoff
        (scalar_histogram.mk 8 50 2 [25, 0, 0, 0, 0, 0, 0, 0] [13, 0, 0, 0, 0, 0, 0, 0]
          [50, 0, 0, 0, 0, 0, 0, 0])
        (1 / 2) 2 2 = Except.ok (false, 2) :=
  ⟨by norm_num, by norm_num,
    update_cutoff_mass_below_quarter
      (scalar_histogram.mk 8 50 2 [25, 0, 0, 0, 0, 0, 0, 0] [13, 0, 0, 0, 0, 0, 0, 0]
        [50, 0, 0, 0, 0, 0, 0, 0])
      (1 / 2) 2 2 (by norm_num) (by norm_num) (by norm_num) (by simp) (by simp)
      (by norm_num) (by norm_num)
      (by
        intro i hi
        simp only [List.length_cons, List.length_nil] at hi
        interval_cases i <;> norm_num)⟩

/-! ## Theorems: the histogram bank -/

theorem update_cutoff_round_pos (M : ℚ) (cg sg : List ℚ) (c mag D D1 : ℚ)
    (hr : scalar_histogram.update_cutoff_round M cg sg c mag D = Except.ok (some D1))
    (hD : 0 < D) (hmag : 1 ≤ mag) : 0 < D1 := by
  have hm : 0 < mag := lt_of_lt_of_le one_pos hmag
  simp only [scalar_histogram.update_cutoff_round] at hr
  split at hr
  · cases hr
  · split at hr
    · cases hr
    · split at hr
      · cases hr
      · split at hr
        · cases hr
          exact mul_pos hD hm
        · split at hr
          · cases hr
            exact div_pos hD hm
          · cases hr
            exact hD

theorem update_cutoff_loop_pos (M : ℚ) (cg sg : List ℚ) (c mag : ℚ) (n : Nat) (D : ℚ)
    (r : Bool × ℚ)
    (hr : scalar_histogram.update_cutoff_loop M cg sg c mag n D = Except.ok r)
    (hD : 0 < D) (hmag : 1 ≤ mag) : 0 < r.2 := by
  induction n generalizing D with
  | zero =>
    simp only [scalar_histogram.update_cutoff_loop, Except.ok.injEq] at hr
    rw [← hr]
    exact hD
  | succ n ih =>
    simp only [scalar_histogram.update_cutoff_loop] at hr
    cases hround : scalar_histogram.update_cutoff_round M cg sg c mag D with
    | error e =>
      rw [hround] at hr
      cases hr
    | ok o =>
      rw [hround] at hr
      cases o with
      | none =>
        simp only [Except.ok.injEq] at hr
        rw [← hr]
        exact hD
      | some D1 =>
        exact ih D1 hr (update_cutoff_round_pos M cg sg c mag D D1 hround hD hmag)

theorem update_cutoff_pos (h : scalar_histogram) (c maxdist mag : ℚ) (r : Bool × ℚ)
    (hr : h.update_cutoff c maxdist mag = Except.ok r) (hD : 0 < maxdist) : 0 < r.2 := by
  by_cases hc : 0 ≤ c ∧ c ≤ 1
  · by_cases hmag : 1 ≤ mag
    · by_cases hlen : h.sumval.length = h.counter.length
      · by_cases hpos : 0 < h.counter.length
        · rw [update_cutoff_eq_loop h c maxdist mag hc.1 hc.2 hmag hlen hpos] at hr
          exact update_cutoff_loop_pos _ _ _ _ _ 10 maxdist r hr hD hmag
        · simp [scalar_histogram.update_cutoff, all_reduce, hc, hmag, hlen, hpos] at hr
      · simp [scalar_histogram.update_cutoff, hc, hmag, hlen] at hr
    · simp [scalar_histogram.update_cutoff, hc, hmag] at hr
  · simp only [scalar_histogram.update_cutoff, hc, not_false_eq_true, if_true] at hr
    cases hr

theorem bank_loop_eq (c maxdist mag : ℚ) (hs : List scalar_histogram)
    (rs : List (Bool × ℚ)) (m0 : ℚ)
    (hrs : hs.map (fun h => h.update_cutoff c maxdist mag) = rs.map Except.ok) :
    scalar_histogram_flavors.update_cutoff_loop c maxdist mag hs m0 =
      Except.ok ((rs.map Prod.snd).foldl max m0) := by
  induction hs generalizing rs m0 with
  | nil =>
    cases rs with
    | nil => simp [scalar_histogram_flavors.update_cutoff_loop]
    | cons r rest => simp at hrs
  | cons h hs ih =>
    cases rs with
    | nil => simp at hrs
    | cons r rest =>
      simp only [List.map_cons, List.cons.injEq] at hrs
      simp only [scalar_histogram_flavors.update_cutoff_loop, hrs.1, List.map_cons,
        List.foldl_cons]
      exact ih rest _ hrs.2

theorem foldl_max_ge (xs : List ℚ) (m0 : ℚ) :
    m0 ≤ xs.foldl max m0 ∧ (∀ x ∈ xs, x ≤ xs.foldl max m0) ∧
      (xs.foldl max m0 = m0 ∨ xs.foldl max m0 ∈ xs) := by
  induction xs generalizing m0 with
  | nil => simp
  | cons x rest ih =>
    obtain ⟨h1, h2, h3⟩ := ih (max m0 x)
    simp only [List.foldl_cons, List.mem_cons, forall_eq_or_imp]
    refine ⟨le_trans (le_max_left _ _) h1, ⟨le_trans (le_max_right _ _) h1, h2⟩, ?_⟩
    rcases h3 with h3 | h3
    · rw [h3]
      rcases max_choice m0 x with h4 | h4
      · left; exact h4
      · right; left; exact h4
    · right; right; exact h3

/-- C9: for a bank with at least one flavor, `B ≥ 1` bins and bound `M > 0`, and a call
`update_cutoff(cutoff_ratio, current_maxdist > 0, magnification_factor)` in which every
flavor's scalar `update_cutoff` returns its pair `(converged, candidate)`: the bank
returns `max(min(M, C), M/B)`, where `C` is the greatest of the candidates of all flavors,
converged or not; the value returned lies between `M/B` and `M`. -/
theorem bank_update_cutoff_clamped (b : scalar_histogram_flavors) (c maxdist mag : ℚ)
    (rs : List (Bool × ℚ)) (hF : b.histograms ≠ []) (hB : 1 ≤ b.num_bins)
    (hM : 0 < b.max_val) (hD : 0 < maxdist)
    (hrs : b.histograms.map (fun h => h.update_cutoff c maxdist mag) = rs.map Except.ok) :
    ∃ C, C ∈ rs.map Prod.snd ∧ (∀ x ∈ rs.map Prod.snd, x ≤ C) ∧
      b.update_cutoff c maxdist mag =
        Except.ok (max (min b.max_val C) (b.max_val / (b.num_bins : ℚ))) ∧
      b.max_val / (b.num_bins : ℚ) ≤ max (min b.max_val C) (b.max_val / (b.num_bins : ℚ)) ∧
      max (min b.max_val C) (b.max_val / (b.num_bins : ℚ)) ≤ b.max_val := by
  have hpos : ∀ x ∈ rs.map Prod.snd, 0 < x := by
    intro x hx
    obtain ⟨r, hr, rfl⟩ := List.mem_map.1 hx
    have hmem : (Except.ok r : Except String (Bool × ℚ)) ∈ rs.map Except.ok :=
      List.mem_map.2 ⟨r, hr, rfl⟩
    rw [← hrs] at hmem
    obtain ⟨h, _, hh⟩ := List.mem_map.1 hmem
    exact update_cutoff_pos h c maxdist mag r hh hD
  have hne : rs.map Prod.snd ≠ [] := by
    intro h0
    have h1 : rs = [] := by simpa using h0
    rw [h1] at hrs
    exact hF (by simpa using hrs)
  obtain ⟨_, hge, hmem⟩ := foldl_max_ge (rs.map Prod.snd) (-1)
  obtain ⟨x0, hx0⟩ := List.exists_mem_of_ne_nil _ hne
  have hCpos : 0 < (rs.map Prod.snd).foldl max (-1) :=
    lt_of_lt_of_le (hpos x0 hx0) (hge x0 hx0)
  have hCmem : (rs.map Prod.snd).foldl max (-1) ∈ rs.map Prod.snd := by
    rcases hmem with h1 | h1
    · rw [h1] at hCpos
      norm_num at hCpos
    · exact h1
  have hB0 : b.num_bins ≠ 0 := by omega
  have hBq : (1 : ℚ) ≤ (b.num_bins : ℚ) := by exact_mod_cast hB
  refine ⟨(rs.map Prod.snd).foldl max (-1), hCmem, hge, ?_, le_max_right _ _, ?_⟩
  · simp only [scalar_histogram_flavors.update_cutoff,
      bank_loop_eq c maxdist mag b.histograms rs (-1) hrs, hCpos, not_true_eq_false,
      if_false, hB0]
  · exact max_le (min_le_left _ _) (div_le_self hM.le hBq)

theorem bank_update_cutoff_clamped_witness :
    (0 : ℚ) < 1 / 2 ∧
    ∃ C, C ∈ List.map Prod.snd [((false, 1 / 4) : Bool × ℚ), (false, 1 / 2)] ∧
      (∀ x ∈ List.map Prod.snd [((false, 1 / 4) : Bool × ℚ), (false, 1 / 2)], x ≤ C) ∧
      scalar_histogram_flavors.update_cutoff
        (scalar_histogram_flavors.mk 2 8 1
          [scalar_histogram.mk 8 160 1 [20, 20, 20, 1, 1, 1, 1, 1]
              [20, 20, 20, 1, 1, 1, 1, 1] [20, 20, 20, 20, 20, 20, 20, 20],
            scalar_histogram.mk 8 100 1 [50, 0, 0, 0, 0, 0, 0, 0]
              [25, 0, 0, 0, 0, 0, 0, 0] [100, 0, 0, 0, 0, 0, 0, 0]])
        (1 / 2) (1 / 2) 2 =
          Except.ok (max (min 1 C) (1 / ((8 : Int) : ℚ))) ∧
      1 / ((8 : Int) : ℚ) ≤ max (min 1 C) (1 / ((8 : Int) : ℚ)) ∧
      max (min 1 C) (1 / ((8 : Int) : ℚ)) ≤ 1 := by
  have a1 : rebin4 [20, 20, 20, 20, 20, 20, 20, 20] 1 (1 / 2) 4 =
      Except.ok [20, 20, 20, 20] := by
    norm_num [rebin4, rebin4_loop, List.replicate, toNat_two, toNat_three]
  have a2 : rebin4 [20, 20, 20, 1, 1, 1, 1, 1] 1 (1 / 2) 4 = Except.ok [20, 20, 20, 1] := by
    norm_num [rebin4, rebin4_loop, List.replicate, toNat_two, toNat_three]
  have a3 : rebin4 [20, 20, 20, 20, 20, 20, 20, 20] 1 (1 / 4) 4 =
      Except.ok [0, 20, 0, 20] := by
    norm_num [rebin4, rebin4_loop, List.replicate, toNat_two, toNat_three]
  have a4 : rebin4 [20, 20, 20, 1, 1, 1, 1, 1] 1 (1 / 4) 4 = Except.ok [0, 20, 0, 20] := by
    norm_num [rebin4, rebin4_loop, List.replicate, toNat_two, toNat_three]
  have a5 : rebin4 [100, 0, 0, 0, 0, 0, 0, 0] 1 (1 / 2) 4 = Except.ok [100, 0, 0, 0] := by
    norm_num [rebin4, rebin4_loop, List.replicate, toNat_two, toNat_three]
  have a6 : rebin4 [50, 0, 0, 0, 0, 0, 0, 0] 1 (1 / 2) 4 = Except.ok [50, 0, 0, 0] := by
    norm_num [rebin4, rebin4_loop, List.replicate, toNat_two, toNat_three]
  have r1 : scalar_histogram.update_cutoff_round 1 [20, 20, 20, 20, 20, 20, 20, 20]
      [20, 20, 20, 1, 1, 1, 1, 1] (1 / 2) 2 (1 / 2) = Except.ok (some (1 / 4)) := by
    simp only [scalar_histogram.update_cutoff_round, scalar_histogram.ndiv, a1, a2,
      scalar_histogram.scan_bins, scalar_histogram.min_count]
    norm_num [ieee_div, ieee_quotient.gt, ieee_quotient.lt]
  have r2 : scalar_histogram.update_cutoff_round 1 [20, 20, 20, 20, 20, 20, 20, 20]
      [20, 20, 20, 1, 1, 1, 1, 1] (1 / 2) 2 (1 / 4) = Except.ok none := by
    simp only [scalar_histogram.update_cutoff_round, scalar_histogram.ndiv, a3, a4,
      scalar_histogram.scan_bins, scalar_histogram.min_count]
    norm_num
  have r3 : scalar_histogram.update_cutoff_round 1 [100, 0, 0, 0, 0, 0, 0, 0]
      [50, 0, 0, 0, 0, 0, 0, 0] (1 / 2) 2 (1 / 2) = Except.ok none := by
    simp only [scalar_histogram.update_cutoff_round, scalar_histogram.ndiv, a5, a6,
      scalar_histogram.scan_bins, scalar_histogram.min_count]
    norm_num
  have u1 : scalar_histogram.update_cutoff
      (scalar_histogram.mk 8 160 1 [20, 20, 20, 1, 1, 1, 1, 1]
        [20, 20, 20, 1, 1, 1, 1, 1] [20, 20, 20, 20, 20, 20, 20, 20]) (1 / 2) (1 / 2) 2 =
      Except.ok (false, 1 / 4) := by
    rw [update_cutoff_eq_loop _ _ _ _ (by norm_num) (by norm_num) (by norm_num) (by simp)
      (by simp)]
    rw [update_cutoff_loop_next _ _ _ _ _ 9 _ _ r1]
    exact update_cutoff_loop_stop _ _ _ _ _ 8 _ r2
  have u2 : scalar_histogram.update_cutoff
      (scalar_histogram.mk 8 100 1 [50, 0, 0, 0, 0, 0, 0, 0]
        [25, 0, 0, 0, 0, 0, 0, 0] [100, 0, 0, 0, 0, 0, 0, 0]) (1 / 2) (1 / 2) 2 =
      Except.ok (false, 1 / 2) := by
    rw [update_cutoff_eq_loop _ _ _ _ (by norm_num) (by norm_num) (by norm_num) (by simp)
      (by simp)]
    exact update_cutoff_loop_stop _ _ _ _ _ 9 _ r3
  exact ⟨by norm_num,
    bank_update_cutoff_clamped
      (scalar_histogram_flavors.mk 2 8 1
        [scalar_histogram.mk 8 160 1 [20, 20, 20, 1, 1, 1, 1, 1]
            [20, 20, 20, 1, 1, 1, 1, 1] [20, 20, 20, 20, 20, 20, 20, 20],
          scalar_histogram.mk 8 100 1 [50, 0, 0, 0, 0, 0, 0, 0]
            [25, 0, 0, 0, 0, 0, 0, 0] [100, 0, 0, 0, 0, 0, 0, 0]])
      (1 / 2) (1 / 2) 2 [(false, 1 / 4), (false, 1 / 2)] (by simp) (by norm_num)
      (by norm_num) (by norm_num)
      (by simp only [List.map_cons, List.map_nil, u1, u2])⟩

/-! ## Theorems: merge rebinning -/

theorem drop_take_succ_sum (a : List ℚ) (s k : Nat) :
    ((a.drop s).take (k + 1)).sum = a.getD s 0 + ((a.drop (s + 1)).take k).sum := by
  by_cases hs : s < a.length
  · rw [List.drop_eq_getElem_cons hs, List.take_succ_cons, List.sum_cons,
      List.getD_eq_getElem?_getD, List.getElem?_eq_getElem hs]
    rfl
  · have h1 : a.drop s = [] := List.drop_eq_nil_of_le (by omega)
    have h2 : a.drop (s + 1) = [] := List.drop_eq_nil_of_le (by omega)
    rw [h1, h2, List.getD_eq_getElem?_getD, List.getElem?_eq_none (by omega)]
    simp

theorem rebin2_inner_eq (a : List ℚ) (j count : Nat) (sum : ℚ) :
    rebin2_inner a j count sum = (sum + ((a.drop count).take j).sum, count + j) := by
  induction j generalizing count sum with
  | zero => simp [rebin2_inner]
  | succ j ih =>
    rw [rebin2_inner, ih, drop_take_succ_sum]
    refine Prod.ext ?_ ?_
    · simp only []
      ring
    · simp only []
      omega

theorem rebin2_loop_length (a : List ℚ) (k n count : Nat) :
    (rebin2_loop a k n count).length = n := by
  induction n generalizing count with
  | zero => simp [rebin2_loop]
  | succ n ih => simp [rebin2_loop, ih]

theorem rebin2_loop_getD (a : List ℚ) (k n count i : Nat) (hi : i < n) :
    (rebin2_loop a k n count).getD i 0 = ((a.drop (count + i * k)).take k).sum := by
  induction n generalizing count i with
  | zero => omega
  | succ n ih =>
    rw [rebin2_loop, rebin2_inner_eq]
    cases i with
    | zero => simp
    | succ i =>
      simp only [List.getD_cons_succ]
      rw [ih (count + k) i (by omega)]
      have e : count + k + i * k = count + (i + 1) * k := by ring
      rw [e]

theorem rebin2_loop_sum (a : List ℚ) (k n count : Nat) :
    (rebin2_loop a k n count).sum = ((a.drop count).take (n * k)).sum := by
  induction n generalizing count with
  | zero => simp [rebin2_loop]
  | succ n ih =>
    rw [rebin2_loop, rebin2_inner_eq, List.sum_cons, ih]
    have e : (n + 1) * k = k + n * k := by ring
    rw [e, List.take_add, List.sum_append, List.drop_drop]
    simp only [zero_add]

theorem drop_take_sum_eq_range (a : List ℚ) (s k : Nat) :
    ((a.drop s).take k).sum = ((List.range k).map (fun j => a.getD (s + j) 0)).sum := by
  induction k generalizing s with
  | zero => simp
  | succ k ih =>
    rw [drop_take_succ_sum, ih (s + 1), List.range_succ_eq_map, List.map_cons, List.sum_cons,
      List.map_map]
    congr 2
    apply List.map_congr_left
    intro j _
    simp only [Function.comp]
    have e : s + 1 + j = s + j.succ := by omega
    rw [e]

/-- C11: for every sequence `a` and every factor `k ≥ 1` dividing its length,
`rebin(a, k)` returns a sequence of length `len(a)/k` whose `i`-th element is
`a[i*k] + ... + a[i*k+k-1]`, and whose total equals the total of `a`. -/
theorem rebin2_merges (a : List ℚ) (k : Nat) (hk : 1 ≤ k) (hdiv : k ∣ a.length) :
    ∃ r, rebin2 a (k : Int) = Except.ok r ∧ r.length = a.length / k ∧
      (∀ i, i < a.length / k →
        r.getD i 0 = ((List.range k).map (fun j => a.getD (i * k + j) 0)).sum) ∧
      r.sum = a.sum := by
  have hk0 : (k : Int) ≠ 0 := by omega
  have hkn : ¬ (k : Int) < 0 := by omega
  refine ⟨rebin2_loop a k (a.length / k) 0, ?_, rebin2_loop_length _ _ _ _, ?_, ?_⟩
  · simp only [rebin2, hk0, hkn, if_false, Int.toNat_ofNat]
  · intro i hi
    rw [rebin2_loop_getD a k _ 0 i hi, drop_take_sum_eq_range, Nat.zero_add]
  · rw [rebin2_loop_sum, Nat.div_mul_cancel hdiv, List.drop_zero, List.take_length]

theorem rebin2_merges_witness :
    1 ≤ 2 ∧ 2 ∣ ([1, 2, 3, 4, 5, 6] : List ℚ).length ∧
    (∃ r, rebin2 [1, 2, 3, 4, 5, 6] ((2 : Nat) : Int) = Except.ok r ∧
      r.length = ([1, 2, 3, 4, 5, 6] : List ℚ).length / 2 ∧
      r.sum = ([1, 2, 3, 4, 5, 6] : List ℚ).sum) ∧
    rebin2 [1, 2, 3, 4, 5, 6] 2 = Except.ok [3, 7, 11] ∧
    ([1, 2, 3, 4, 5, 6] : List ℚ).sum = 21 ∧ ([3, 7, 11] : List ℚ).sum = 21 := by
  refine ⟨by norm_num, by decide, ?_, ?_, by norm_num, by norm_num⟩
  · obtain ⟨r, h1, h2, _, h4⟩ := rebin2_merges [1, 2, 3, 4, 5, 6] 2 (by norm_num) (by decide)
    exact ⟨r, h1, h2, h4⟩
  · have e : (2 : Int).toNat = 2 := rfl
    norm_num [rebin2, rebin2_loop, rebin2_inner, e]

/-! ## Theorems: domain-remap rebinning -/

theorem list_eq_of_getD (l1 l2 : List ℚ) (hlen : l1.length = l2.length)
    (h : ∀ j, j < l1.length → l1.getD j 0 = l2.getD j 0) : l1 = l2 := by
  apply List.ext_getElem hlen
  intro n h1 h2
  have := h n h1
  rwa [List.getD_eq_getElem _ _ h1, List.getD_eq_getElem _ _ h2] at this

theorem sum_set_add (l : List ℚ) (p : Nat) (x : ℚ) (hp : p < l.length) :
    (l.set p (l.getD p 0 + x)).sum = l.sum + x := by
  induction l generalizing p with
  | nil => simp at hp
  | cons a l ih =>
    cases p with
    | zero =>
      simp only [List.set_cons_zero, List.sum_cons, List.getD_cons_zero]
      ring
    | succ p =>
      simp only [List.set_cons_succ, List.sum_cons, List.getD_cons_succ]
      rw [ih p (by simpa using hp)]
      ring

theorem rebin4_step_length (acc : List ℚ) (pos : Int) (L : Nat) (x : ℚ) :
    (if 0 ≤ pos ∧ pos < (L : Int) then acc.set pos.toNat (acc.getD pos.toNat 0 + x)
      else acc).length = acc.length := by
  split <;> simp

theorem rebin4_step_getD (acc : List ℚ) (pos : Int) (L j : Nat) (x : ℚ)
    (hlen : acc.length = L) (hj : j < L) :
    (if 0 ≤ pos ∧ pos < (L : Int) then acc.set pos.toNat (acc.getD pos.toNat 0 + x)
      else acc).getD j 0 = acc.getD j 0 + (if pos = (j : Int) then x else 0) := by
  by_cases hin : 0 ≤ pos ∧ pos < (L : Int)
  · rw [if_pos hin]
    by_cases hpj : pos = (j : Int)
    · have e : pos.toNat = j := by omega
      rw [if_pos hpj, e]
      simp only [List.getD_eq_getElem?_getD]
      rw [List.getElem?_set_self (by omega)]
      rfl
    · have e : pos.toNat ≠ j := by omega
      rw [if_neg hpj, add_zero]
      simp only [List.getD_eq_getElem?_getD]
      rw [List.getElem?_set_ne e]
  · rw [if_neg hin]
    have hpj : pos ≠ (j : Int) := by
      intro h0
      apply hin
      omega
    rw [if_neg hpj, add_zero]

theorem rebin4_step_sum (acc : List ℚ) (pos : Int) (L : Nat) (x : ℚ)
    (hlen : acc.length = L) :
    (if 0 ≤ pos ∧ pos < (L : Int) then acc.set pos.toNat (acc.getD pos.toNat 0 + x)
      else acc).sum = acc.sum + (if 0 ≤ pos ∧ pos < (L : Int) then x else 0) := by
  by_cases hin : 0 ≤ pos ∧ pos < (L : Int)
  · rw [if_pos hin, if_pos hin, sum_set_add acc _ x (by omega)]
  · rw [if_neg hin, if_neg hin, add_zero]

theorem enumFrom_sum_zero (c : Nat → Prop) [DecidablePred c] (src : List ℚ) (i : Nat)
    (h : ∀ t, i ≤ t → t < i + src.length → ¬ c t) :
    ((src.enumFrom i).map (fun p => if c p.1 then p.2 else 0)).sum = 0 := by
  induction src generalizing i with
  | nil => simp
  | cons x rest ih =>
    simp only [List.enumFrom_cons, List.map_cons, List.sum_cons]
    rw [if_neg (h i (le_refl _) (by simp)), zero_add]
    apply ih
    intro t h1 h2
    exact h t (by omega) (by simp only [List.length_cons]; omega)

theorem enumFrom_sum_all (c : Nat → Prop) [DecidablePred c] (src : List ℚ) (i : Nat)
    (h : ∀ t, i ≤ t → t < i + src.length → c t) :
    ((src.enumFrom i).map (fun p => if c p.1 then p.2 else 0)).sum = src.sum := by
  induction src generalizing i with
  | nil => simp
  | cons x rest ih =>
    simp only [List.enumFrom_cons, List.map_cons, List.sum_cons]
    rw [if_pos (h i (le_refl _) (by simp))]
    congr 1
    apply ih
    intro t h1 h2
    exact h t (by omega) (by simp only [List.length_cons]; omega)

theorem rebin4_loop_nobreak_length (M D : ℚ) (L n : Nat) (src : List ℚ) (i : Nat)
    (acc : List ℚ) : (rebin4_loop_nobreak M D L n src i acc).length = acc.length := by
  induction src generalizing i acc with
  | nil => simp [rebin4_loop_nobreak]
  | cons x rest ih =>
    simp only [rebin4_loop_nobreak]
    rw [ih, rebin4_step_length]

theorem rebin4_loop_nobreak_getD (M D : ℚ) (L n : Nat) (src : List ℚ) (i : Nat)
    (acc : List ℚ) (j : Nat) (hlen : acc.length = L) (hj : j < L) :
    (rebin4_loop_nobreak M D L n src i acc).getD j 0 =
      acc.getD j 0 +
        ((src.enumFrom i).map
          (fun p => if rebin4_pos M D L n p.1 = (j : Int) then p.2 else 0)).sum := by
  induction src generalizing i acc with
  | nil => simp [rebin4_loop_nobreak]
  | cons x rest ih =>
    simp only [rebin4_loop_nobreak, List.enumFrom_cons, List.map_cons, List.sum_cons]
    rw [ih (i + 1) _ (by rw [rebin4_step_length]; exact hlen),
      rebin4_step_getD acc _ L j x hlen hj]
    simp only [rebin4_pos]
    ring

theorem rebin4_loop_getD (M D : ℚ) (L n : Nat) (src : List ℚ) (i : Nat)
    (acc : List ℚ) (j : Nat) (hlen : acc.length = L) (hj : j < L)
    (hmono : ∀ s t, s ≤ t → rebin4_pos M D L n s ≤ rebin4_pos M D L n t) :
    (rebin4_loop M D L n src i acc).getD j 0 =
      acc.getD j 0 +
        ((src.enumFrom i).map
          (fun p => if rebin4_pos M D L n p.1 = (j : Int) then p.2 else 0)).sum := by
  induction src generalizing i acc with
  | nil => simp [rebin4_loop]
  | cons x rest ih =>
    simp only [rebin4_loop]
    split
    · rename_i hbreak
      have hz := enumFrom_sum_zero (fun t => rebin4_pos M D L n t = (j : Int)) (x :: rest) i
        (by
          intro t h1 _ h3
          have h4 := hmono i t h1
          simp only [rebin4_pos] at h3 h4
          omega)
      rw [hz, add_zero, rebin4_step_getD acc _ L j x hlen hj]
      have hne : ⌊(L : ℚ) * (((i : ℚ) + 1 / 2) * (M / (n : ℚ))) / D⌋ ≠ (j : Int) := by
        omega
      rw [if_neg hne, add_zero]
    · simp only [List.enumFrom_cons, List.map_cons, List.sum_cons]
      rw [ih (i + 1) _ (by rw [rebin4_step_length]; exact hlen),
        rebin4_step_getD acc _ L j x hlen hj]
      simp only [rebin4_pos]
      ring

theorem rebin4_pos_mono (M D : ℚ) (L n : Nat) (hM : 0 ≤ M) (hD : 0 < D) (s t : Nat)
    (hst : s ≤ t) : rebin4_pos M D L n s ≤ rebin4_pos M D L n t := by
  simp only [rebin4_pos]
  apply Int.floor_le_floor
  have h1 : (s : ℚ) ≤ (t : ℚ) := by exact_mod_cast hst
  have h2 : (0 : ℚ) ≤ M / (n : ℚ) := by positivity
  have h3 : (0 : ℚ) ≤ (L : ℚ) := by positivity
  apply div_le_div_of_nonneg_right _ hD.le
  apply mul_le_mul_of_nonneg_left _ h3
  apply mul_le_mul_of_nonneg_right _ h2
  linarith

theorem rebin4_spec_length (a : List ℚ) (M D : ℚ) (L : Nat) :
    (rebin4_spec a M D L).length = L := by
  simp [rebin4_spec]

theorem rebin4_spec_getD (a : List ℚ) (M D : ℚ) (L j : Nat) (hj : j < L) :
    (rebin4_spec a M D L).getD j 0 =
      ((a.enumFrom 0).map
        (fun p => if rebin4_pos M D L a.length p.1 = (j : Int) then p.2 else 0)).sum := by
  have hlen : j < (rebin4_spec a M D L).length := by rw [rebin4_spec_length]; exact hj
  rw [List.getD_eq_getElem _ _ hlen]
  simp only [rebin4_spec, List.getElem_map, List.getElem_range, List.enum, rebin4_pos,
    mul_div_assoc]

theorem rebin4_loop_eq_spec (a : List ℚ) (M D : ℚ) (L : Nat) (hM : 0 ≤ M) (hD : 0 < D) :
    rebin4_loop M D L a.length a 0 (List.replicate L 0) = rebin4_spec a M D L ∧
      rebin4_loop_nobreak M D L a.length a 0 (List.replicate L 0) = rebin4_spec a M D L := by
  constructor
  · apply list_eq_of_getD
    · rw [rebin4_loop_length, rebin4_spec_length, List.length_replicate]
    · intro j hj
      rw [rebin4_loop_length, List.length_replicate] at hj
      rw [rebin4_loop_getD M D L a.length a 0 _ j (List.length_replicate _ _) hj
        (rebin4_pos_mono M D L a.length hM hD), rebin4_spec_getD a M D L j hj]
      simp [List.getD_eq_getElem?_getD, hj]
  · apply list_eq_of_getD
    · rw [rebin4_loop_nobreak_length, rebin4_spec_length, List.length_replicate]
    · intro j hj
      rw [rebin4_loop_nobreak_length, List.length_replicate] at hj
      rw [rebin4_loop_nobreak_getD M D L a.length a 0 _ j (List.length_replicate _ _) hj,
        rebin4_spec_getD a M D L j hj]
      simp [List.getD_eq_getElem?_getD, hj]

theorem rebin4_loop_sum_le (M D : ℚ) (L n : Nat) (src : List ℚ) (i : Nat) (acc : List ℚ)
    (hlen : acc.length = L) (hnn : ∀ x ∈ src, 0 ≤ x) :
    (rebin4_loop M D L n src i acc).sum ≤ acc.sum + src.sum := by
  induction src generalizing i acc with
  | nil => simp [rebin4_loop]
  | cons x rest ih =>
    have hx : 0 ≤ x := hnn x (List.mem_cons_self _ _)
    have hrest : ∀ y ∈ rest, 0 ≤ y := fun y hy => hnn y (List.mem_cons_of_mem _ hy)
    have hrs : 0 ≤ rest.sum := List.sum_nonneg hrest
    simp only [rebin4_loop, List.sum_cons]
    generalize ⌊(L : ℚ) * (((i : ℚ) + 1 / 2) * (M / (n : ℚ))) / D⌋ = p
    have hstep := rebin4_step_sum acc p L x hlen
    have hle : (if 0 ≤ p ∧ p < (L : Int) then x else 0) ≤ x := by
      split
      · exact le_refl _
      · exact hx
    split
    · rw [hstep]
      linarith
    · have := ih (i + 1)
        (if 0 ≤ p ∧ p < (L : Int) then acc.set p.toNat (acc.getD p.toNat 0 + x) else acc)
        (by rw [rebin4_step_length]; exact hlen) hrest
      rw [hstep] at this
      linarith

/-- C12 (as stated, refuted): the source `[1, -5]` over `[0, 1)` remapped to 1 bin over
`[0, 1/2)` keeps the entry 1 and drops the entry -5, so the total grows from -4 to 1. -/
theorem remap_drops_negative_entry :
    rebin4 [1, -5] 1 (1 / 2) 1 = Except.ok [1] ∧
      ([1, -5] : List ℚ).sum < ([1] : List ℚ).sum := by
  constructor
  · norm_num [rebin4, rebin4_loop, List.replicate]
  · norm_num

/-- C12 (amended): for every source sequence `a` with non-negative entries, every new
bound `M' > 0`, every old bound `M ≥ M'` (so `M > 0`) and every new length `L`, the remap
`rebin(a, M, M', L)` returns, and the total of its result is at most the total of `a`. -/
theorem rebin4_sum_le (a : List ℚ) (M M1 : ℚ) (L : Nat) (hnn : ∀ x ∈ a, 0 ≤ x)
    (hM1 : 0 < M1) (hle : M1 ≤ M) :
    ∃ r, rebin4 a M M1 L = Except.ok r ∧ r.sum ≤ a.sum := by
  refine ⟨_, rebin4_ok a M M1 L hle (ne_of_gt hM1), ?_⟩
  have := rebin4_loop_sum_le M M1 L a.length a 0 (List.replicate L 0)
    (List.length_replicate _ _) hnn
  simpa using this

theorem rebin4_sum_le_witness :
    (∀ x ∈ ([1, 2, 3, 4] : List ℚ), 0 ≤ x) ∧ (0 : ℚ) < 1 / 2 ∧ (1 / 2 : ℚ) ≤ 1 ∧
    ∃ r, rebin4 [1, 2, 3, 4] 1 (1 / 2) 2 = Except.ok r ∧ r.sum ≤ ([1, 2, 3, 4] : List ℚ).sum :=
  ⟨by norm_num, by norm_num, by norm_num,
    rebin4_sum_le [1, 2, 3, 4] 1 (1 / 2) 2 (by norm_num) (by norm_num) (by norm_num)⟩

/-! ### The bin index in double arithmetic -/

theorem round_half_even_near (x : ℚ) :
    x - 1 / 2 ≤ (round_half_even x : ℚ) ∧ (round_half_even x : ℚ) ≤ x + 1 / 2 := by
  have h1 := Int.floor_le x
  have h2 := Int.lt_floor_add_one x
  unfold round_half_even
  split_ifs with ha hb hc
  · constructor <;> linarith
  · push_cast
    constructor <;> linarith
  · constructor <;> linarith
  · push_cast
    constructor <;> linarith

theorem round_half_even_intCast (n : Int) : round_half_even (n : ℚ) = n := by
  unfold round_half_even
  simp

theorem round_half_even_mono (x y : ℚ) (h : x ≤ y) :
    round_half_even x ≤ round_half_even y := by
  by_contra hlt
  push_neg at hlt
  have h1 : round_half_even y + 1 ≤ round_half_even x := hlt
  have h2 : (round_half_even y : ℚ) + 1 ≤ (round_half_even x : ℚ) := by exact_mod_cast h1
  have hx := (round_half_even_near x).2
  have hy := (round_half_even_near y).1
  have hxy : x = y := by linarith
  rw [hxy] at hlt
  exact lt_irrefl _ hlt

theorem double_ulp_pos (x : ℚ) : 0 < double_ulp x := by
  unfold double_ulp
  positivity

theorem double_round_zero : double_round 0 = 0 := by
  unfold double_round
  rw [zero_div]
  have := round_half_even_intCast 0
  simp only [Int.cast_zero] at this
  rw [this]
  simp

theorem double_round_nonneg (x : ℚ) (hx : 0 ≤ x) : 0 ≤ double_round x := by
  unfold double_round
  have hu := double_ulp_pos x
  have h0 : round_half_even ((0 : Int) : ℚ) ≤ round_half_even (x / double_ulp x) := by
    apply round_half_even_mono
    simp only [Int.cast_zero]
    positivity
  rw [round_half_even_intCast] at h0
  have h1 : (0 : ℚ) ≤ (round_half_even (x / double_ulp x) : ℚ) := by exact_mod_cast h0
  positivity

theorem round_half_even_two_zpow (k : Int) (hk : 0 ≤ k) :
    round_half_even ((2 : ℚ) ^ k) = 2 ^ k.toNat := by
  have e : ((2 : ℚ) ^ k) = (((2 : Int) ^ k.toNat : Int) : ℚ) := by
    push_cast
    rw [← zpow_natCast, Int.toNat_of_nonneg hk]
  rw [e, round_half_even_intCast]

theorem two_zpow_toNat (k : Int) (hk : 0 ≤ k) :
    (((2 : Int) ^ k.toNat : Int) : ℚ) = (2 : ℚ) ^ k := by
  push_cast
  rw [← zpow_natCast, Int.toNat_of_nonneg hk]

theorem double_round_mono (x y : ℚ) (hx : 0 ≤ x) (hxy : x ≤ y) :
    double_round x ≤ double_round y := by
  rcases eq_or_lt_of_le hx with hx0 | hxpos
  · rw [← hx0, double_round_zero]
    exact double_round_nonneg y (le_trans hx hxy)
  have hypos : 0 < y := lt_of_lt_of_le hxpos hxy
  have hlog : Int.log 2 x ≤ Int.log 2 y := Int.log_mono_right hxpos hxy
  have hb : 1 < 2 := by norm_num
  have hxl : x < (2 : ℚ) ^ (Int.log 2 x + 1) := by
    have := Int.lt_zpow_succ_log_self hb x
    exact_mod_cast this
  have hyl : (2 : ℚ) ^ Int.log 2 y ≤ y := by
    have := Int.zpow_log_le_self hb hypos
    exact_mod_cast this
  unfold double_round double_ulp
  rw [abs_of_pos hxpos, abs_of_pos hypos]
  generalize hqx : max (Int.log 2 x - 52) (-1074) = qx
  generalize hqy : max (Int.log 2 y - 52) (-1074) = qy
  have hqxy : qx ≤ qy := by
    rw [← hqx, ← hqy]
    exact max_le_max (by omega) (le_refl _)
  have hux : (0 : ℚ) < (2 : ℚ) ^ qx := by positivity
  have huy : (0 : ℚ) < (2 : ℚ) ^ qy := by positivity
  rcases eq_or_lt_of_le hqxy with heq | hlt
  · rw [← heq]
    apply mul_le_mul_of_nonneg_right _ hux.le
    have := round_half_even_mono (x / (2 : ℚ) ^ qx) (y / (2 : ℚ) ^ qx)
      (div_le_div_of_nonneg_right hxy hux.le)
    exact_mod_cast this
  · have hqx1 : Int.log 2 x - 52 ≤ qx := by rw [← hqx]; exact le_max_left _ _
    have hqx2 : -1074 ≤ qx := by rw [← hqx]; exact le_max_right _ _
    have hqy1 : qy = Int.log 2 y - 52 := by
      rw [← hqy]
      apply max_eq_left
      by_contra hcon
      push_neg at hcon
      rw [max_eq_right hcon.le] at hqy
      omega
    have hlt2 : Int.log 2 x + 1 ≤ Int.log 2 y := by omega
    -- upper bound for x
    have hk : 0 ≤ Int.log 2 y - qx := by omega
    have hx2 : x / (2 : ℚ) ^ qx ≤ (2 : ℚ) ^ (Int.log 2 y - qx) := by
      rw [div_le_iff₀ hux, ← zpow_add₀ (by norm_num : (2 : ℚ) ≠ 0)]
      have e : Int.log 2 y - qx + qx = Int.log 2 y := by ring
      rw [e]
      apply le_trans hxl.le
      exact zpow_le_zpow_right₀ (by norm_num) hlt2
    have hrx := round_half_even_mono _ _ hx2
    rw [round_half_even_two_zpow _ hk] at hrx
    have hrx2 : (round_half_even (x / (2 : ℚ) ^ qx) : ℚ) ≤ (2 : ℚ) ^ (Int.log 2 y - qx) := by
      rw [← two_zpow_toNat _ hk]
      exact_mod_cast hrx
    have hxb : (round_half_even (x / (2 : ℚ) ^ qx) : ℚ) * (2 : ℚ) ^ qx ≤
        (2 : ℚ) ^ Int.log 2 y := by
      have := mul_le_mul_of_nonneg_right hrx2 hux.le
      rw [← zpow_add₀ (by norm_num : (2 : ℚ) ≠ 0)] at this
      have e : Int.log 2 y - qx + qx = Int.log 2 y := by ring
      rwa [e] at this
    -- lower bound for y
    have hy2 : (2 : ℚ) ^ (52 : Int) ≤ y / (2 : ℚ) ^ qy := by
      rw [le_div_iff₀ huy, ← zpow_add₀ (by norm_num : (2 : ℚ) ≠ 0)]
      have e : 52 + qy = Int.log 2 y := by omega
      rw [e]
      exact hyl
    have hry := round_half_even_mono _ _ hy2
    rw [round_half_even_two_zpow _ (by norm_num)] at hry
    have hry2 : (2 : ℚ) ^ (52 : Int) ≤ (round_half_even (y / (2 : ℚ) ^ qy) : ℚ) := by
      rw [← two_zpow_toNat _ (by norm_num)]
      exact_mod_cast hry
    have hyb : (2 : ℚ) ^ Int.log 2 y ≤
        (round_half_even (y / (2 : ℚ) ^ qy) : ℚ) * (2 : ℚ) ^ qy := by
      have := mul_le_mul_of_nonneg_right hry2 huy.le
      rw [← zpow_add₀ (by norm_num : (2 : ℚ) ≠ 0)] at this
      have e : 52 + qy = Int.log 2 y := by omega
      rwa [e] at this
    exact le_trans hxb hyb

theorem round_half_even_eq (x : ℚ) (m : Int) (hlo : (m : ℚ) - 1 / 2 < x)
    (hhi : x < (m : ℚ) + 1 / 2) : round_half_even x = m := by
  obtain ⟨h1, h2⟩ := round_half_even_near x
  have h3 : (round_half_even x : ℚ) < (m : ℚ) + 1 := by linarith
  have h4 : (m : ℚ) - 1 < (round_half_even x : ℚ) := by linarith
  have h5 : round_half_even x < m + 1 := by exact_mod_cast h3
  have h6 : m - 1 < round_half_even x := by exact_mod_cast h4
  omega

theorem round_half_even_tie (x : ℚ) (m : Int)
    (hx : x = (m : ℚ) + 1 / 2 ∨ x = (m : ℚ) - 1 / 2) (hm : m % 2 = 0) :
    round_half_even x = m := by
  rcases hx with hx | hx
  · have hf : ⌊x⌋ = m := by
      rw [Int.floor_eq_iff, hx]
      constructor <;> linarith
    unfold round_half_even
    rw [hf, hx]
    norm_num [hm]
  · have hf : ⌊x⌋ = m - 1 := by
      rw [Int.floor_eq_iff, hx]
      push_cast
      constructor <;> linarith
    have hodd : ¬ (m - 1) % 2 = 0 := by omega
    unfold round_half_even
    rw [hf, hx]
    push_cast
    norm_num [hodd]

theorem double_ulp_eq (x : ℚ) (e : Int) (he : -1022 ≤ e) (h1 : (2 : ℚ) ^ e ≤ x)
    (h2 : x < (2 : ℚ) ^ (e + 1)) : double_ulp x = (2 : ℚ) ^ (e - 52) := by
  have hb : 1 < 2 := by norm_num
  have hx : 0 < x := lt_of_lt_of_le (by positivity) h1
  have hl1 : e ≤ Int.log 2 x :=
    (Int.zpow_le_iff_le_log hb hx).1 (by exact_mod_cast h1)
  have hl2 : Int.log 2 x < e + 1 :=
    (Int.lt_zpow_iff_log_lt hb hx).1 (by exact_mod_cast h2)
  have hl : Int.log 2 x = e := by omega
  unfold double_ulp
  rw [abs_of_pos hx, hl, max_eq_left (by omega)]

theorem double_round_eval (x y : ℚ) (e m : Int) (he : -1022 ≤ e) (h1 : (2 : ℚ) ^ e ≤ x)
    (h2 : x < (2 : ℚ) ^ (e + 1)) (hlo : (m : ℚ) - 1 / 2 < x / (2 : ℚ) ^ (e - 52))
    (hhi : x / (2 : ℚ) ^ (e - 52) < (m : ℚ) + 1 / 2)
    (hy : (m : ℚ) * (2 : ℚ) ^ (e - 52) = y) : double_round x = y := by
  unfold double_round
  rw [double_ulp_eq x e he h1 h2, round_half_even_eq _ m hlo hhi, hy]

theorem double_round_eval_tie (x y : ℚ) (e m : Int) (he : -1022 ≤ e) (h1 : (2 : ℚ) ^ e ≤ x)
    (h2 : x < (2 : ℚ) ^ (e + 1)) (hx : x / (2 : ℚ) ^ (e - 52) = (m : ℚ) + 1 / 2 ∨
      x / (2 : ℚ) ^ (e - 52) = (m : ℚ) - 1 / 2)
    (hm : m % 2 = 0) (hy : (m : ℚ) * (2 : ℚ) ^ (e - 52) = y) : double_round x = y := by
  unfold double_round
  rw [double_ulp_eq x e he h1 h2, round_half_even_tie _ m hx hm, hy]

theorem rebin4_pos_double_eval (M D : ℚ) (L n i : Nat) (c0 r c t q : ℚ) (p : Int)
    (h0 : double_round ((i : ℚ) + 1 / 2) = c0) (h1 : double_round (M / (n : ℚ)) = r)
    (h2 : double_round (c0 * r) = c) (h3 : double_round ((L : ℚ) * c) = t)
    (h4 : double_round (t / D) = q) (h5 : ⌊q⌋ = p) : rebin4_pos_double M D L n i = p := by
  simp only [rebin4_pos_double]
  rw [h0, h1, h2, h3, h4, h5]

theorem rebin4_pos_double_mono (M D : ℚ) (L n : Nat) (hM : 0 ≤ M) (hD : 0 < D) (s t : Nat)
    (hst : s ≤ t) : rebin4_pos_double M D L n s ≤ rebin4_pos_double M D L n t := by
  simp only [rebin4_pos_double]
  apply Int.floor_le_floor
  have hr : (0 : ℚ) ≤ double_round (M / (n : ℚ)) := double_round_nonneg _ (by positivity)
  have hs : (0 : ℚ) ≤ double_round ((s : ℚ) + 1 / 2) :=
    double_round_nonneg _ (by positivity)
  have hst1 : (s : ℚ) ≤ (t : ℚ) := by exact_mod_cast hst
  have h1 : double_round ((s : ℚ) + 1 / 2) ≤ double_round ((t : ℚ) + 1 / 2) :=
    double_round_mono _ _ (by positivity) (by linarith)
  have h2 := mul_le_mul_of_nonneg_right h1 hr
  have hc : (0 : ℚ) ≤ double_round
      (double_round ((s : ℚ) + 1 / 2) * double_round (M / (n : ℚ))) :=
    double_round_nonneg _ (mul_nonneg hs hr)
  have h3 := double_round_mono _ _ (mul_nonneg hs hr) h2
  have hL : (0 : ℚ) ≤ (L : ℚ) := by positivity
  have h4 := mul_le_mul_of_nonneg_left h3 hL
  have ht : (0 : ℚ) ≤ double_round ((L : ℚ) * double_round
      (double_round ((s : ℚ) + 1 / 2) * double_round (M / (n : ℚ)))) :=
    double_round_nonneg _ (mul_nonneg hL hc)
  have h5 := double_round_mono _ _ (mul_nonneg hL hc) h4
  have h6 := div_le_div_of_nonneg_right h5 hD.le
  exact double_round_mono _ _ (div_nonneg ht hD.le) h6

theorem rebin4_loop_double_cons (M D : ℚ) (L n : Nat) (x : ℚ) (rest : List ℚ) (i : Nat)
    (acc : List ℚ) :
    rebin4_loop_double M D L n (x :: rest) i acc =
      if rebin4_pos_double M D L n i > (L : Int) then
        (if 0 ≤ rebin4_pos_double M D L n i ∧ rebin4_pos_double M D L n i < (L : Int) then
          acc.set (rebin4_pos_double M D L n i).toNat
            (acc.getD (rebin4_pos_double M D L n i).toNat 0 + x)
        else acc)
      else rebin4_loop_double M D L n rest (i + 1)
        (if 0 ≤ rebin4_pos_double M D L n i ∧ rebin4_pos_double M D L n i < (L : Int) then
          acc.set (rebin4_pos_double M D L n i).toNat
            (acc.getD (rebin4_pos_double M D L n i).toNat 0 + x)
        else acc) := by
  simp only [rebin4_loop_double, rebin4_pos_double]

theorem rebin4_loop_double_nobreak_cons (M D : ℚ) (L n : Nat) (x : ℚ) (rest : List ℚ)
    (i : Nat) (acc : List ℚ) :
    rebin4_loop_double_nobreak M D L n (x :: rest) i acc =
      rebin4_loop_double_nobreak M D L n rest (i + 1)
        (if 0 ≤ rebin4_pos_double M D L n i ∧ rebin4_pos_double M D L n i < (L : Int) then
          acc.set (rebin4_pos_double M D L n i).toNat
            (acc.getD (rebin4_pos_double M D L n i).toNat 0 + x)
        else acc) := by
  simp only [rebin4_loop_double_nobreak, rebin4_pos_double]

theorem rebin4_loop_double_length (M D : ℚ) (L n : Nat) (src : List ℚ) (i : Nat)
    (acc : List ℚ) : (rebin4_loop_double M D L n src i acc).length = acc.length := by
  induction src generalizing i acc with
  | nil => simp [rebin4_loop_double]
  | cons x rest ih =>
    rw [rebin4_loop_double_cons]
    split
    · rw [rebin4_step_length]
    · rw [ih, rebin4_step_length]

theorem rebin4_loop_double_nobreak_length (M D : ℚ) (L n : Nat) (src : List ℚ) (i : Nat)
    (acc : List ℚ) :
    (rebin4_loop_double_nobreak M D L n src i acc).length = acc.length := by
  induction src generalizing i acc with
  | nil => simp [rebin4_loop_double_nobreak]
  | cons x rest ih =>
    rw [rebin4_loop_double_nobreak_cons, ih, rebin4_step_length]

theorem rebin4_loop_double_nobreak_getD (M D : ℚ) (L n : Nat) (src : List ℚ) (i : Nat)
    (acc : List ℚ) (j : Nat) (hlen : acc.length = L) (hj : j < L) :
    (rebin4_loop_double_nobreak M D L n src i acc).getD j 0 =
      acc.getD j 0 +
        ((src.enumFrom i).map
          (fun p => if rebin4_pos_double M D L n p.1 = (j : Int) then p.2 else 0)).sum := by
  induction src generalizing i acc with
  | nil => simp [rebin4_loop_double_nobreak]
  | cons x rest ih =>
    rw [rebin4_loop_double_nobreak_cons]
    simp only [List.enumFrom_cons, List.map_cons, List.sum_cons]
    rw [ih (i + 1) _ (by rw [rebin4_step_length]; exact hlen),
      rebin4_step_getD acc _ L j x hlen hj]
    ring

theorem rebin4_loop_double_getD (M D : ℚ) (L n : Nat) (src : List ℚ) (i : Nat)
    (acc : List ℚ) (j : Nat) (hlen : acc.length = L) (hj : j < L)
    (hmono : ∀ s t, s ≤ t → rebin4_pos_double M D L n s ≤ rebin4_pos_double M D L n t) :
    (rebin4_loop_double M D L n src i acc).getD j 0 =
      acc.getD j 0 +
        ((src.enumFrom i).map
          (fun p => if rebin4_pos_double M D L n p.1 = (j : Int) then p.2 else 0)).sum := by
  induction src generalizing i acc with
  | nil => simp [rebin4_loop_double]
  | cons x rest ih =>
    rw [rebin4_loop_double_cons]
    split
    · rename_i hbreak
      have hz := enumFrom_sum_zero (fun t => rebin4_pos_double M D L n t = (j : Int))
        (x :: rest) i
        (by
          intro t h1 _ h3
          have h4 := hmono i t h1
          omega)
      rw [hz, add_zero, rebin4_step_getD acc _ L j x hlen hj]
      have hne : rebin4_pos_double M D L n i ≠ (j : Int) := by omega
      rw [if_neg hne, add_zero]
    · simp only [List.enumFrom_cons, List.map_cons, List.sum_cons]
      rw [ih (i + 1) _ (by rw [rebin4_step_length]; exact hlen),
        rebin4_step_getD acc _ L j x hlen hj]
      ring

theorem rebin4_spec_double_length (a : List ℚ) (M D : ℚ) (L : Nat) :
    (rebin4_spec_double a M D L).length = L := by
  simp [rebin4_spec_double]

theorem rebin4_spec_double_getD (a : List ℚ) (M D : ℚ) (L j : Nat) (hj : j < L) :
    (rebin4_spec_double a M D L).getD j 0 =
      ((a.enumFrom 0).map
        (fun p => if rebin4_pos_double M D L a.length p.1 = (j : Int) then p.2
          else 0)).sum := by
  have hlen : j < (rebin4_spec_double a M D L).length := by
    rw [rebin4_spec_double_length]
    exact hj
  rw [List.getD_eq_getElem _ _ hlen]
  simp only [rebin4_spec_double, List.getElem_map, List.getElem_range, List.enum]

theorem rebin4_loop_double_eq_spec (a : List ℚ) (M D : ℚ) (L : Nat) (hM : 0 ≤ M)
    (hD : 0 < D) :
    rebin4_loop_double M D L a.length a 0 (List.replicate L 0) =
        rebin4_spec_double a M D L ∧
      rebin4_loop_double_nobreak M D L a.length a 0 (List.replicate L 0) =
        rebin4_spec_double a M D L := by
  constructor
  · apply list_eq_of_getD
    · rw [rebin4_loop_double_length, rebin4_spec_double_length, List.length_replicate]
    · intro j hj
      rw [rebin4_loop_double_length, List.length_replicate] at hj
      rw [rebin4_loop_double_getD M D L a.length a 0 _ j (List.length_replicate _ _) hj
        (rebin4_pos_double_mono M D L a.length hM hD), rebin4_spec_double_getD a M D L j hj]
      simp [List.getD_eq_getElem?_getD, hj]
  · apply list_eq_of_getD
    · rw [rebin4_loop_double_nobreak_length, rebin4_spec_double_length,
        List.length_replicate]
    · intro j hj
      rw [rebin4_loop_double_nobreak_length, List.length_replicate] at hj
      rw [rebin4_loop_double_nobreak_getD M D L a.length a 0 _ j
        (List.length_replicate _ _) hj, rebin4_spec_double_getD a M D L j hj]
      simp [List.getD_eq_getElem?_getD, hj]

theorem toNat_four : (4 : Int).toNat = 4 := rfl

theorem toNat_five : (5 : Int).toNat = 5 := rfl

theorem rebin4_double_ok (a : List ℚ) (M D : ℚ) (L : Nat) (hDM : D ≤ M) (hD0 : D ≠ 0) :
    rebin4_double a M D L =
      Except.ok (rebin4_loop_double M D L a.length a 0 (List.replicate L 0)) := by
  simp [rebin4_double, hDM, hD0]

theorem remap_pos_7_0 : rebin4_pos_double 1 (1 / 2) 7 7 0 = 1 := by
  apply rebin4_pos_double_eval _ _ _ _ _ (1 / 2 : ℚ) (2573485501354569 / 18014398509481984 : ℚ)
    (2573485501354569 / 36028797018963968 : ℚ)
    (1 / 2 : ℚ)
    (1 : ℚ)
  · exact double_round_eval _ _ (-1) 4503599627370496 (by norm_num) (by norm_num) (by norm_num)
      (by norm_num) (by norm_num) (by norm_num)
  · exact double_round_eval _ _ (-3) 5146971002709138 (by norm_num) (by norm_num) (by norm_num)
      (by norm_num) (by norm_num) (by norm_num)
  · exact double_round_eval _ _ (-4) 5146971002709138 (by norm_num) (by norm_num) (by norm_num)
      (by norm_num) (by norm_num) (by norm_num)
  · exact double_round_eval_tie _ _ (-2) 9007199254740992 (by norm_num) (by norm_num) (by norm_num)
      (Or.inr (by norm_num)) (by decide) (by norm_num)
  · exact double_round_eval _ _ (0) 4503599627370496 (by norm_num) (by norm_num) (by norm_num)
      (by norm_num) (by norm_num) (by norm_num)
  · norm_num

theorem remap_pos_7_1 : rebin4_pos_double 1 (1 / 2) 7 7 1 = 3 := by
  apply rebin4_pos_double_eval _ _ _ _ _ (3 / 2 : ℚ) (2573485501354569 / 18014398509481984 : ℚ)
    (7720456504063707 / 36028797018963968 : ℚ)
    (3 / 2 : ℚ)
    (3 : ℚ)
  · exact double_round_eval _ _ (0) 6755399441055744 (by norm_num) (by norm_num) (by norm_num)
      (by norm_num) (by norm_num) (by norm_num)
  · exact double_round_eval _ _ (-3) 5146971002709138 (by norm_num) (by norm_num) (by norm_num)
      (by norm_num) (by norm_num) (by norm_num)
  · exact double_round_eval _ _ (-3) 7720456504063707 (by norm_num) (by norm_num) (by norm_num)
      (by norm_num) (by norm_num) (by norm_num)
  · exact double_round_eval _ _ (0) 6755399441055744 (by norm_num) (by norm_num) (by norm_num)
      (by norm_num) (by norm_num) (by norm_num)
  · exact double_round_eval _ _ (1) 6755399441055744 (by norm_num) (by norm_num) (by norm_num)
      (by norm_num) (by norm_num) (by norm_num)
  · norm_num

theorem remap_pos_7_2 : rebin4_pos_double 1 (1 / 2) 7 7 2 = 4 := by
  apply rebin4_pos_double_eval _ _ _ _ _ (5 / 2 : ℚ) (2573485501354569 / 18014398509481984 : ℚ)
    (3216856876693211 / 9007199254740992 : ℚ)
    (5629499534213119 / 2251799813685248 : ℚ)
    (5629499534213119 / 1125899906842624 : ℚ)
  · exact double_round_eval _ _ (1) 5629499534213120 (by norm_num) (by norm_num) (by norm_num)
      (by norm_num) (by norm_num) (by norm_num)
  · exact double_round_eval _ _ (-3) 5146971002709138 (by norm_num) (by norm_num) (by norm_num)
      (by norm_num) (by norm_num) (by norm_num)
  · exact double_round_eval_tie _ _ (-2) 6433713753386422 (by norm_num) (by norm_num) (by norm_num)
      (Or.inl (by norm_num)) (by decide) (by norm_num)
  · exact double_round_eval _ _ (1) 5629499534213119 (by norm_num) (by norm_num) (by norm_num)
      (by norm_num) (by norm_num) (by norm_num)
  · exact double_round_eval _ _ (2) 5629499534213119 (by norm_num) (by norm_num) (by norm_num)
      (by norm_num) (by norm_num) (by norm_num)
  · norm_num

theorem remap_pos_7_3 : rebin4_pos_double 1 (1 / 2) 7 7 3 = 7 := by
  apply rebin4_pos_double_eval _ _ _ _ _ (7 / 2 : ℚ) (2573485501354569 / 18014398509481984 : ℚ)
    (1 / 2 : ℚ)
    (7 / 2 : ℚ)
    (7 : ℚ)
  · exact double_round_eval _ _ (1) 7881299347898368 (by norm_num) (by norm_num) (by norm_num)
      (by norm_num) (by norm_num) (by norm_num)
  · exact double_round_eval _ _ (-3) 5146971002709138 (by norm_num) (by norm_num) (by norm_num)
      (by norm_num) (by norm_num) (by norm_num)
  · exact double_round_eval_tie _ _ (-2) 9007199254740992 (by norm_num) (by norm_num) (by norm_num)
      (Or.inr (by norm_num)) (by decide) (by norm_num)
  · exact double_round_eval _ _ (1) 7881299347898368 (by norm_num) (by norm_num) (by norm_num)
      (by norm_num) (by norm_num) (by norm_num)
  · exact double_round_eval _ _ (2) 7881299347898368 (by norm_num) (by norm_num) (by norm_num)
      (by norm_num) (by norm_num) (by norm_num)
  · norm_num

theorem remap_pos_7_4 : rebin4_pos_double 1 (1 / 2) 7 7 4 = 9 := by
  apply rebin4_pos_double_eval _ _ _ _ _ (9 / 2 : ℚ) (2573485501354569 / 18014398509481984 : ℚ)
    (1447585594511945 / 2251799813685248 : ℚ)
    (9 / 2 : ℚ)
    (9 : ℚ)
  · exact double_round_eval _ _ (2) 5066549580791808 (by norm_num) (by norm_num) (by norm_num)
      (by norm_num) (by norm_num) (by norm_num)
  · exact double_round_eval _ _ (-3) 5146971002709138 (by norm_num) (by norm_num) (by norm_num)
      (by norm_num) (by norm_num) (by norm_num)
  · exact double_round_eval _ _ (-1) 5790342378047780 (by norm_num) (by norm_num) (by norm_num)
      (by norm_num) (by norm_num) (by norm_num)
  · exact double_round_eval_tie _ _ (2) 5066549580791808 (by norm_num) (by norm_num) (by norm_num)
      (Or.inr (by norm_num)) (by decide) (by norm_num)
  · exact double_round_eval _ _ (3) 5066549580791808 (by norm_num) (by norm_num) (by norm_num)
      (by norm_num) (by norm_num) (by norm_num)
  · norm_num

theorem remap_pos_49_24 : rebin4_pos_double 1 1 4 49 24 = 1 := by
  apply rebin4_pos_double_eval _ _ _ _ _ (49 / 2 : ℚ) (5882252574524729 / 288230376151711744 : ℚ)
    (9007199254740991 / 18014398509481984 : ℚ)
    (9007199254740991 / 4503599627370496 : ℚ)
    (9007199254740991 / 4503599627370496 : ℚ)
  · exact double_round_eval _ _ (4) 6896136929411072 (by norm_num) (by norm_num) (by norm_num)
      (by norm_num) (by norm_num) (by norm_num)
  · exact double_round_eval _ _ (-6) 5882252574524729 (by norm_num) (by norm_num) (by norm_num)
      (by norm_num) (by norm_num) (by norm_num)
  · exact double_round_eval _ _ (-2) 9007199254740991 (by norm_num) (by norm_num) (by norm_num)
      (by norm_num) (by norm_num) (by norm_num)
  · exact double_round_eval _ _ (0) 9007199254740991 (by norm_num) (by norm_num) (by norm_num)
      (by norm_num) (by norm_num) (by norm_num)
  · exact double_round_eval _ _ (0) 9007199254740991 (by norm_num) (by norm_num) (by norm_num)
      (by norm_num) (by norm_num) (by norm_num)
  · norm_num

/-- C13 (as stated, refuted): the source `[0, 0, 10, 0, 0, 0, 0]` over `[0, 1)` is
remapped to 7 bins over `[0, 1/2)`.  For the source bin 2 the formula of the claim gives
`floor(7 * (2.5*1/7) / 0.5) = 5`.  The code computes `1.0/7` as the double
`0x1.2492492492492p-3`, `cent` as `0x1.6db6db6db6db6p-2`, `7*cent` as
`0x1.3ffffffffffffp+1` (below 2.5), and `pos` as 4: the entry 10 lands in bin 4 of the
result, not in bin 5.  So the result is not the sequence the claim describes.  In the
same way, with 49 source bins over `[0, 1)` remapped to 4 bins over `[0, 1)`, the source
bin 24 has `floor(4 * (24.5*1/49) / 1) = 2` and `pos = 1`. -/
theorem remap_index_rounded :
    rebin4_double [0, 0, 10, 0, 0, 0, 0] 1 (1 / 2) 7 = Except.ok [0, 0, 0, 0, 10, 0, 0] ∧
    rebin4_spec [0, 0, 10, 0, 0, 0, 0] 1 (1 / 2) 7 = [0, 0, 0, 0, 0, 10, 0] ∧
    rebin4_double [0, 0, 10, 0, 0, 0, 0] 1 (1 / 2) 7 ≠
      Except.ok (rebin4_spec [0, 0, 10, 0, 0, 0, 0] 1 (1 / 2) 7) ∧
    ⌊(7 : ℚ) * ((2 + 1 / 2) * 1 / 7) / (1 / 2)⌋ = 5 ∧
    rebin4_pos_double 1 (1 / 2) 7 7 2 = 4 ∧
    ⌊(4 : ℚ) * ((24 + 1 / 2) * 1 / 49) / 1⌋ = 2 ∧
    rebin4_pos_double 1 1 4 49 24 = 1 := by
  have hcode : rebin4_double [0, 0, 10, 0, 0, 0, 0] 1 (1 / 2) 7 =
      Except.ok [0, 0, 0, 0, 10, 0, 0] := by
    rw [rebin4_double_ok _ _ _ _ (by norm_num) (by norm_num)]
    norm_num [rebin4_loop_double_cons, remap_pos_7_0, remap_pos_7_1, remap_pos_7_2,
      remap_pos_7_3, remap_pos_7_4, List.replicate, toNat_three, toNat_four]
  have hspec : rebin4_spec [0, 0, 10, 0, 0, 0, 0] 1 (1 / 2) 7 = [0, 0, 0, 0, 0, 10, 0] := by
    rw [← (rebin4_loop_eq_spec _ 1 (1 / 2) 7 (by norm_num) (by norm_num)).1]
    norm_num [rebin4_loop, List.replicate, toNat_three, toNat_five]
  refine ⟨hcode, hspec, ?_, by norm_num, remap_pos_7_2, by norm_num, remap_pos_49_24⟩
  rw [hcode, hspec]
  intro h
  injection h with h
  simp at h

/-- C13 (amended): for every source `a` of length `n`, bounds `M > 0` and `0 < M' ≤ M` and
new length `L` (`L > 0` included), `rebin(a, M, M', L)` returns the sequence of length `L`
whose `j`-th element is the sum of `a[i]` over all source indices `i` whose index `pos`,
as the code computes it in double arithmetic (`i+0.5`, `M/n`, their product, its product
with `L` and the quotient by `M'` each rounded to the nearest double), is `j`; the loop
with its `break` gives what the same loop without the `break` gives. -/
theorem rebin4_double_refines_spec (a : List ℚ) (M M1 : ℚ) (L : Nat) (hM : 0 < M)
    (hM1 : 0 < M1) (hle : M1 ≤ M) :
    rebin4_double a M M1 L = Except.ok (rebin4_spec_double a M M1 L) ∧
      (rebin4_spec_double a M M1 L).length = L ∧
      rebin4_loop_double M M1 L a.length a 0 (List.replicate L 0) =
        rebin4_loop_double_nobreak M M1 L a.length a 0 (List.replicate L 0) := by
  obtain ⟨h1, h2⟩ := rebin4_loop_double_eq_spec a M M1 L hM.le hM1
  refine ⟨?_, rebin4_spec_double_length a M M1 L, by rw [h1, h2]⟩
  rw [rebin4_double_ok a M M1 L hle (ne_of_gt hM1), h1]

theorem rebin4_double_refines_spec_witness :
    (0 : ℚ) < 1 ∧ (0 : ℚ) < 1 / 2 ∧ (1 / 2 : ℚ) ≤ 1 ∧
    rebin4_double [0, 0, 10, 0, 0, 0, 0] 1 (1 / 2) 7 =
      Except.ok (rebin4_spec_double [0, 0, 10, 0, 0, 0, 0] 1 (1 / 2) 7) ∧
    (rebin4_spec_double [0, 0, 10, 0, 0, 0, 0] 1 (1 / 2) 7).length = 7 ∧
    rebin4_loop_double 1 (1 / 2) 7 7 [0, 0, 10, 0, 0, 0, 0] 0 (List.replicate 7 0) =
      [0, 0, 0, 0, 10, 0, 0] :=
  ⟨by norm_num, by norm_num, by norm_num,
    (rebin4_double_refines_spec [0, 0, 10, 0, 0, 0, 0] 1 (1 / 2) 7 (by norm_num)
      (by norm_num) (by norm_num)).1,
    (rebin4_double_refines_spec [0, 0, 10, 0, 0, 0, 0] 1 (1 / 2) 7 (by norm_num)
      (by norm_num) (by norm_num)).2.1,
    by
      norm_num [rebin4_loop_double_cons, remap_pos_7_0, remap_pos_7_1, remap_pos_7_2,
        remap_pos_7_3, remap_pos_7_4, List.replicate, toNat_three, toNat_four]⟩

/-! ## Theorems: the two rebinnings agree -/

theorem enumFrom_sum_congr (c d : Nat → Prop) [DecidablePred c] [DecidablePred d]
    (src : List ℚ) (i : Nat) (h : ∀ t, i ≤ t → t < i + src.length → (c t ↔ d t)) :
    ((src.enumFrom i).map (fun p => if c p.1 then p.2 else 0)).sum =
      ((src.enumFrom i).map (fun p => if d p.1 then p.2 else 0)).sum := by
  induction src generalizing i with
  | nil => simp
  | cons x rest ih =>
    simp only [List.enumFrom_cons, List.map_cons, List.sum_cons]
    have h0 := h i (le_refl _) (by simp)
    rw [ih (i + 1) (fun t h1 h2 => h t (by omega) (by simp only [List.length_cons]; omega))]
    by_cases hc : c i
    · rw [if_pos hc, if_pos (h0.1 hc)]
    · rw [if_neg hc, if_neg (fun hd => hc (h0.2 hd))]

theorem enumFrom_sum_append (c : Nat → Prop) [DecidablePred c] (l1 l2 : List ℚ) (i : Nat) :
    (((l1 ++ l2).enumFrom i).map (fun p => if c p.1 then p.2 else 0)).sum =
      ((l1.enumFrom i).map (fun p => if c p.1 then p.2 else 0)).sum +
        ((l2.enumFrom (i + l1.length)).map (fun p => if c p.1 then p.2 else 0)).sum := by
  rw [List.enumFrom_append, List.map_append, List.sum_append]

theorem enum_chunk_sum_aux (k j : Nat) (hk : 0 < k) (l1 l2 l3 : List ℚ)
    (h1 : l1.length = j * k) (h2 : l2.length = k) :
    (((l1 ++ (l2 ++ l3)).enumFrom 0).map (fun p => if p.1 / k = j then p.2 else 0)).sum =
      l2.sum := by
  rw [enumFrom_sum_append (fun t => t / k = j), enumFrom_sum_append (fun t => t / k = j),
    enumFrom_sum_zero (fun t => t / k = j) l1 0, enumFrom_sum_all (fun t => t / k = j) l2,
    enumFrom_sum_zero (fun t => t / k = j) l3]
  · ring
  · intro t ht _ h0
    rw [h1, h2] at ht
    have : j + 1 ≤ t / k := (Nat.le_div_iff_mul_le hk).2 (by rw [Nat.add_mul]; omega)
    omega
  · intro t ht1 ht2
    rw [h1] at ht1
    rw [h1, h2] at ht2
    exact Nat.div_eq_of_lt_le (by omega) (by rw [Nat.add_mul]; omega)
  · intro t _ ht h0
    rw [h1, Nat.zero_add] at ht
    have : t / k < j := Nat.div_lt_of_lt_mul (by rw [Nat.mul_comm]; exact ht)
    omega

theorem enum_chunk_sum (a : List ℚ) (k j : Nat) (hk : 0 < k) (hjk : (j + 1) * k ≤ a.length) :
    ((a.enumFrom 0).map (fun p => if p.1 / k = j then p.2 else 0)).sum =
      ((a.drop (j * k)).take k).sum := by
  have hjk2 : j * k + k ≤ a.length := by rw [Nat.add_mul] at hjk; omega
  have ha : a = a.take (j * k) ++ ((a.drop (j * k)).take k ++ (a.drop (j * k)).drop k) := by
    rw [List.take_append_drop, List.take_append_drop]
  have h := enum_chunk_sum_aux k j hk (a.take (j * k)) ((a.drop (j * k)).take k)
    ((a.drop (j * k)).drop k)
    (by rw [List.length_take]; omega)
    (by rw [List.length_take, List.length_drop]; omega)
  rw [← ha] at h
  exact h

theorem rebin4_pos_same_bound (M : ℚ) (n k t : Nat) (hM : 0 < M) (hk : 0 < k)
    (hn : 0 < n) (hdiv : k ∣ n) : rebin4_pos M M (n / k) n t = ((t / k : Nat) : Int) := by
  have hkq : (0 : ℚ) < (k : ℚ) := by exact_mod_cast hk
  have hnq : (0 : ℚ) < (n : ℚ) := by exact_mod_cast hn
  have e : ((n / k : Nat) : ℚ) * (((t : ℚ) + 1 / 2) * (M / (n : ℚ))) / M =
      ((t : ℚ) + 1 / 2) / (k : ℚ) := by
    rw [Nat.cast_div hdiv (ne_of_gt hkq)]
    field_simp
    ring
  have h1 : (((t / k : Nat) : ℚ)) * (k : ℚ) ≤ (t : ℚ) := by
    exact_mod_cast Nat.div_mul_le_self t k
  have h2 : (t : ℚ) + 1 ≤ (k : ℚ) * (((t / k : Nat) : ℚ) + 1) := by
    have := Nat.lt_mul_div_succ t hk
    exact_mod_cast this
  simp only [rebin4_pos]
  rw [e, Int.floor_eq_iff]
  constructor
  · rw [le_div_iff₀ hkq, Int.cast_natCast]
    linarith
  · rw [div_lt_iff₀ hkq, Int.cast_natCast]
    linarith

/-- C20: for every sequence `a` of length `n`, every bound `M > 0` and every `k ≥ 1`
dividing `n`, the domain remap `rebin(a, M, M, n/k)` and the merge `rebin(a, k)` return
the same sequence, and its total is the total of `a`: with the domain not shrunk the
remap drops nothing. -/
theorem rebin4_same_bound_eq_rebin2 (a : List ℚ) (M : ℚ) (k : Nat) (hM : 0 < M)
    (hk : 1 ≤ k) (hdiv : k ∣ a.length) :
    ∃ r, rebin4 a M M (a.length / k) = Except.ok r ∧ rebin2 a (k : Int) = Except.ok r ∧
      r.sum = a.sum := by
  have hk0 : (k : Int) ≠ 0 := by omega
  have hkn : ¬ (k : Int) < 0 := by omega
  refine ⟨rebin2_loop a k (a.length / k) 0, ?_, ?_, ?_⟩
  · rw [rebin4_ok a M M _ (le_refl _) (ne_of_gt hM)]
    congr 1
    apply list_eq_of_getD
    · rw [rebin4_loop_length, rebin2_loop_length, List.length_replicate]
    · intro j hj
      rw [rebin4_loop_length, List.length_replicate] at hj
      have hn : 0 < a.length := by
        by_contra h0
        have : a.length = 0 := by omega
        rw [this] at hj
        simp at hj
      have hjk : (j + 1) * k ≤ a.length := by
        calc (j + 1) * k ≤ (a.length / k) * k := Nat.mul_le_mul_right k hj
          _ = a.length := Nat.div_mul_cancel hdiv
      rw [rebin4_loop_getD M M _ a.length a 0 _ j (List.length_replicate _ _) hj
        (rebin4_pos_mono M M _ a.length hM.le hM), rebin2_loop_getD a k _ 0 j hj,
        Nat.zero_add, ← enum_chunk_sum a k j hk hjk]
      rw [enumFrom_sum_congr (fun t => rebin4_pos M M (a.length / k) a.length t = (j : Int))
        (fun t => t / k = j) a 0
        (by
          intro t _ _
          show rebin4_pos M M (a.length / k) a.length t = (j : Int) ↔ t / k = j
          rw [rebin4_pos_same_bound M a.length k t hM hk hn hdiv]
          exact Int.ofNat_inj)]
      simp [List.getD_eq_getElem?_getD, hj]
  · simp only [rebin2, hk0, hkn, if_false, Int.toNat_ofNat]
  · rw [rebin2_loop_sum, Nat.div_mul_cancel hdiv, List.drop_zero, List.take_length]

theorem rebin4_same_bound_eq_rebin2_witness :
    (0 : ℚ) < 3 ∧ 1 ≤ 2 ∧ 2 ∣ ([1, 2, 3, 4, 5, 6] : List ℚ).length ∧
    (∃ r, rebin4 [1, 2, 3, 4, 5, 6] 3 3 (([1, 2, 3, 4, 5, 6] : List ℚ).length / 2) =
        Except.ok r ∧
      rebin2 [1, 2, 3, 4, 5, 6] ((2 : Nat) : Int) = Except.ok r ∧
      r.sum = ([1, 2, 3, 4, 5, 6] : List ℚ).sum) :=
  ⟨by norm_num, by norm_num, by decide,
    rebin4_same_bound_eq_rebin2 [1, 2, 3, 4, 5, 6] 3 2 (by norm_num) (by norm_num)
      (by decide)⟩

/-! ## Theorems: equal-time operators -/

theorem flavor_ok {N : Nat} (op : EqualTimeOperator N) (i : Nat) (hi : i < 2 * N) :
    op.flavor (i : Int) = Except.ok (op.flavors_.getD i 0) := by
  have h : 0 ≤ (i : Int) ∧ (i : Int) < 2 * (N : Int) := by omega
  simp only [EqualTimeOperator.flavor, h, and_self, if_true, Int.toNat_ofNat]

theorem drop_take_succ_cons (l : List Int) (i n : Nat) (hi : i < l.length) :
    (l.drop i).take (n + 1) = l.getD i 0 :: (l.drop (i + 1)).take n := by
  rw [List.drop_eq_getElem_cons hi, List.take_succ_cons, List.getD_eq_getElem?_getD,
    List.getElem?_eq_getElem hi]
  rfl

theorem lt_loop_eq_lex {N : Nat} (op1 op2 : EqualTimeOperator N) (n i : Nat)
    (h : i + n ≤ N) :
    EqualTimeOperator.lt_loop op1 op2 n i =
      Except.ok (lex_lt ((op1.flavors_.drop i).take n) ((op2.flavors_.drop i).take n)) := by
  induction n generalizing i with
  | zero => simp [EqualTimeOperator.lt_loop, lex_lt]
  | succ n ih =>
    have h1 : i < op1.flavors_.length := by rw [op1.size_flavors_]; omega
    have h2 : i < op2.flavors_.length := by rw [op2.size_flavors_]; omega
    rw [EqualTimeOperator.lt_loop, flavor_ok op1 i (by omega), flavor_ok op2 i (by omega),
      drop_take_succ_cons _ i n h1, drop_take_succ_cons _ i n h2]
    simp only [lex_lt]
    rw [ih (i + 1) (by omega)]
    generalize op1.flavors_.getD i 0 = f1
    generalize op2.flavors_.getD i 0 = f2
    by_cases hlt : f1 < f2
    · simp [hlt]
    · by_cases hgt : f1 > f2
      · have hne : f1 ≠ f2 := by omega
        simp [hlt, hgt, hne]
      · have heq : f1 = f2 := by omega
        simp [heq]

theorem lt_eq_lex {N : Nat} (op1 op2 : EqualTimeOperator N) :
    op1.lt op2 = Except.ok (lex_lt (op1.flavors_.take N) (op2.flavors_.take N)) := by
  have := lt_loop_eq_lex op1 op2 N 0 (by omega)
  simpa [EqualTimeOperator.lt] using this

theorem lex_lt_irrefl (l : List Int) : lex_lt l l = false := by
  induction l with
  | nil => simp [lex_lt]
  | cons a l ih => simp [lex_lt, ih]

theorem lex_lt_asymm (l1 l2 : List Int) (h : lex_lt l1 l2 = true) : lex_lt l2 l1 = false := by
  induction l1 generalizing l2 with
  | nil => simp [lex_lt] at h
  | cons a l1 ih =>
    cases l2 with
    | nil => simp [lex_lt] at h
    | cons b l2 =>
      simp only [lex_lt, Bool.or_eq_true, decide_eq_true_eq, Bool.and_eq_true] at h
      simp only [lex_lt, Bool.or_eq_false_iff, decide_eq_false_iff_not, not_lt,
        Bool.and_eq_false_imp, decide_eq_true_eq]
      rcases h with h | ⟨h1, h2⟩
      · exact ⟨h.le, fun hba => absurd hba (ne_of_gt h)⟩
      · exact ⟨h1.le, fun _ => ih l2 h2⟩

theorem lex_lt_trans (l1 l2 l3 : List Int) (h12 : lex_lt l1 l2 = true)
    (h23 : lex_lt l2 l3 = true) : lex_lt l1 l3 = true := by
  induction l1 generalizing l2 l3 with
  | nil => simp [lex_lt] at h12
  | cons a l1 ih =>
    cases l2 with
    | nil => simp [lex_lt] at h12
    | cons b l2 =>
      cases l3 with
      | nil => simp [lex_lt] at h23
      | cons c l3 =>
        simp only [lex_lt, Bool.or_eq_true, decide_eq_true_eq, Bool.and_eq_true] at h12 h23 ⊢
        rcases h12 with h | ⟨h1, h2⟩
        · rcases h23 with g | ⟨g1, _⟩
          · left; omega
          · left; omega
        · rcases h23 with g | ⟨g1, g2⟩
          · left; omega
          · right; exact ⟨by omega, ih l2 l3 h2 g2⟩

/-- C14: for every `N`, `operator<` on `EqualTimeOperator<N>` returns the lexicographic
comparison of `(flavor(0), ..., flavor(N-1))`; it is irreflexive, asymmetric and
transitive; its result does not change when the slots `flavor(N), ..., flavor(2N-1)` or
the time of either operand change; two operators that agree on the first `N` slots are
not ordered either way. -/
theorem equal_time_lt_strict_order (N : Nat) :
    (∀ op1 op2 : EqualTimeOperator N,
      op1.lt op2 = Except.ok (lex_lt (op1.flavors_.take N) (op2.flavors_.take N))) ∧
    (∀ op : EqualTimeOperator N, op.lt op = Except.ok false) ∧
    (∀ op1 op2 : EqualTimeOperator N,
      op1.lt op2 = Except.ok true → op2.lt op1 = Except.ok false) ∧
    (∀ op1 op2 op3 : EqualTimeOperator N,
      op1.lt op2 = Except.ok true → op2.lt op3 = Except.ok true →
        op1.lt op3 = Except.ok true) ∧
    (∀ op1 op2 q1 q2 : EqualTimeOperator N,
      op1.flavors_.take N = q1.flavors_.take N → op2.flavors_.take N = q2.flavors_.take N →
        op1.lt op2 = q1.lt q2) ∧
    (∀ op1 op2 : EqualTimeOperator N, op1.flavors_.take N = op2.flavors_.take N →
      op1.lt op2 = Except.ok false ∧ op2.lt op1 = Except.ok false) := by
  refine ⟨lt_eq_lex, ?_, ?_, ?_, ?_, ?_⟩
  · intro op
    rw [lt_eq_lex, lex_lt_irrefl]
  · intro op1 op2 h
    rw [lt_eq_lex] at h ⊢
    simp only [Except.ok.injEq] at h
    rw [lex_lt_asymm _ _ h]
  · intro op1 op2 op3 h12 h23
    rw [lt_eq_lex] at h12 h23 ⊢
    simp only [Except.ok.injEq] at h12 h23
    rw [lex_lt_trans _ _ _ h12 h23]
  · intro op1 op2 q1 q2 h1 h2
    rw [lt_eq_lex, lt_eq_lex, h1, h2]
  · intro op1 op2 h
    rw [lt_eq_lex, lt_eq_lex, h, lex_lt_irrefl]
    exact ⟨rfl, rfl⟩

theorem equal_time_lt_strict_order_witness :
    EqualTimeOperator.lt (EqualTimeOperator.mk [1, 2, 3, 4] 0 rfl : EqualTimeOperator 2)
        (EqualTimeOperator.mk [1, 3, 0, 0] 5 rfl) = Except.ok true ∧
    EqualTimeOperator.lt (EqualTimeOperator.mk [1, 3, 0, 0] 5 rfl : EqualTimeOperator 2)
        (EqualTimeOperator.mk [1, 2, 3, 4] 0 rfl) = Except.ok false :=
  have h : EqualTimeOperator.lt
      (EqualTimeOperator.mk [1, 2, 3, 4] 0 rfl : EqualTimeOperator 2)
      (EqualTimeOperator.mk [1, 3, 0, 0] 5 rfl) = Except.ok true := by
    rw [lt_eq_lex]
    simp [lex_lt]
  ⟨h, (equal_time_lt_strict_order 2).2.2.1 _ _ h⟩

/-! ## Theorems: reset -/

theorem zero_range_length (n i : Nat) (l : List ℚ) : (zero_range n i l).length = l.length := by
  induction n generalizing i l with
  | zero => simp [zero_range]
  | succ n ih => simp [zero_range, ih]

theorem zero_range_getD (n i : Nat) (l : List ℚ) (t : Nat) :
    (zero_range n i l).getD t 0 = if i ≤ t ∧ t < i + n then 0 else l.getD t 0 := by
  induction n generalizing i l with
  | zero =>
    have h : ¬ (i ≤ t ∧ t < i + 0) := by omega
    rw [zero_range, if_neg h]
  | succ n ih =>
    rw [zero_range, ih]
    by_cases h1 : i + 1 ≤ t ∧ t < i + 1 + n
    · have h2 : i ≤ t ∧ t < i + (n + 1) := by omega
      rw [if_pos h1, if_pos h2]
    · rw [if_neg h1]
      by_cases h3 : t = i
      · have h2 : i ≤ t ∧ t < i + (n + 1) := by omega
        rw [if_pos h2, h3]
        simp only [List.getD_eq_getElem?_getD]
        by_cases hlt : i < l.length
        · rw [List.getElem?_set_self hlt]
          rfl
        · rw [List.getElem?_eq_none (by simpa using hlt)]
          rfl
      · have h2 : ¬ (i ≤ t ∧ t < i + (n + 1)) := by omega
        rw [if_neg h2]
        simp only [List.getD_eq_getElem?_getD]
        rw [List.getElem?_set_ne (Ne.symm h3)]

theorem zero_range_all (l : List ℚ) : zero_range l.length 0 l = List.replicate l.length 0 := by
  apply list_eq_of_getD
  · rw [zero_range_length, List.length_replicate]
  · intro j hj
    rw [zero_range_length] at hj
    have h : 0 ≤ j ∧ j < 0 + l.length := by omega
    rw [zero_range_getD, if_pos h]
    simp [List.getD_eq_getElem?_getD, hj]

theorem reset_loop_eq (n i : Nat) (h : scalar_histogram) :
    scalar_histogram.reset_loop n i h =
      scalar_histogram.mk h.num_bins_ h.num_sample_ h.max_val_ (zero_range n i h.sumval)
        (zero_range n i h.sumval2) (zero_range n i h.counter) := by
  induction n generalizing i h with
  | zero => simp [scalar_histogram.reset_loop, zero_range]
  | succ n ih => rw [scalar_histogram.reset_loop, ih]; simp [zero_range]

theorem reset_eq (h : scalar_histogram) (hwf : h.well_formed) :
    h.reset = scalar_histogram.mk h.num_bins_ 0 h.max_val_
      (List.replicate h.num_bins_.toNat 0) (List.replicate h.num_bins_.toNat 0)
      (List.replicate h.num_bins_.toNat 0) := by
  obtain ⟨w1, w2, w3⟩ := hwf
  rw [scalar_histogram.reset, reset_loop_eq]
  simp only []
  have e1 := zero_range_all h.sumval
  have e2 := zero_range_all h.sumval2
  have e3 := zero_range_all h.counter
  rw [w1] at e1
  rw [w2] at e2
  rw [w3] at e3
  rw [e1, e2, e3]

theorem add_sample_keeps (h : scalar_histogram) (d v : ℚ) (r : Bool × scalar_histogram)
    (hr : h.add_sample d v = Except.ok r) (hwf : h.well_formed) :
    r.2.well_formed ∧ r.2.num_bins_ = h.num_bins_ ∧ r.2.max_val_ = h.max_val_ := by
  simp only [scalar_histogram.add_sample] at hr
  split at hr
  · cases hr
  · split at hr
    · cases hr
      obtain ⟨w1, w2, w3⟩ := hwf
      refine ⟨⟨?_, ?_, ?_⟩, rfl, rfl⟩ <;> simp [w1, w2, w3]
    · cases hr
      exact ⟨hwf, rfl, rfl⟩

theorem add_samples_keeps (samples : List (ℚ × ℚ)) (h h1 : scalar_histogram)
    (hr : h.add_samples samples = Except.ok h1) (hwf : h.well_formed) :
    h1.well_formed ∧ h1.num_bins_ = h.num_bins_ ∧ h1.max_val_ = h.max_val_ := by
  induction samples generalizing h with
  | nil =>
    simp only [scalar_histogram.add_samples, Except.ok.injEq] at hr
    rw [← hr]
    exact ⟨hwf, rfl, rfl⟩
  | cons s rest ih =>
    simp only [scalar_histogram.add_samples] at hr
    cases hs : h.add_sample s.1 s.2 with
    | error e =>
      rw [hs] at hr
      cases hr
    | ok r =>
      rw [hs] at hr
      obtain ⟨k1, k2, k3⟩ := add_sample_keeps h s.1 s.2 r hs hwf
      obtain ⟨j1, j2, j3⟩ := ih r.2 hr k1
      exact ⟨j1, j2.trans k2, j3.trans k3⟩

theorem bank_reset_loop_eq (hs : List scalar_histogram) :
    scalar_histogram_flavors.reset_loop hs = hs.map scalar_histogram.reset := by
  induction hs with
  | nil => rfl
  | cons h rest ih => simp [scalar_histogram_flavors.reset_loop, ih]

/-- C16: for every scalar histogram `h` reached from `init(B, M)` by a sequence of
`add_sample` calls, `reset()` leaves every entry of the sum, sum-of-squares and count
buffers at 0 and the sample counter at 0, and leaves `B`, `M` and the three buffer
lengths as they were: the state is that of a histogram freshly initialised with the same
`(B, M)`.  The bank's `reset()` applies the scalar `reset()` to every flavor and leaves
the bank's own members unchanged. -/
theorem reset_restores_init (h0 h : scalar_histogram) (B : Int) (M : ℚ)
    (samples : List (ℚ × ℚ))
    (hreach : (h0.init B M).add_samples samples = Except.ok h) :
    h.reset = h0.init B M ∧
    (∀ x ∈ h.reset.sumval, x = 0) ∧ (∀ x ∈ h.reset.sumval2, x = 0) ∧
    (∀ x ∈ h.reset.counter, x = 0) ∧ h.reset.num_sample_ = 0 ∧
    h.reset.num_bins_ = h.num_bins_ ∧ h.reset.max_val_ = h.max_val_ ∧
    h.reset.sumval.length = h.sumval.length ∧ h.reset.sumval2.length = h.sumval2.length ∧
    h.reset.counter.length = h.counter.length ∧
    (∀ b : scalar_histogram_flavors,
      b.reset.histograms = b.histograms.map scalar_histogram.reset ∧
      b.reset.flavors = b.flavors ∧ b.reset.num_bins = b.num_bins ∧
      b.reset.max_val = b.max_val) := by
  have hwf0 : (h0.init B M).well_formed := by
    simp [scalar_histogram.well_formed, scalar_histogram.init]
  obtain ⟨hwf, hb, hm⟩ := add_samples_keeps samples _ h hreach hwf0
  have hreset := reset_eq h hwf
  obtain ⟨w1, w2, w3⟩ := hwf
  refine ⟨?_, ?_, ?_, ?_, ?_, ?_, ?_, ?_, ?_, ?_, ?_⟩
  · rw [hreset, hb, hm]
    rfl
  · rw [hreset]
    intro x hx
    exact List.eq_of_mem_replicate hx
  · rw [hreset]
    intro x hx
    exact List.eq_of_mem_replicate hx
  · rw [hreset]
    intro x hx
    exact List.eq_of_mem_replicate hx
  · rw [hreset]
  · rw [hreset]
  · rw [hreset]
  · rw [hreset, w1]
    simp
  · rw [hreset, w2]
    simp
  · rw [hreset, w3]
    simp
  · intro b
    exact ⟨bank_reset_loop_eq b.histograms, rfl, rfl, rfl⟩

theorem reset_restores_init_witness :
    (scalar_histogram.ctor0.init 4 8).add_samples [(5 / 2, 10), (8, 1)] =
      Except.ok (scalar_histogram.mk 4 1 8 [0, 10, 0, 0] [0, 100, 0, 0] [0, 1, 0, 0]) ∧
    (scalar_histogram.mk 4 1 8 [0, 10, 0, 0] [0, 100, 0, 0] [0, 1, 0, 0]).reset =
      scalar_histogram.ctor0.init 4 8 := by
  have hf : ⌊((4 : Int) : ℚ) * (5 / 2) / 8⌋ = 1 := by norm_num
  have hreach : (scalar_histogram.ctor0.init 4 8).add_samples [(5 / 2, 10), (8, 1)] =
      Except.ok (scalar_histogram.mk 4 1 8 [0, 10, 0, 0] [0, 100, 0, 0] [0, 1, 0, 0]) := by
    simp only [scalar_histogram.add_samples, scalar_histogram.add_sample,
      scalar_histogram.init, hf]
    norm_num [List.replicate]
  exact ⟨hreach, (reset_restores_init scalar_histogram.ctor0 _ 4 8 [(5 / 2, 10), (8, 1)]
    hreach).1⟩

/-! ## Theorems: the bank's flattened accessors -/

theorem get_mean_loop_length (h : scalar_histogram) (n i : Nat) (mean : List ieee_quotient) :
    (h.get_mean_loop n i mean).length = mean.length := by
  induction n generalizing i mean with
  | zero => simp [scalar_histogram.get_mean_loop]
  | succ n ih => simp [scalar_histogram.get_mean_loop, ih]

theorem scan_bins_peak (st cs : List ℚ) (i : Nat) (m : ℚ) (hno : ∀ c ∈ cs, ¬ c < 10) :
    m ≤ (scalar_histogram.scan_bins st cs i m).2 ∧
      (∀ j, j < cs.length →
        st.getD (i + j) 0 / cs.getD j 0 ≤ (scalar_histogram.scan_bins st cs i m).2) ∧
      ((scalar_histogram.scan_bins st cs i m).2 = m ∨
        ∃ j, j < cs.length ∧
          (scalar_histogram.scan_bins st cs i m).2 = st.getD (i + j) 0 / cs.getD j 0) := by
  induction cs generalizing i m with
  | nil => simp [scalar_histogram.scan_bins]
  | cons x rest ih =>
    have hx : ¬ x < 10 := hno x (List.mem_cons_self _ _)
    obtain ⟨h1, h2, h3⟩ := ih (i + 1) (max m (st.getD i 0 / x))
      (fun a ha => hno a (List.mem_cons_of_mem _ ha))
    simp only [scalar_histogram.scan_bins, scalar_histogram.min_count, hx, if_false]
    refine ⟨le_trans (le_max_left _ _) h1, ?_, ?_⟩
    · intro j hj
      cases j with
      | zero => exact le_trans (le_max_right _ _) h1
      | succ j =>
        have := h2 j (by simpa using hj)
        have e : i + 1 + j = i + (j + 1) := by omega
        rw [e] at this
        simpa using this
    · rcases h3 with h3 | ⟨j, hj, h3⟩
      · rcases max_choice m (st.getD i 0 / x) with h4 | h4
        · left
          rw [h3, h4]
        · right
          exact ⟨0, by simp, by rw [h3, h4]; simp⟩
      · right
        refine ⟨j + 1, by simpa using hj, ?_⟩
        have e : i + 1 + j = i + (j + 1) := by omega
        rw [h3, e]
        simp

theorem update_cutoff_round_some (M : ℚ) (cg sg : List ℚ) (c mag D D1 : ℚ)
    (hr : scalar_histogram.update_cutoff_round M cg sg c mag D = Except.ok (some D1)) :
    ∃ ct st, rebin4 cg M D 4 = Except.ok ct ∧ rebin4 sg M D 4 = Except.ok st ∧
      ¬ ((scalar_histogram.scan_bins st ct 0 (-1)).1 = true ∨
        (scalar_histogram.scan_bins st ct 0 (-1)).2 < 0) ∧
      D1 = if (ieee_div (st.getD 3 0 / ct.getD 3 0)
          (scalar_histogram.scan_bins st ct 0 (-1)).2).gt c = true then D * mag
        else if (ieee_div (st.getD 3 0 / ct.getD 3 0)
          (scalar_histogram.scan_bins st ct 0 (-1)).2).lt c = true then D / mag
        else D := by
  simp only [scalar_histogram.update_cutoff_round, scalar_histogram.ndiv] at hr
  cases h1 : rebin4 cg M D 4 with
  | error e =>
    rw [h1] at hr
    cases hr
  | ok ct =>
    cases h2 : rebin4 sg M D 4 with
    | error e =>
      rw [h1, h2] at hr
      cases hr
    | ok st =>
      rw [h1, h2] at hr
      simp only [] at hr
      refine ⟨ct, st, rfl, rfl, ?_⟩
      by_cases hstop : (scalar_histogram.scan_bins st ct 0 (-1)).1 = true ∨
          (scalar_histogram.scan_bins st ct 0 (-1)).2 < 0
      · rw [if_pos hstop] at hr
        cases hr
      · rw [if_neg hstop] at hr
        refine ⟨hstop, ?_⟩
        split at hr
        · rename_i hgt
          rw [if_pos hgt]
          simp only [Except.ok.injEq, Option.some.injEq] at hr
          exact hr.symm
        · rename_i hgt
          rw [if_neg hgt]
          split at hr
          · rename_i hlt
            rw [if_pos hlt]
            simp only [Except.ok.injEq, Option.some.injEq] at hr
            exact hr.symm
          · rename_i hlt
            rw [if_neg hlt]
            simp only [Except.ok.injEq, Option.some.injEq] at hr
            exact hr.symm

theorem candidate_after_succ (M : ℚ) (cg sg : List ℚ) (c mag : ℚ) (k : Nat) (D0 D1 : ℚ) :
    scalar_histogram.candidate_after M cg sg c mag (k + 1) D0 = some D1 ↔
      ∃ D, scalar_histogram.candidate_after M cg sg c mag k D0 = some D ∧
        scalar_histogram.update_cutoff_round M cg sg c mag D = Except.ok (some D1) := by
  induction k generalizing D0 with
  | zero =>
    simp only [scalar_histogram.candidate_after, Option.some.injEq, exists_eq_left']
    cases hr : scalar_histogram.update_cutoff_round M cg sg c mag D0 with
    | error e => simp
    | ok o =>
      cases o with
      | none => simp
      | some D2 => simp
  | succ k ih =>
    rw [scalar_histogram.candidate_after]
    cases hr : scalar_histogram.update_cutoff_round M cg sg c mag D0 with
    | error e => simp [scalar_histogram.candidate_after, hr]
    | ok o =>
      cases o with
      | none => simp [scalar_histogram.candidate_after, hr]
      | some D2 =>
        simp only []
        rw [ih D2]
        constructor
        · rintro ⟨D, h1, h2⟩
          exact ⟨D, by rw [scalar_histogram.candidate_after, hr]; exact h1, h2⟩
        · rintro ⟨D, h1, h2⟩
          rw [scalar_histogram.candidate_after, hr] at h1
          exact ⟨D, h1, h2⟩

theorem ieee_lt_not_gt (r : ieee_quotient) (c : ℚ) (h : r.lt c = true) : r.gt c = false := by
  cases r with
  | nan => rfl
  | neg_inf => rfl
  | finite q =>
    simp only [ieee_quotient.lt, decide_eq_true_eq] at h
    simp only [ieee_quotient.gt, decide_eq_false_iff_not, not_lt]
    exact h.le
  | pos_inf => simp [ieee_quotient.lt] at h

/-- C17: in a round of the scalar `update_cutoff` that is entered with the candidate `D`
and does not stop the search, the coarse bins are rebinned from the aggregated buffers of
the histogram (whatever the rounds before), each holds at least 10 samples, the peak is
one of the 4 coarse means sum/count and the greatest of them (not the sentinel -1.0),
`ratio` is the quotient of the mean of coarse bin 3 by the peak, and the next round is
entered with `D*mag` if `ratio > cutoff_ratio`, with `D/mag` if `ratio < cutoff_ratio`,
and with `D` if `ratio = cutoff_ratio` (and also when the peak is 0 and `ratio` compares
neither way). -/
theorem update_cutoff_round_rule (h : scalar_histogram) (c maxdist mag : ℚ) (k : Nat)
    (D D1 : ℚ)
    (hk : scalar_histogram.candidate_after h.max_val_ h.counter h.sumval c mag k maxdist =
      some D)
    (hk1 : scalar_histogram.candidate_after h.max_val_ h.counter h.sumval c mag (k + 1)
      maxdist = some D1) :
    ∃ ct st peak, rebin4 h.counter h.max_val_ D 4 = Except.ok ct ∧
      rebin4 h.sumval h.max_val_ D 4 = Except.ok st ∧
      (∀ i, i < 4 → 10 ≤ ct.getD i 0) ∧
      (∃ i, i < 4 ∧ peak = st.getD i 0 / ct.getD i 0) ∧
      (∀ i, i < 4 → st.getD i 0 / ct.getD i 0 ≤ peak) ∧ 0 ≤ peak ∧
      (peak ≠ 0 → ieee_div (st.getD 3 0 / ct.getD 3 0) peak =
        ieee_quotient.finite (st.getD 3 0 / ct.getD 3 0 / peak)) ∧
      ((ieee_div (st.getD 3 0 / ct.getD 3 0) peak).gt c = true → D1 = D * mag) ∧
      ((ieee_div (st.getD 3 0 / ct.getD 3 0) peak).lt c = true → D1 = D / mag) ∧
      (ieee_div (st.getD 3 0 / ct.getD 3 0) peak = ieee_quotient.finite c → D1 = D) ∧
      ((ieee_div (st.getD 3 0 / ct.getD 3 0) peak).gt c = false →
        (ieee_div (st.getD 3 0 / ct.getD 3 0) peak).lt c = false → D1 = D) := by
  obtain ⟨D2, h1, h2⟩ := (candidate_after_succ _ _ _ _ _ k maxdist D1).1 hk1
  rw [hk] at h1
  cases h1
  obtain ⟨ct, st, hct, hst, hstop, hD1⟩ := update_cutoff_round_some _ _ _ _ _ D D1 h2
  have hlen : ct.length = 4 := rebin4_length _ _ _ _ _ hct
  push_neg at hstop
  obtain ⟨hflag, hpeak⟩ := hstop
  have hno : ∀ x ∈ ct, ¬ x < 10 := by
    intro x hx hlt
    exact hflag ((scan_bins_flag st ct 0 (-1)).2 ⟨x, hx, hlt⟩)
  obtain ⟨_, p2, p3⟩ := scan_bins_peak st ct 0 (-1) hno
  rw [hlen] at p2 p3
  refine ⟨ct, st, (scalar_histogram.scan_bins st ct 0 (-1)).2, hct, hst, ?_, ?_, ?_, hpeak,
    ?_, ?_, ?_, ?_, ?_⟩
  · intro i hi
    have hmem : ct.getD i 0 ∈ ct := by
      rw [List.getD_eq_getElem _ _ (by omega)]
      exact List.getElem_mem _
    exact not_lt.1 (hno _ hmem)
  · rcases p3 with p3 | ⟨j, hj, p3⟩
    · rw [p3] at hpeak
      norm_num at hpeak
    · exact ⟨j, hj, by rw [p3, Nat.zero_add]⟩
  · intro i hi
    have := p2 i hi
    rwa [Nat.zero_add] at this
  · intro hne
    simp only [ieee_div, hne, if_false]
  · intro hgt
    rw [hD1, if_pos hgt]
  · intro hlt
    rw [hD1, if_neg (by rw [ieee_lt_not_gt _ _ hlt]; simp), if_pos hlt]
  · intro heq
    rw [hD1, heq]
    simp [ieee_quotient.gt, ieee_quotient.lt]
  · intro hgt hlt
    rw [hD1, hgt, hlt]
    simp

theorem update_cutoff_round_rule_witness :
    scalar_histogram.candidate_after 1 [20, 20, 20, 20, 20, 20, 20, 20]
      [20, 20, 20, 1, 1, 1, 1, 1] (1 / 2) 2 0 (1 / 2) = some (1 / 2) ∧
    scalar_histogram.candidate_after 1 [20, 20, 20, 20, 20, 20, 20, 20]
      [20, 20, 20, 1, 1, 1, 1, 1] (1 / 2) 2 1 (1 / 2) = some (1 / 4) ∧
    ∃ ct st peak, rebin4 [20, 20, 20, 20, 20, 20, 20, 20] 1 (1 / 2) 4 = Except.ok ct ∧
      rebin4 [20, 20, 20, 1, 1, 1, 1, 1] 1 (1 / 2) 4 = Except.ok st ∧
      (∃ i, i < 4 ∧ peak = st.getD i 0 / ct.getD i 0) ∧
      ((ieee_div (st.getD 3 0 / ct.getD 3 0) peak).lt (1 / 2) = true →
        (1 / 4 : ℚ) = 1 / 2 / 2) := by
  have a1 : rebin4 [20, 20, 20, 20, 20, 20, 20, 20] 1 (1 / 2) 4 =
      Except.ok [20, 20, 20, 20] := by
    norm_num [rebin4, rebin4_loop, List.replicate, toNat_two, toNat_three]
  have a2 : rebin4 [20, 20, 20, 1, 1, 1, 1, 1] 1 (1 / 2) 4 = Except.ok [20, 20, 20, 1] := by
    norm_num [rebin4, rebin4_loop, List.replicate, toNat_two, toNat_three]
  have r1 : scalar_histogram.update_cutoff_round 1 [20, 20, 20, 20, 20, 20, 20, 20]
      [20, 20, 20, 1, 1, 1, 1, 1] (1 / 2) 2 (1 / 2) = Except.ok (some (1 / 4)) := by
    simp only [scalar_histogram.update_cutoff_round, scalar_histogram.ndiv, a1, a2,
      scalar_histogram.scan_bins, scalar_histogram.min_count]
    norm_num [ieee_div, ieee_quotient.gt, ieee_quotient.lt]
  have c0 : scalar_histogram.candidate_after 1 [20, 20, 20, 20, 20, 20, 20, 20]
      [20, 20, 20, 1, 1, 1, 1, 1] (1 / 2) 2 0 (1 / 2) = some (1 / 2) := rfl
  have c1 : scalar_histogram.candidate_after 1 [20, 20, 20, 20, 20, 20, 20, 20]
      [20, 20, 20, 1, 1, 1, 1, 1] (1 / 2) 2 1 (1 / 2) = some (1 / 4) := by
    simp only [scalar_histogram.candidate_after, r1]
  obtain ⟨ct, st, peak, h1, h2, _, h4, _, _, _, _, h9, _, _⟩ :=
    update_cutoff_round_rule
      (scalar_histogram.mk 8 160 1 [20, 20, 20, 1, 1, 1, 1, 1] [20, 20, 20, 1, 1, 1, 1, 1]
        [20, 20, 20, 20, 20, 20, 20, 20]) (1 / 2) (1 / 2) 2 0 (1 / 2) (1 / 4) c0 c1
  exact ⟨c0, c1, ct, st, peak, h1, h2, h4, h9⟩

/-! ## Theorems: the range of the candidate -/

theorem update_cutoff_ok_unfold (h : scalar_histogram) (c maxdist mag : ℚ) (r : Bool × ℚ)
    (hr : h.update_cutoff c maxdist mag = Except.ok r) :
    1 ≤ mag ∧
      scalar_histogram.update_cutoff_loop h.max_val_ h.counter h.sumval c mag 10 maxdist =
        Except.ok r := by
  by_cases hc : 0 ≤ c ∧ c ≤ 1
  · by_cases hmag : 1 ≤ mag
    · by_cases hlen : h.sumval.length = h.counter.length
      · by_cases hpos : 0 < h.counter.length
        · rw [update_cutoff_eq_loop h c maxdist mag hc.1 hc.2 hmag hlen hpos] at hr
          exact ⟨hmag, hr⟩
        · simp [scalar_histogram.update_cutoff, all_reduce, hc, hmag, hlen, hpos] at hr
      · simp [scalar_histogram.update_cutoff, hc, hmag, hlen] at hr
    · simp [scalar_histogram.update_cutoff, hc, hmag] at hr
  · simp only [scalar_histogram.update_cutoff, hc, not_false_eq_true, if_true] at hr
    cases hr

theorem update_cutoff_round_step (M : ℚ) (cg sg : List ℚ) (c mag D D1 : ℚ) (hmag : 1 ≤ mag)
    (hr : scalar_histogram.update_cutoff_round M cg sg c mag D = Except.ok (some D1)) :
    ∃ e : Int, -1 ≤ e ∧ e ≤ 1 ∧ D1 = D * mag ^ e := by
  have hm : mag ≠ 0 := by linarith
  obtain ⟨ct, st, _, _, _, hD1⟩ := update_cutoff_round_some M cg sg c mag D D1 hr
  split at hD1
  · exact ⟨1, by norm_num, by norm_num, by rw [hD1, zpow_one]⟩
  · split at hD1
    · exact ⟨-1, by norm_num, by norm_num, by rw [hD1, zpow_neg_one, div_eq_mul_inv]⟩
    · exact ⟨0, by norm_num, by norm_num, by rw [hD1, zpow_zero, mul_one]⟩

theorem update_cutoff_loop_power (M : ℚ) (cg sg : List ℚ) (c mag : ℚ) (n : Nat) (D : ℚ)
    (r : Bool × ℚ) (hmag : 1 ≤ mag)
    (hr : scalar_histogram.update_cutoff_loop M cg sg c mag n D = Except.ok r) :
    ∃ (j : Nat) (k : Int), j ≤ n ∧
      scalar_histogram.candidate_after M cg sg c mag j D = some r.2 ∧
      -(j : Int) ≤ k ∧ k ≤ (j : Int) ∧ r.2 = D * mag ^ k := by
  have hm : mag ≠ 0 := by linarith
  induction n generalizing D with
  | zero =>
    simp only [scalar_histogram.update_cutoff_loop, Except.ok.injEq] at hr
    rw [← hr]
    exact ⟨0, 0, le_refl _, rfl, by norm_num, by norm_num, by simp⟩
  | succ n ih =>
    simp only [scalar_histogram.update_cutoff_loop] at hr
    cases hround : scalar_histogram.update_cutoff_round M cg sg c mag D with
    | error e =>
      rw [hround] at hr
      cases hr
    | ok o =>
      rw [hround] at hr
      cases o with
      | none =>
        simp only [Except.ok.injEq] at hr
        rw [← hr]
        exact ⟨0, 0, Nat.zero_le _, rfl, by norm_num, by norm_num, by simp⟩
      | some D1 =>
        simp only [] at hr
        obtain ⟨j, k, hj, hcand, hk1, hk2, hval⟩ := ih D1 hr
        obtain ⟨e, he1, he2, hD1⟩ := update_cutoff_round_step M cg sg c mag D D1 hmag hround
        refine ⟨j + 1, e + k, by omega, ?_, by push_cast; omega, by push_cast; omega, ?_⟩
        · rw [scalar_histogram.candidate_after, hround]
          exact hcand
        · rw [hval, hD1, zpow_add₀ hm, mul_assoc]

/-- C19: when the scalar `update_cutoff`, called with `current_maxdist > 0` and
magnification factor `m`, returns a candidate `d` (the call then has `m ≥ 1`), there are
a number `n ≤ 10` of rounds completed before the return and an integer `k` with
`|k| ≤ n`, so `-10 ≤ k ≤ 10`, such that `d = current_maxdist * m^k`; hence
`current_maxdist / m^10 ≤ d ≤ current_maxdist * m^10`, `d > 0`, and `d` is
`current_maxdist` when `m = 1`. -/
theorem update_cutoff_candidate_power (h : scalar_histogram) (c maxdist mag : ℚ)
    (b : Bool) (d : ℚ) (hD : 0 < maxdist)
    (hr : h.update_cutoff c maxdist mag = Except.ok (b, d)) :
    1 ≤ mag ∧
    ∃ (n : Nat) (k : Int), n ≤ 10 ∧
      scalar_histogram.candidate_after h.max_val_ h.counter h.sumval c mag n maxdist =
        some d ∧
      -(n : Int) ≤ k ∧ k ≤ (n : Int) ∧ -10 ≤ k ∧ k ≤ 10 ∧
      d = maxdist * mag ^ k ∧
      maxdist / mag ^ (10 : Nat) ≤ d ∧ d ≤ maxdist * mag ^ (10 : Nat) ∧ 0 < d ∧
      (mag = 1 → d = maxdist) := by
  obtain ⟨hmag, hloop⟩ := update_cutoff_ok_unfold h c maxdist mag (b, d) hr
  obtain ⟨n, k, hn, hcand, hk1, hk2, hval⟩ :=
    update_cutoff_loop_power _ _ _ _ _ 10 maxdist (b, d) hmag hloop
  simp only [] at hcand hval
  have hm : 0 < mag := by linarith
  have hkl : -10 ≤ k := by omega
  have hku : k ≤ 10 := by omega
  have hup : mag ^ k ≤ mag ^ (10 : Nat) := by
    rw [← zpow_natCast]
    exact zpow_le_zpow_right₀ hmag (by exact_mod_cast hku)
  have hlow : (mag ^ (10 : Nat))⁻¹ ≤ mag ^ k := by
    rw [← zpow_natCast, ← zpow_neg]
    exact zpow_le_zpow_right₀ hmag (by exact_mod_cast hkl)
  refine ⟨hmag, n, k, hn, hcand, hk1, hk2, hkl, hku, hval, ?_, ?_, ?_, ?_⟩
  · rw [hval, div_eq_mul_inv]
    exact mul_le_mul_of_nonneg_left hlow hD.le
  · rw [hval]
    exact mul_le_mul_of_nonneg_left hup hD.le
  · rw [hval]
    exact mul_pos hD (zpow_pos hm k)
  · intro h1
    rw [hval, h1, one_zpow, mul_one]

theorem update_cutoff_candidate_power_witness :
    (0 : ℚ) < 1 / 2 ∧
    scalar_histogram.update_cutoff
      (scalar_histogram.mk 8 160 1 [20, 20, 20, 1, 1, 1, 1, 1]
        [20, 20, 20, 1, 1, 1, 1, 1] [20, 20, 20, 20, 20, 20, 20, 20]) (1 / 2) (1 / 2) 2 =
      Except.ok (false, 1 / 4) ∧
    ∃ (n : Nat) (k : Int), n ≤ 10 ∧ -(n : Int) ≤ k ∧ k ≤ (n : Int) ∧
      (1 / 4 : ℚ) = 1 / 2 * 2 ^ k := by
  have a1 : rebin4 [20, 20, 20, 20, 20, 20, 20, 20] 1 (1 / 2) 4 =
      Except.ok [20, 20, 20, 20] := by
    norm_num [rebin4, rebin4_loop, List.replicate, toNat_two, toNat_three]
  have a2 : rebin4 [20, 20, 20, 1, 1, 1, 1, 1] 1 (1 / 2) 4 = Except.ok [20, 20, 20, 1] := by
    norm_num [rebin4, rebin4_loop, List.replicate, toNat_two, toNat_three]
  have a3 : rebin4 [20, 20, 20, 20, 20, 20, 20, 20] 1 (1 / 4) 4 =
      Except.ok [0, 20, 0, 20] := by
    norm_num [rebin4, rebin4_loop, List.replicate, toNat_two, toNat_three]
  have a4 : rebin4 [20, 20, 20, 1, 1, 1, 1, 1] 1 (1 / 4) 4 = Except.ok [0, 20, 0, 20] := by
    norm_num [rebin4, rebin4_loop, List.replicate, toNat_two, toNat_three]
  have r1 : scalar_histogram.update_cutoff_round 1 [20, 20, 20, 20, 20, 20, 20, 20]
      [20, 20, 20, 1, 1, 1, 1, 1] (1 / 2) 2 (1 / 2) = Except.ok (some (1 / 4)) := by
    simp only [scalar_histogram.update_cutoff_round, scalar_histogram.ndiv, a1, a2,
      scalar_histogram.scan_bins, scalar_histogram.min_count]
    norm_num [ieee_div, ieee_quotient.gt, ieee_quotient.lt]
  have r2 : scalar_histogram.update_cutoff_round 1 [20, 20, 20, 20, 20, 20, 20, 20]
      [20, 20, 20, 1, 1, 1, 1, 1] (1 / 2) 2 (1 / 4) = Except.ok none := by
    simp only [scalar_histogram.update_cutoff_round, scalar_histogram.ndiv, a3, a4,
      scalar_histogram.scan_bins, scalar_histogram.min_count]
    norm_num
  have u1 : scalar_histogram.update_cutoff
      (scalar_histogram.mk 8 160 1 [20, 20, 20, 1, 1, 1, 1, 1]
        [20, 20, 20, 1, 1, 1, 1, 1] [20, 20, 20, 20, 20, 20, 20, 20]) (1 / 2) (1 / 2) 2 =
      Except.ok (false, 1 / 4) := by
    rw [update_cutoff_eq_loop _ _ _ _ (by norm_num) (by norm_num) (by norm_num) (by simp)
      (by simp)]
    rw [update_cutoff_loop_next _ _ _ _ _ 9 _ _ r1]
    exact update_cutoff_loop_stop _ _ _ _ _ 8 _ r2
  obtain ⟨_, n, k, h1, _, h3, h4, _, _, h7, _⟩ :=
    update_cutoff_candidate_power _ (1 / 2) (1 / 2) 2 false (1 / 4) (by norm_num) u1
  exact ⟨by norm_num, u1, n, k, h1, h3, h4, h7⟩

/-! ## Theorems: the assertion of the domain remap -/

/-- C18 (the code at the failing input): with 4 bins over `[0, 1)`, 10 samples and the
sum 10 in every bin, the call `update_cutoff(1/2, 1, 2)` satisfies the preconditions of
`update_cutoff` and `0 < current_maxdist ≤ M`; its first round finds the ratio 1 above
`cutoff_ratio` and raises the candidate to 2, above the bound 1, and the second round
calls the remap with that candidate, whose assertion `maxval_new<=maxval` fails. -/
theorem update_cutoff_violates_rebin_assertion :
    scalar_histogram.candidate_after 1 [10, 10, 10, 10] [10, 10, 10, 10] (1 / 2) 2 1 1 =
      some 2 ∧
    rebin4 [10, 10, 10, 10] 1 2 4 = Except.error "assert(maxval_new<=maxval)" ∧
    scalar_histogram.update_cutoff
      (scalar_histogram.mk 4 40 1 [10, 10, 10, 10] [10, 10, 10, 10] [10, 10, 10, 10])
      (1 / 2) 1 2 = Except.error "assert(maxval_new<=maxval)" := by
  have e1 : rebin4 [10, 10, 10, 10] 1 1 4 = Except.ok [10, 10, 10, 10] := by
    norm_num [rebin4, rebin4_loop, List.replicate, toNat_two, toNat_three]
  have e2 : rebin4 [10, 10, 10, 10] 1 2 4 = Except.error "assert(maxval_new<=maxval)" := by
    norm_num [rebin4]
  have r1 : scalar_histogram.update_cutoff_round 1 [10, 10, 10, 10] [10, 10, 10, 10]
      (1 / 2) 2 1 = Except.ok (some 2) := by
    simp only [scalar_histogram.update_cutoff_round, scalar_histogram.ndiv, e1,
      scalar_histogram.scan_bins, scalar_histogram.min_count]
    norm_num [ieee_div, ieee_quotient.gt, ieee_quotient.lt]
  have r2 : scalar_histogram.update_cutoff_round 1 [10, 10, 10, 10] [10, 10, 10, 10]
      (1 / 2) 2 2 = Except.error "assert(maxval_new<=maxval)" := by
    simp only [scalar_histogram.update_cutoff_round, scalar_histogram.ndiv, e2]
  refine ⟨by simp only [scalar_histogram.candidate_after, r1], e2, ?_⟩
  rw [update_cutoff_eq_loop _ _ _ _ (by norm_num) (by norm_num) (by norm_num) (by simp)
    (by simp)]
  rw [update_cutoff_loop_next _ _ _ _ _ 9 _ _ r1]
  simp only [scalar_histogram.update_cutoff_loop, r2]

end CTHYB
